import Mathlib

/-!
Advent of Code 2023, days 1 to 5: a shallow embedding of the solver classes of
`src/` and the properties proved about them.

* `int` and `long long` values are modelled by `Int`.  The arithmetic of the
  source is that of the machine: a sum, difference or product that does not fit
  the type is reduced modulo `2^32` or `2^64` into the range of the type, which
  the functions `wrap32` and `wrap64` below compute.  They are applied wherever
  the source adds, subtracts or multiplies values that can leave the range; a
  sum that the guard around it keeps in range (a counter, `overlapStart - 1`
  under `a < overlapStart`) is written without them.
* `std::vector` is modelled by `List`, `push_back` by appending at the end.
* The member functions that mutate an object take the object and return the new
  object.  A vector read past the end (for instance `seeds[i+1]` in
  `setSeedIntervals` for a seed list of odd length) is reported as `none`.
-/

/-! ## Machine integers -/

/-- The `int` value that a 32-bit two's-complement operation stores when its
mathematical result is `x`: the integer of `[-2^31, 2^31 - 1]` congruent to `x`
modulo `2^32`. -/
def wrap32 (x : Int) : Int :=
  (x + 2147483648) % 4294967296 - 2147483648

/-- The `long long` value that a 64-bit two's-complement operation stores when
its mathematical result is `x`: the integer of `[-2^63, 2^63 - 1]` congruent to
`x` modulo `2^64`. -/
def wrap64 (x : Int) : Int :=
  (x + 9223372036854775808) % 18446744073709551616 - 9223372036854775808

/-- The value `std::numeric_limits<int>::max()`. -/
def INT_MAX : Int := 2147483647

/-- The value `std::numeric_limits<int>::min()`. -/
def INT_MIN : Int := -2147483648

/-! ## Day 1: calibration values (`src/Day_1/WeatherCalibration.h`, `WeatherCalibration.cpp`)

A line is the list of its one-byte characters; `int` values are modelled by
`Int`; a position returned by `find` is `some` index or `none` for
`std::string::npos` (which the source stores in an `int` as `-1`). -/

namespace Day1

/-- The data members of the class `WeatherCalibration1` (the constant member
`letterDigits` is a definition below). -/
structure WeatherCalibration1 where
  puzzleInput : String
  calibrationLines : List String
  digitValues : List (Int × Int)
  digitIndexes : List (Int × Int)
deriving DecidableEq, Repr

/-- The member `letterDigits`. -/
def letterDigits : List (String × Int) :=
  [("one", 1), ("two", 2), ("three", 3), ("four", 4), ("five", 5), ("six", 6),
   ("seven", 7), ("eight", 8), ("nine", 9)]

/-- The test `isdigit(c)`. -/
def isdigit (c : Char) : Bool :=
  48 ≤ c.toNat && c.toNat ≤ 57

/-- The expression `c - '0'`. -/
def digitOf (c : Char) : Int :=
  (c.toNat : Int) - 48

/-- The locals `first`, `last`, `values` and `indexes` of
`computeCalibrationValue1`. -/
structure DigitScan where
  first : Int
  last : Int
  values : Int × Int
  indexes : Int × Int
deriving DecidableEq, Repr

/-- The character `str[i]` (the loops only read positions inside the string). -/
def charAt (str : List Char) (i : Nat) : Char :=
  str.getD i (Char.ofNat 0)

/-- The body of the loop of `computeCalibrationValue1` for the index `i`. -/
def scanStep (str : List Char) (st : DigitScan) (i : Nat) : DigitScan :=
  let len := str.length
  let st1 :=
    if st.first < 0 then
      if isdigit (charAt str i) then
        { st with first := digitOf (charAt str i),
                  values := (digitOf (charAt str i), st.values.2),
                  indexes := ((i : Int), st.indexes.2) }
      else st
    else st
  if st1.last < 0 then
    if isdigit (charAt str (len - 1 - i)) then
      { st1 with last := digitOf (charAt str (len - 1 - i)),
                 values := (st1.values.1, digitOf (charAt str (len - 1 - i))),
                 indexes := (st1.indexes.1, ((len - 1 - i : Nat) : Int)) }
    else st1
  else st1

/-- The function `WeatherCalibration1::computeCalibrationValue1`: the returned
value and the object after the call. -/
def WeatherCalibration1.computeCalibrationValue1 (w : WeatherCalibration1) (str : String)
    (_detail : Bool) : Int × WeatherCalibration1 :=
  let st := (List.range str.data.length).foldl (scanStep str.data) ⟨-1, -1, (-1, -1), (-1, -1)⟩
  (st.values.1 * 10 + st.values.2,
   { w with digitValues := w.digitValues ++ [st.values],
            digitIndexes := w.digitIndexes ++ [st.indexes] })

/-- The function `WeatherCalibration1::readPuzzleInput1` on the lines of the file. -/
def WeatherCalibration1.readPuzzleInput1 (w : WeatherCalibration1) (file : List String) :
    WeatherCalibration1 :=
  file.foldl
    (fun w s =>
      let w1 := (w.computeCalibrationValue1 s false).2
      { w1 with calibrationLines := w1.calibrationLines ++ [s] })
    w

/-- The search of `pat` in the characters `text`, which start at position `idx`. -/
def findAux (pat : List Char) : List Char → Nat → Option Nat
  | [], idx => if pat.isEmpty then some idx else none
  | c :: cs, idx => if pat.isPrefixOf (c :: cs) then some idx else findAux pat cs (idx + 1)

/-- The call `s.find(pat, start)`: the first position at or after `start` where
`pat` occurs, `none` for `npos`. -/
def find (pat s : List Char) (start : Nat) : Option Nat :=
  if start ≤ s.length then findAux pat (s.drop start) start else none

/-- The locals `first`, `last`, `firstDigit` and `lastDigit` of
`computeCalibrationValue2`. -/
structure WordScan where
  first : Int
  last : Int
  firstDigit : Int
  lastDigit : Int
deriving DecidableEq, Repr

/-- The loop `while (pos != std::string::npos)` for one spelled digit, at most
`fuel` rounds (every round moves `pos` forward). -/
def wordLoop (s word : List Char) (digit : Int) : Nat → Option Nat → WordScan → WordScan
  | 0, _, st => st
  | _ + 1, none, st => st
  | fuel + 1, some pos, st =>
    let st1 :=
      if (pos : Int) < st.first then { st with first := (pos : Int), firstDigit := digit } else st
    let st2 :=
      if (pos : Int) > st1.last then { st1 with last := (pos : Int), lastDigit := digit } else st1
    wordLoop s word digit fuel (find word s (pos + 1)) st2

/-- The function `WeatherCalibration1::computeCalibrationValue2`; `none` when
`pos` is past the end of the stored vectors. -/
def WeatherCalibration1.computeCalibrationValue2 (w : WeatherCalibration1) (pos : Nat)
    (_detail : Bool) : Option Int :=
  match w.calibrationLines[pos]?, w.digitIndexes[pos]?, w.digitValues[pos]? with
  | some s, some indexes, some values =>
    let st := letterDigits.foldl
      (fun st ld =>
        wordLoop s.data ld.1.data ld.2 (s.data.length + 1) (find ld.1.data s.data 0) st)
      ⟨indexes.1, indexes.2, values.1, values.2⟩
    some (st.firstDigit * 10 + st.lastDigit)
  | _, _, _ => none

/-- What the loop body does to `first`, `values.first` and `indexes.first`. -/
def firstStep (str : List Char) (f : Int × Int × Int) (i : Nat) : Int × Int × Int :=
  if f.1 < 0 then
    if isdigit (charAt str i) then (digitOf (charAt str i), digitOf (charAt str i), (i : Int))
    else f
  else f

/-- What the loop body does to `last`, `values.second` and `indexes.second`. -/
def lastStep (str : List Char) (l : Int × Int × Int) (i : Nat) : Int × Int × Int :=
  if l.1 < 0 then
    if isdigit (charAt str (str.length - 1 - i)) then
      (digitOf (charAt str (str.length - 1 - i)), digitOf (charAt str (str.length - 1 - i)),
        ((str.length - 1 - i : Nat) : Int))
    else l
  else l

/-- The constructor `WeatherCalibration1::WeatherCalibration1(input)`. -/
def WeatherCalibration1.new (input : String) : WeatherCalibration1 :=
  { puzzleInput := input, calibrationLines := [], digitValues := [], digitIndexes := [] }

/-- The solver after reading the two lines `two1nine` and `eightwothree` of the
puzzle's second example. -/
def exampleCalibration : WeatherCalibration1 :=
  (WeatherCalibration1.new "input.txt").readPuzzleInput1 ["two1nine", "eightwothree"]

end Day1

/-! ## Day 2: cube conundrum (`src/Day_2/CubeConundrum.h`, `CubeConundrum.cpp`)

`int` values are modelled by `Int`, the sum of the ids is an `int` sum
(`wrap32`); console output is not modelled. -/

namespace Day2

/-- The struct `CubeSet`; a default-constructed set is `⟨0, 0, 0⟩`. -/
structure CubeSet where
  red : Int
  green : Int
  blue : Int
deriving DecidableEq, Repr

/-- The struct `Game`. -/
structure Game where
  id : Int
  cubeSets : List CubeSet
deriving DecidableEq, Repr

/-- The data members of the class `CubeConundrum`. -/
structure CubeConundrum where
  puzzleInput : String
  games : List Game
deriving DecidableEq, Repr

/-- The inner loop of `getSolutionPart1` over the sets of one game: `valid`
starts `true` and is cleared by every set that exceeds a limit. -/
def CubeConundrum.gameValid (g : Game) : Bool :=
  g.cubeSets.foldl
    (fun valid set => if set.blue > 14 ∨ set.red > 12 ∨ set.green > 13 then false else valid)
    true

/-- The function `CubeConundrum::getSolutionPart1`; `solution1 += games[i].id`
is an `int` sum. -/
def CubeConundrum.getSolutionPart1 (cc : CubeConundrum) (_detail : Bool) : Int :=
  cc.games.foldl
    (fun solution1 g =>
      if CubeConundrum.gameValid g then wrap32 (solution1 + g.id) else solution1)
    0

/-- The function `CubeConundrum::minCubesNeeded`. -/
def CubeConundrum.minCubesNeeded (g : Game) : CubeSet :=
  g.cubeSets.foldl
    (fun cs curr =>
      { red := max cs.red curr.red, green := max cs.green curr.green,
        blue := max cs.blue curr.blue })
    ⟨0, 0, 0⟩

/-- The set `s` fits within the set `bound`, colour by colour. -/
def CubeSet.fits (s bound : CubeSet) : Prop :=
  s.red ≤ bound.red ∧ s.green ≤ bound.green ∧ s.blue ≤ bound.blue

/-- Every set of the game respects the limits 12 red, 13 green, 14 blue. -/
def Game.possible (g : Game) : Prop :=
  ∀ s ∈ g.cubeSets, s.red ≤ 12 ∧ s.green ≤ 13 ∧ s.blue ≤ 14

instance (g : Game) : Decidable g.possible := by
  unfold Game.possible
  infer_instance

/-- A game without sets. -/
def emptyGame : Game := ⟨1, []⟩

/-- The puzzle's first example game: `3 blue, 4 red; 1 red, 2 green, 6 blue; 2 green`. -/
def exampleGame : Game := ⟨1, [⟨4, 0, 3⟩, ⟨1, 2, 6⟩, ⟨0, 2, 0⟩]⟩

/-- A game that shows 20 red cubes at once. -/
def impossibleGame : Game := ⟨3, [⟨20, 8, 6⟩, ⟨4, 13, 5⟩, ⟨1, 5, 0⟩]⟩

/-- A solver holding the three games above. -/
def exampleConundrum : CubeConundrum :=
  { puzzleInput := "input.txt", games := [exampleGame, impossibleGame, emptyGame] }

/-- A solver holding two possible games whose ids are both `2000000000` (the
lines `Game 2000000000: 1 red`). -/
def bigIdConundrum : CubeConundrum :=
  { puzzleInput := "input.txt",
    games := [⟨2000000000, [⟨1, 0, 0⟩]⟩, ⟨2000000000, [⟨1, 0, 0⟩]⟩] }

end Day2

/-! ## Day 3: gear ratios (`src/Day_3/GearRatios.h`, `GearRatios.cpp`)

A schematic row is the list of its one-byte characters; `int` values are
modelled by `Int`, the value of a number, the gear ratio and the sum of the
ratios are computed in `int` (`wrap32`); a vector read past the end is `none`. -/

namespace Day3

/-- The struct `Symbol`. -/
structure Symbol where
  type : Char
  row : Int
  col : Int
deriving DecidableEq, Repr

/-- The struct `Number`. -/
structure Number where
  value : Int
  row : Int
  colStart : Int
  colEnd : Int
deriving DecidableEq, Repr

/-- The data members of the class `GearRatios`. -/
structure GearRatios where
  puzzleInput : String
  schematic : List String
  symbols : List Symbol
  numbers : List Number
deriving DecidableEq, Repr

/-- The test `std::isdigit(c)`. -/
def isdigit (c : Char) : Bool :=
  48 ≤ c.toNat && c.toNat ≤ 57

/-- The inner loop `while (pos < len && std::isdigit(line[pos]))` of
`parseSchematicLine`, on the characters from `pos` on: the final `val`, the
final `pos` and the characters left.  The statement
`val = val * 10 + (line[pos] - '0')` is an `int` product followed by an `int`
sum. -/
def scanNumber : List Char → Int → Nat → Int × Nat × List Char
  | [], val, pos => (val, pos, [])
  | c :: cs, val, pos =>
    if isdigit c then
      scanNumber cs (wrap32 (wrap32 (val * 10) + ((c.toNat : Int) - 48))) (pos + 1)
    else (val, pos, c :: cs)

/-- The outer loop `while (pos < len)` of `parseSchematicLine` for the row
`ind`, on the characters from `pos` on, at most `fuel` rounds (every round
moves `pos` forward); the state is the pair `(numbers, symbols)`. -/
def parseLoop (ind : Int) :
    Nat → List Char → Nat → List Number × List Symbol → List Number × List Symbol
  | 0, _, _, acc => acc
  | _ + 1, [], _, acc => acc
  | fuel + 1, c :: cs, pos, acc =>
    if isdigit c then
      let r := scanNumber (c :: cs) 0 pos
      parseLoop ind fuel r.2.2 r.2.1
        (acc.1 ++ [⟨r.1, ind, (pos : Int), (r.2.1 : Int) - 1⟩], acc.2)
    else
      parseLoop ind fuel cs (pos + 1)
        (acc.1, if c ≠ '.' then acc.2 ++ [⟨c, ind, (pos : Int)⟩] else acc.2)

/-- The function `GearRatios::parseSchematicLine`; `none` when `ind` is past the
end of `schematic`. -/
def GearRatios.parseSchematicLine (g : GearRatios) (ind : Nat) (_detail : Bool) :
    Option GearRatios :=
  match g.schematic[ind]? with
  | none => none
  | some line =>
    let r := parseLoop (ind : Int) line.data.length line.data 0 (g.numbers, g.symbols)
    some { g with numbers := r.1, symbols := r.2 }

/-- The function `GearRatios::isTouchingTwoNumbers`; `none` when `n` is past the
end of `symbols`. The loop state is the pair `(ratio, count)`, and
`ratio *= num.value` is an `int` product. -/
def GearRatios.isTouchingTwoNumbers (g : GearRatios) (n : Nat) (_detail : Bool) : Option Int :=
  match g.symbols[n]? with
  | none => none
  | some s =>
    let r0 := s.row - 1
    let r1 := s.row + 1
    let c0 := s.col - 1
    let c1 := s.col + 1
    let st := g.numbers.foldl
      (fun (st : Int × Int) num =>
        if num.row ≥ r0 ∧ num.row ≤ r1 ∧ num.colEnd ≥ c0 ∧ num.colStart ≤ c1 then
          (wrap32 (st.1 * num.value), st.2 + 1)
        else st)
      (1, 0)
    if st.2 = 2 then some st.1 else some (-1)

/-- The function `GearRatios::getSolutionPart2`; `sum += ratio` is an `int`
sum. -/
def GearRatios.getSolutionPart2 (g : GearRatios) : Int :=
  (List.range g.symbols.length).foldl
    (fun sum i =>
      match g.symbols[i]? with
      | none => sum
      | some s =>
        if s.type = '*' then
          match g.isTouchingTwoNumbers i false with
          | some ratio => if ratio > 0 then wrap32 (sum + ratio) else sum
          | none => sum
        else sum)
    0

/-- The character of the row at column `i`. -/
def charAt (line : List Char) (i : Nat) : Char :=
  line.getD i (Char.ofNat 0)

/-- The decimal value of a list of digits. -/
def decimalValue (digits : List Char) : Int :=
  digits.foldl (fun val c => val * 10 + ((c.toNat : Int) - 48)) 0

/-- Column `i` starts a maximal run of digits: it holds a digit and the column
before it, if any, does not. -/
def startsRun (line : List Char) (i : Nat) : Bool :=
  isdigit (charAt line i) && (i == 0 || !isdigit (charAt line (i - 1)))

/-- The number of the maximal run of digits that starts at column `i`: the run
is the longest stretch of digits from column `i` on. -/
def numberAt (ind : Int) (line : List Char) (i : Nat) : Number :=
  { value := decimalValue ((line.drop i).takeWhile isdigit), row := ind, colStart := (i : Int),
    colEnd := (i : Int) + (((line.drop i).takeWhile isdigit).length : Int) - 1 }

/-- The number as `parseSchematicLine` stores it: its value held in an `int`. -/
def storedNumber (n : Number) : Number :=
  { n with value := wrap32 n.value }

/-- The numbers of a row: one per maximal run of digits, left to right. -/
def numbersOfLine (ind : Int) (line : List Char) : List Number :=
  ((List.range line.length).filter (startsRun line)).map (numberAt ind line)

/-- Column `i` holds a symbol: a character that is neither a digit nor `.`. -/
def holdsSymbol (line : List Char) (i : Nat) : Bool :=
  !isdigit (charAt line i) && charAt line i != '.'

/-- The symbols of a row, left to right. -/
def symbolsOfLine (ind : Int) (line : List Char) : List Symbol :=
  ((List.range line.length).filter (holdsSymbol line)).map
    (fun i => ⟨charAt line i, ind, (i : Int)⟩)

/-- The number touches the symbol: its row is within one of the symbol's row
and its column span `[colStart, colEnd]` intersects `[col - 1, col + 1]`. -/
def touches (s : Symbol) (num : Number) : Prop :=
  s.row - 1 ≤ num.row ∧ num.row ≤ s.row + 1 ∧
    max num.colStart (s.col - 1) ≤ min num.colEnd (s.col + 1)

instance (s : Symbol) (num : Number) : Decidable (touches s num) := by
  unfold touches
  infer_instance

/-- The numbers touching a symbol, in stored order. -/
def touching (numbers : List Number) (s : Symbol) : List Number :=
  numbers.filter (fun num => decide (touches s num))

/-- The first rows of the puzzle's example schematic. -/
def exampleSchematic : GearRatios :=
  { puzzleInput := "input.txt", schematic := ["467..114..", "...*......", "..35..633.", "617*......"],
    symbols := [], numbers := [] }

/-- A schematic whose only row is `99999*99999`. -/
def bigGearSchematic : GearRatios :=
  { puzzleInput := "input.txt", schematic := ["99999*99999"], symbols := [], numbers := [] }

/-- A schematic whose only row is `50000*50000`. -/
def droppedGearSchematic : GearRatios :=
  { puzzleInput := "input.txt", schematic := ["50000*50000"], symbols := [], numbers := [] }

/-- A schematic whose only row is `9999999999`. -/
def longRunSchematic : GearRatios :=
  { puzzleInput := "input.txt", schematic := ["9999999999"], symbols := [], numbers := [] }

/-- The entities of the rows of `exampleSchematic`. -/
def exampleParsed : GearRatios :=
  { exampleSchematic with
    numbers := [⟨467, 0, 0, 2⟩, ⟨114, 0, 5, 7⟩, ⟨35, 2, 2, 3⟩, ⟨633, 2, 6, 8⟩, ⟨617, 3, 0, 2⟩],
    symbols := [⟨'*', 1, 3⟩, ⟨'*', 3, 3⟩] }

end Day3

/-! ## Day 4: scratchcards (`src/Day_4/Scratchcard.h`, `Scratchcard.cpp`)

`int` and `long long` values are modelled by `Int`; the sums on the `long long`
copy counts and on their total are `long long` sums (`wrap64`), the match
counters count entries of a list and are not wrapped; vectors are lists, and a
vector read past the end is `none`. -/

namespace Day4

/-- The struct `Card`. -/
structure Card where
  id : Int
  numbers : List Int
  winningNumbers : List Int
deriving DecidableEq, Repr

/-- The data members of the class `Scratchcard` (the member `matches` is spelled
`matches_`). -/
structure Scratchcard where
  puzzleInput : String
  cards : List Card
  matches_ : List Int
  copies : List Int
deriving DecidableEq, Repr

/-- The expression `1 << s` on a 32-bit `int`: `2^s` for `0 ≤ s ≤ 30`, the
wrapped value `-2^31` for `s = 31`, undefined for any other `s`. -/
def shiftLeftOne (s : Int) : Option Int :=
  if s < 0 then none
  else if s ≤ 30 then some (2 ^ s.toNat)
  else if s = 31 then some (-2147483648)
  else none

/-- The function `Scratchcard::getPoints`; `wins.count(x)` is membership of `x`
in `winningNumbers`. -/
def Scratchcard.getPoints (sc : Scratchcard) (cardPos : Nat) : Option Int :=
  match sc.cards[cardPos]? with
  | none => none
  | some c =>
    let matches_ : Int :=
      c.numbers.foldl (fun matches_ x => if x ∈ c.winningNumbers then matches_ + 1 else matches_) 0
    if matches_ = 0 then some 0 else shiftLeftOne (matches_ - 1)

/-- The function `Scratchcard::getMatches`. -/
def Scratchcard.getMatches (sc : Scratchcard) (cardPos : Nat) : Option Int :=
  match sc.cards[cardPos]? with
  | none => none
  | some c =>
    some (c.numbers.foldl
      (fun matchCount x => if x ∈ c.winningNumbers then matchCount + 1 else matchCount) 0)

/-- The call `v.resize(n)` on a vector of numbers: cut, or fill with zeros. -/
def resize (v : List Int) (n : Nat) : List Int :=
  v.take n ++ List.replicate (n - v.length) 0

/-- The function `Scratchcard::initializeStructuresForPart2`. -/
def Scratchcard.initializeStructuresForPart2 (sc : Scratchcard) : Scratchcard :=
  (List.range sc.cards.length).foldl
    (fun st i =>
      match sc.getMatches i with
      | some m => { st with matches_ := st.matches_.set i m, copies := st.copies.set i 1 }
      | none => st)
    { sc with matches_ := resize sc.matches_ sc.cards.length,
              copies := resize sc.copies sc.cards.length }

/-- The statement `copies[t] += x`, a `long long` sum. -/
def addAt (copies : List Int) (t : Nat) (x : Int) : Option (List Int) :=
  match copies[t]? with
  | some y => some (copies.set t (wrap64 (y + x)))
  | none => none

/-- The body of the inner loop of `processMatches` for the offset `j`:
`if (i + j < cards.size()) copies[i+j] += copies[i];`. -/
def propagateStep (size i : Nat) (copies : Option (List Int)) (j : Nat) : Option (List Int) :=
  match copies with
  | none => none
  | some cp =>
    if i + j < size then
      match cp[i]? with
      | some ci => addAt cp (i + j) ci
      | none => none
    else some cp

/-- The body of the outer loop of `processMatches` for the card `i`: read
`k = matches[i]` and run `j = 1 .. k`. -/
def propagateCard (size : Nat) (matches_ : List Int) (copies : Option (List Int)) (i : Nat) :
    Option (List Int) :=
  match matches_[i]? with
  | none => none
  | some k => (List.range k.toNat).foldl (fun cp j0 => propagateStep size i cp (j0 + 1)) copies

/-- The function `Scratchcard::processMatches`. -/
def Scratchcard.processMatches (sc : Scratchcard) : Option Scratchcard :=
  ((List.range sc.cards.length).foldl (propagateCard sc.cards.length sc.matches_)
    (some sc.copies)).map (fun cp => { sc with copies := cp })

/-- The function `Scratchcard::getSolutionPart2`: the returned total and the
object after the call; `total += c` is a `long long` sum. -/
def Scratchcard.getSolutionPart2 (sc : Scratchcard) : Option (Int × Scratchcard) :=
  match sc.initializeStructuresForPart2.processMatches with
  | none => none
  | some sc2 => some (sc2.copies.foldl (fun total c => wrap64 (total + c)) 0, sc2)

/-- The number of entries of the card's `numbers` that occur in its
`winningNumbers`. -/
def Card.matchCount (c : Card) : Nat :=
  c.numbers.countP (fun x => decide (x ∈ c.winningNumbers))

/-- The six cards of the puzzle's example. -/
def exampleCards : List Card :=
  [⟨1, [41, 48, 83, 86, 17], [83, 86, 6, 31, 17, 9, 48, 53]⟩,
   ⟨2, [13, 32, 20, 16, 61], [61, 30, 68, 82, 17, 32, 24, 19]⟩,
   ⟨3, [1, 21, 53, 59, 44], [69, 82, 63, 72, 16, 21, 14, 1]⟩,
   ⟨4, [41, 92, 73, 84, 69], [59, 84, 76, 51, 58, 5, 54, 83]⟩,
   ⟨5, [87, 83, 26, 28, 32], [88, 30, 70, 12, 93, 22, 82, 36]⟩,
   ⟨6, [31, 18, 13, 56, 72], [74, 77, 10, 23, 35, 67, 36, 11]⟩]

/-- The solver holding the example cards. -/
def exampleScratchcard : Scratchcard :=
  { puzzleInput := "input.txt", cards := exampleCards, matches_ := [], copies := [] }

/-- A solver with 91 cards of two numbers each, both winning: every card wins a
copy of each of the next two cards. -/
def overflowScratchcard : Scratchcard :=
  { puzzleInput := "input.txt",
    cards := (List.range 91).map (fun (i : Nat) => ⟨(i : Int) + 1, [7, 7], [7]⟩),
    matches_ := [], copies := [] }

/-- The first 89 cards of `overflowScratchcard`. -/
def totalOverflowScratchcard : Scratchcard :=
  { puzzleInput := "input.txt",
    cards := (List.range 89).map (fun (i : Nat) => ⟨(i : Int) + 1, [7, 7], [7]⟩),
    matches_ := [], copies := [] }

/-- A solver with one card whose 32 numbers are all winning. -/
def manyMatchesScratchcard : Scratchcard :=
  { puzzleInput := "input.txt", cards := [⟨1, List.replicate 32 7, [7]⟩],
    matches_ := [], copies := [] }

end Day4

namespace Day5

/-- The value `std::numeric_limits<long long>::max()`. -/
def LLONG_MAX : Int := 9223372036854775807

/-- The value `std::numeric_limits<long long>::min()`. -/
def LLONG_MIN : Int := -9223372036854775808

/-- The struct `Rule` of `Almanac.h`. -/
structure Rule where
  srcStart : Int
  srcEnd : Int
  delta : Int
deriving DecidableEq, Repr

/-- The struct `RuleMap` of `Almanac.h`. -/
structure RuleMap where
  name : String
  rules : List Rule
deriving DecidableEq, Repr

/-- The struct `Interval` of `Almanac.h` (the field `end` is spelled `end_`). -/
structure Interval where
  start : Int
  end_ : Int
deriving DecidableEq, Repr

/-- The data members of the class `Almanac`. -/
structure Almanac where
  puzzleInput : String
  seeds : List Int
  ruleMaps : List RuleMap
  seedIntervals : List Interval
deriving DecidableEq, Repr

/-- The loop of `RuleMap::apply`: the first rule in stored order whose source
interval contains `x` returns the `long long` sum `x + r.delta`; falling off the
end returns `x`. -/
def RuleMap.applyLoop : List Rule → Int → Int
  | [], x => x
  | r :: rs, x =>
    if x ≥ r.srcStart ∧ x ≤ r.srcEnd then wrap64 (x + r.delta) else RuleMap.applyLoop rs x

/-- The function `RuleMap::apply`. -/
def RuleMap.apply (m : RuleMap) (x : Int) : Int :=
  RuleMap.applyLoop m.rules x

/-- The function `Almanac::applySingleSeed`: `value = map.apply(value)` for each map in order. -/
def Almanac.applySingleSeed (al : Almanac) (seed : Int) : Int :=
  al.ruleMaps.foldl (fun value map => map.apply value) seed

/-- The function `Almanac::getSolutionPart1`. -/
def Almanac.getSolutionPart1 (al : Almanac) : Int :=
  al.seeds.foldl
    (fun minimumValue s =>
      let location := al.applySingleSeed s
      if location < minimumValue then location else minimumValue)
    LLONG_MAX

/-- The loop of `Almanac::setSeedIntervals` over the seeds not yet consumed,
appending to the intervals `acc` already stored; the end `start + length - 1` is
a `long long` sum followed by a `long long` difference.  A single left-over seed
means `seeds[i+1]` is read past the end: `none`. -/
def Almanac.setSeedIntervalsLoop : List Int → List Interval → Option (List Interval)
  | [], acc => some acc
  | [_], _ => none
  | start :: length :: rest, acc =>
    Almanac.setSeedIntervalsLoop rest (acc ++ [⟨start, wrap64 (wrap64 (start + length) - 1)⟩])

/-- The function `Almanac::setSeedIntervals`: it appends to `seedIntervals`. -/
def Almanac.setSeedIntervals (al : Almanac) : Option Almanac :=
  (Almanac.setSeedIntervalsLoop al.seeds al.seedIntervals).map
    (fun ivs => { al with seedIntervals := ivs })

/-- The body of the innermost loop of `applyMapToIntervals`, for one `piece`
against one `rule`; the state is the pair `(output, newRemaining)`.  The two
ends of the mapped piece are `long long` sums with `rule.delta`.  The
remainders `overlapStart - 1` and `overlapEnd + 1` are computed under the guards
`a < overlapStart` and `overlapEnd < b`, which keep them between two `long long`
values, so they are exact. -/
def Almanac.splitPiece (rule : Rule) (st : List Interval × List Interval)
    (piece : Interval) : List Interval × List Interval :=
  let a := piece.start
  let b := piece.end_
  let r1 := rule.srcStart
  let r2 := rule.srcEnd
  let overlapStart := max a r1
  let overlapEnd := min b r2
  if overlapStart ≤ overlapEnd then
    let newRemaining1 :=
      if a < overlapStart then st.2 ++ [⟨a, overlapStart - 1⟩] else st.2
    let output1 :=
      st.1 ++ [⟨wrap64 (overlapStart + rule.delta), wrap64 (overlapEnd + rule.delta)⟩]
    let newRemaining2 :=
      if overlapEnd < b then newRemaining1 ++ [⟨overlapEnd + 1, b⟩] else newRemaining1
    (output1, newRemaining2)
  else
    (st.1, st.2 ++ [piece])

/-- The body of the loop over `map.rules`: every piece of `remaining` is matched
against `rule`, starting from an empty `newRemaining`, which then replaces
`remaining`; the state is the pair `(output, remaining)`. -/
def Almanac.applyRule (st : List Interval × List Interval) (rule : Rule) :
    List Interval × List Interval :=
  st.2.foldl (Almanac.splitPiece rule) (st.1, [])

/-- The body of the outermost loop of `applyMapToIntervals`, for one input
`interval`: `remaining` starts as the interval itself, all rules are run, and
what is left over is appended to `output` unchanged. -/
def Almanac.applyMapToInterval (map : RuleMap) (output : List Interval)
    (interval : Interval) : List Interval :=
  let st := map.rules.foldl Almanac.applyRule (output, [interval])
  st.1 ++ st.2

/-- The function `Almanac::applyMapToIntervals`. -/
def Almanac.applyMapToIntervals (map : RuleMap) (input : List Interval) : List Interval :=
  input.foldl (Almanac.applyMapToInterval map) []

/-- The function `Almanac::getSolutionPart2`: the returned value together with
the object after the call (whose `seedIntervals` have been overwritten). -/
def Almanac.getSolutionPart2 (al : Almanac) : Option (Int × Almanac) :=
  match al.setSeedIntervals with
  | none => none
  | some al1 =>
    let final := al1.ruleMaps.foldl
      (fun cur map => Almanac.applyMapToIntervals map cur) al1.seedIntervals
    let minimum := final.foldl (fun minimum interval => min minimum interval.start) LLONG_MAX
    some (minimum, { al1 with seedIntervals := final })

/-- The value returned by `getSolutionPart2`. -/
def Almanac.part2Value (al : Almanac) : Option Int :=
  (al.getSolutionPart2).map Prod.fst

/-! ## Reading the puzzle input

The file is given as the list of its lines, as `std::getline` returns them.
Formatted extraction `ss >> x` is the standard library's: skip leading white
space, read an optional sign and decimal digits; at end of input the variable
is left untouched and the stream fails, a field without digits stores `0` and
fails, a value out of range stores the nearest limit and fails, and a failed
stream extracts nothing more.  The source never tests the stream after the
three extractions of a numeric line, so a variable that no extraction wrote is
used with the content it happens to have; that content is a parameter of the
embedding. -/

/-- The white space characters skipped by formatted extraction. -/
def isSpaceChar (c : Char) : Bool :=
  c.toNat == 32 || (9 ≤ c.toNat && c.toNat ≤ 13)

/-- The decimal digits. -/
def isDigitChar (c : Char) : Bool :=
  48 ≤ c.toNat && c.toNat ≤ 57

/-- The number written by a list of decimal digits. -/
def digitsValue (digits : List Char) : Nat :=
  digits.foldl (fun n c => 10 * n + (c.toNat - 48)) 0

/-- A `std::stringstream` being read: the characters not yet consumed and the
fail bit. -/
structure StringStream where
  buf : List Char
  failbit : Bool
deriving DecidableEq, Repr

/-- The extraction `ss >> x` for `long long x`: the stream afterwards and the
value stored into `x`, `none` when `x` is left untouched. -/
def StringStream.extract (ss : StringStream) : StringStream × Option Int :=
  if ss.failbit then (ss, none)
  else
    match ss.buf.dropWhile isSpaceChar with
    | [] => (⟨[], true⟩, none)
    | c :: cs =>
      let body := if c = '-' ∨ c = '+' then cs else c :: cs
      let digits := body.takeWhile isDigitChar
      let rest := body.dropWhile isDigitChar
      if digits = [] then (⟨rest, true⟩, some 0)
      else
        let value : Int := if c = '-' then -(digitsValue digits : Int) else (digitsValue digits : Int)
        if value > LLONG_MAX then (⟨rest, true⟩, some LLONG_MAX)
        else if value < LLONG_MIN then (⟨rest, true⟩, some LLONG_MIN)
        else (⟨rest, false⟩, some value)

/-- The loop `while (ss >> x) seeds.push_back(x);`, at most `fuel` extractions. -/
def Almanac.readSeedsLoop : Nat → StringStream → List Int → List Int
  | 0, _, seeds => seeds
  | fuel + 1, ss, seeds =>
    match ss.extract with
    | (ss1, some x) => if ss1.failbit then seeds else Almanac.readSeedsLoop fuel ss1 (seeds ++ [x])
    | (_, none) => seeds

/-- The seeds loop on a fresh stream over `text`; every successful extraction
consumes a character, so `text.length + 1` extractions are enough. -/
def Almanac.readSeeds (text : List Char) (seeds : List Int) : List Int :=
  Almanac.readSeedsLoop (text.length + 1) ⟨text, false⟩ seeds

/-- The statements `long long destStart, srcStart, length;` and
`ss >> destStart >> srcStart >> length;` on a fresh stream over `line`: the
values of the three variables afterwards.  The variables are declared without
an initial value; `init` is what they happen to hold, and a variable keeps that
content when its extraction stores nothing. -/
def Almanac.readTriple (init : Int × Int × Int) (line : List Char) : Int × Int × Int :=
  let r1 := (StringStream.mk line false).extract
  let r2 := r1.1.extract
  let r3 := r2.1.extract
  (r1.2.getD init.1, r2.2.getD init.2.1, r3.2.getD init.2.2)

/-- The rule built from the three values of a numeric line: `srcEnd` is the
`long long` sum `srcStart + length` less one, `delta` the `long long` difference
`destStart - srcStart`. -/
def Almanac.buildRule (destStart srcStart length : Int) : Rule :=
  { srcStart := srcStart, srcEnd := wrap64 (wrap64 (srcStart + length) - 1),
    delta := wrap64 (destStart - srcStart) }

/-- The test `line.find(pat) != std::string::npos`. -/
def hasSubstring (pat : List Char) : List Char → Bool
  | [] => pat.isEmpty
  | c :: cs => pat.isPrefixOf (c :: cs) || hasSubstring pat cs

/-- The members `seeds` and `ruleMaps` and the locals `current` and `inMap` of
`readPuzzleInput`. -/
structure ParseState where
  seeds : List Int
  ruleMaps : List RuleMap
  current : RuleMap
  inMap : Bool
deriving DecidableEq, Repr

/-- The body of the `while (std::getline(file, line))` loop; `init` is the
content of the variables `destStart`, `srcStart`, `length` before the
extractions of this round. -/
def Almanac.readLine (init : Int × Int × Int) (st : ParseState) (line : String) : ParseState :=
  if line.data = [] then st
  else if "seeds:".data.isPrefixOf line.data then
    { st with seeds := Almanac.readSeeds (line.data.drop 6) st.seeds }
  else if hasSubstring "map:".data line.data then
    { seeds := st.seeds,
      ruleMaps := if st.inMap then st.ruleMaps ++ [st.current] else st.ruleMaps,
      current := { name := line, rules := if st.inMap then [] else st.current.rules },
      inMap := true }
  else if st.inMap then
    let t := Almanac.readTriple init line.data
    { st with current :=
      { st.current with rules := st.current.rules ++ [Almanac.buildRule t.1 t.2.1 t.2.2] } }
  else st

/-- The `while (std::getline(file, line))` loop over the lines of the file from
line number `i` on; `init j` is the content of the three variables of the
numeric branch in the round of line `j`. -/
def Almanac.readLines (init : Nat → Int × Int × Int) :
    Nat → ParseState → List String → ParseState
  | _, st, [] => st
  | i, st, line :: rest => Almanac.readLines init (i + 1) (Almanac.readLine (init i) st line) rest

/-- The function `Almanac::readPuzzleInput` on the lines `file` of the input
file: after the loop the last map is pushed when a map section was open. -/
def Almanac.readPuzzleInput (al : Almanac) (init : Nat → Int × Int × Int)
    (file : List String) : Almanac :=
  let st := Almanac.readLines init 0 ⟨al.seeds, al.ruleMaps, ⟨"", []⟩, false⟩ file
  { al with seeds := st.seeds,
            ruleMaps := if st.inMap then st.ruleMaps ++ [st.current] else st.ruleMaps }

/-- The constructor `Almanac::Almanac(input)`: the vectors start empty. -/
def Almanac.new (input : String) : Almanac :=
  { puzzleInput := input, seeds := [], ruleMaps := [], seedIntervals := [] }

/-! ## Vocabulary of the properties -/

/-- The integer `x` lies in the closed interval `iv`. -/
def Interval.mem (iv : Interval) (x : Int) : Prop :=
  iv.start ≤ x ∧ x ≤ iv.end_

/-- The integer `x` is covered by one of the intervals of `ivs`. -/
def covers (ivs : List Interval) (x : Int) : Prop :=
  ∃ iv ∈ ivs, iv.mem x

/-- The integer `x` lies in the source interval of the rule `r`. -/
def Rule.contains (r : Rule) (x : Int) : Prop :=
  r.srcStart ≤ x ∧ x ≤ r.srcEnd

/-- Total number of values of a list of intervals: the sum of `end - start + 1`. -/
def valueCount (ivs : List Interval) : Int :=
  (ivs.map (fun iv => iv.end_ - iv.start + 1)).sum

/-- The pairs `(start, length)` of a seed list read two by two. -/
def seedRanges : List Int → List (Int × Int)
  | start :: length :: rest => (start, length) :: seedRanges rest
  | _ => []

/-- The integer `x` belongs to one of the seed ranges `start .. start + length - 1`. -/
def inSeedRanges (seeds : List Int) (x : Int) : Prop :=
  ∃ p ∈ seedRanges seeds, p.1 ≤ x ∧ x ≤ p.1 + p.2 - 1

/-- The interval that `setSeedIntervals` stores for a pair `(start, length)`:
`[start, start + length - 1]` with the end computed in `long long`. -/
def rangeInterval (p : Int × Int) : Interval :=
  ⟨p.1, wrap64 (wrap64 (p.1 + p.2) - 1)⟩

/-- The integer `x` is a `long long` value. -/
def fits64 (x : Int) : Prop :=
  LLONG_MIN ≤ x ∧ x ≤ LLONG_MAX

instance (x : Int) : Decidable (fits64 x) := by
  unfold fits64
  infer_instance

/-- The first rule in stored order whose source interval contains `x`. -/
def firstRule : List Rule → Int → Option Rule
  | [], _ => none
  | r :: rs, x => if r.srcStart ≤ x ∧ x ≤ r.srcEnd then some r else firstRule rs x

/-- The rules shift `x` without overflow: the sum `x + delta` for the first rule
containing `x`, if there is one, is a `long long` value. -/
def shiftFits (rules : List Rule) (x : Int) : Prop :=
  ∀ r, firstRule rules x = some r → fits64 (x + r.delta)

/-- No map of the list overflows on the way of `x`: the first map shifts `x`
without overflow, the second one the value the first map returns, and so on. -/
def stagesFit : List RuleMap → Int → Prop
  | [], _ => True
  | m :: ms, x => shiftFits m.rules x ∧ stagesFit ms (m.apply x)

/-- Every interval of the list has `start ≤ end`. -/
def allProper (ivs : List Interval) : Prop :=
  ∀ iv ∈ ivs, iv.start ≤ iv.end_

/-- The intervals `p` and `q` lie apart: one ends before the other starts. -/
def apart (p q : Interval) : Prop :=
  p.end_ < q.start ∨ q.end_ < p.start

/-- The number of intervals of `ivs` that contain the integer `x`. -/
def hits (x : Int) (ivs : List Interval) : Nat :=
  ivs.countP (fun p => decide (p.start ≤ x ∧ x ≤ p.end_))

/-- The interval list after folding `applyMapToIntervals` over the maps in order. -/
def pushThrough (maps : List RuleMap) (ivs : List Interval) : List Interval :=
  maps.foldl (fun cur map => Almanac.applyMapToIntervals map cur) ivs

/-- The two-stage example of the specification: map A shifts `[10,20]` by `+100`,
map B shifts `[110,115]` by `-110`; the seed line is the single range `(10, 11)`. -/
def twoStageAlmanac : Almanac :=
  { puzzleInput := "", seeds := [10, 11],
    ruleMaps := [⟨"A", [⟨10, 20, 100⟩]⟩, ⟨"B", [⟨110, 115, -110⟩]⟩],
    seedIntervals := [] }

/-- An almanac without seeds and without maps. -/
def emptyAlmanac : Almanac :=
  { puzzleInput := "", seeds := [], ruleMaps := [], seedIntervals := [] }

/-- A map whose two rules overlap: `[0,5]` shifted by `+10`, then `[0,10]` shifted by `+100`. -/
def overlappingMap : RuleMap :=
  ⟨"overlap", [⟨0, 5, 10⟩, ⟨0, 10, 100⟩]⟩

/-- The map with the single rule `{98, 99, -48}` built from the line `50 98 2`. -/
def soilMap : RuleMap :=
  ⟨"seed-to-soil", [⟨98, 99, -48⟩]⟩

/-- A map whose rule `{0, 10, 9223372036854775802}` (the line
`9223372036854775802 0 11`) shifts `6 .. 10` beyond the largest `long long`. -/
def overflowMap : RuleMap :=
  ⟨"overflow", [⟨0, 10, 9223372036854775802⟩]⟩

/-- An almanac with the seed range `(-10, 11)` and one map whose rule
`{-10, 0, -9223372036854775799}` (the line `9223372036854775807 -10 11`) shifts
`-10` below the smallest `long long`. -/
def underflowAlmanac : Almanac :=
  { puzzleInput := "", seeds := [-10, 11],
    ruleMaps := [⟨"underflow", [⟨-10, 0, -9223372036854775799⟩]⟩], seedIntervals := [] }

/-- An almanac without maps whose single seed is the largest `long long` value. -/
def maxSeedAlmanac : Almanac :=
  { puzzleInput := "", seeds := [9223372036854775807], ruleMaps := [], seedIntervals := [] }

/-- An almanac with the seed range `(0, 1)` and one map sending `0` to the largest
`long long` value (the line `9223372036854775807 0 1`). -/
def maxLocationAlmanac : Almanac :=
  { puzzleInput := "", seeds := [0, 1],
    ruleMaps := [⟨"to-max", [⟨0, 0, 9223372036854775807⟩]⟩], seedIntervals := [] }

/-- An almanac with the seed range `(10, 1)` and one map shifting `[5,10]` by `-5`
(the line `0 5 6`). -/
def rerunAlmanac : Almanac :=
  { puzzleInput := "", seeds := [10, 1],
    ruleMaps := [⟨"shift", [⟨5, 10, -5⟩]⟩], seedIntervals := [] }

/-! ## Well-formed input text -/

/-- The text `num` is a decimal numeral of the `long long` value `n`: an optional
sign followed by at least one digit. -/
def isNumeralOf (num : List Char) (n : Int) : Prop :=
  ∃ digits : List Char, digits ≠ [] ∧ (∀ c ∈ digits, isDigitChar c = true) ∧
    LLONG_MIN ≤ n ∧ n ≤ LLONG_MAX ∧
    ((num = digits ∧ n = (digitsValue digits : Int)) ∨
      (num = '+' :: digits ∧ n = (digitsValue digits : Int)) ∨
      (num = '-' :: digits ∧ n = -(digitsValue digits : Int)))

/-- The text consists of the integers `ns` in order, written as decimal numerals
separated by white space, with optional white space around them. -/
inductive IntegersOf : List Char → List Int → Prop
  | nil (ws : List Char) : (∀ c ∈ ws, isSpaceChar c = true) → IntegersOf ws []
  | cons (ws num rest : List Char) (n : Int) (ns : List Int) :
      (∀ c ∈ ws, isSpaceChar c = true) → isNumeralOf num n →
      (∀ c ∈ rest.head?, isSpaceChar c = true) → IntegersOf rest ns →
      IntegersOf (ws ++ num ++ rest) (n :: ns)

/-- A seeds line: the label `seeds:` followed by the integers `seeds`. -/
def isSeedsLine (line : String) (seeds : List Int) : Prop :=
  ∃ text : List Char, line.data = "seeds:".data ++ text ∧ IntegersOf text seeds

/-- A section header: a line containing `map:` that does not start with `seeds:`. -/
def isHeaderLine (line : String) : Prop :=
  "seeds:".data.isPrefixOf line.data = false ∧ hasSubstring "map:".data line.data = true

/-- A triple line: the three integers `destStart sourceStart length`. -/
def isTripleLine (line : String) (t : Int × Int × Int) : Prop :=
  IntegersOf line.data [t.1, t.2.1, t.2.2]

/-- The characters a line of integers is made of. -/
def isNumericChar (c : Char) : Bool :=
  isSpaceChar c || isDigitChar c || c == '-' || c == '+'

/-- The maps pushed when the loop ends in the state `st`. -/
def ParseState.sealed (st : ParseState) : List RuleMap :=
  if st.inMap then st.ruleMaps ++ [st.current] else st.ruleMaps

/-- The map of a section: its header line as name, its triples as rules in order. -/
def sectionMap (sec : String × List (String × (Int × Int × Int))) : RuleMap :=
  { name := sec.1,
    rules := sec.2.map (fun t => Almanac.buildRule t.2.1 t.2.2.1 t.2.2.2) }

/-- The lines of a section: the header followed by the triple lines. -/
def sectionLines (sec : String × List (String × (Int × Int × Int))) : List String :=
  sec.1 :: sec.2.map Prod.fst

/-- The beginning of the puzzle's example input. -/
def exampleFile : List String :=
  ["seeds: 79 14", "", "seed-to-soil map:", "50 98 2", "52 50 48", "",
   "soil-to-fertilizer map:", "0 15 37"]

/-- The sections of `exampleFile` with the triples of their lines. -/
def exampleSections : List (String × List (String × (Int × Int × Int))) :=
  [("seed-to-soil map:", [("50 98 2", (50, 98, 2)), ("52 50 48", (52, 50, 48))]),
   ("soil-to-fertilizer map:", [("0 15 37", (0, 15, 37))])]

/-- A file whose map section holds the line `1 2 abc`. -/
def malformedFile : List String :=
  ["seeds: 1", "a-to-b map:", "1 2 abc"]

/-- Three values standing for the content of the variables `destStart`,
`srcStart`, `length` before the extractions. -/
def someContent : Int × Int × Int := (7, 8, 9)

/-! ## The splitting loop in closed form -/

/-- What one piece contributes to `output` when matched against one rule. -/
def mappedPart (rule : Rule) (piece : Interval) : List Interval :=
  if max piece.start rule.srcStart ≤ min piece.end_ rule.srcEnd then
    [⟨wrap64 (max piece.start rule.srcStart + rule.delta),
      wrap64 (min piece.end_ rule.srcEnd + rule.delta)⟩]
  else []

/-- What one piece contributes to `newRemaining` when matched against one rule. -/
def restPart (rule : Rule) (piece : Interval) : List Interval :=
  if max piece.start rule.srcStart ≤ min piece.end_ rule.srcEnd then
    (if piece.start < max piece.start rule.srcStart then
      [⟨piece.start, max piece.start rule.srcStart - 1⟩] else []) ++
    (if min piece.end_ rule.srcEnd < piece.end_ then
      [⟨min piece.end_ rule.srcEnd + 1, piece.end_⟩] else [])
  else [piece]

/-- Everything the rules `rules` append to `output` for the working list `rem`,
the left-over pieces last. -/
def pieces : List Rule → List Interval → List Interval
  | [], rem => rem
  | r :: rs, rem => rem.flatMap (mappedPart r) ++ pieces rs (rem.flatMap (restPart r))

end Day5

/-! ## Facts about machine integers -/

theorem wrap64_of_fits (x : Int) (h1 : -9223372036854775808 ≤ x)
    (h2 : x ≤ 9223372036854775807) : wrap64 x = x := by
  unfold wrap64
  omega

theorem wrap64_bounds (x : Int) :
    -9223372036854775808 ≤ wrap64 x ∧ wrap64 x ≤ 9223372036854775807 := by
  unfold wrap64
  omega

theorem wrap64_add_wrap64 (a b : Int) : wrap64 (wrap64 a + b) = wrap64 (a + b) := by
  unfold wrap64
  omega

theorem wrap64_add_wrap64_right (a b : Int) : wrap64 (a + wrap64 b) = wrap64 (a + b) := by
  unfold wrap64
  omega

theorem wrap64_sub_one (a : Int) : wrap64 (wrap64 a - 1) = wrap64 (a - 1) := by
  unfold wrap64
  omega

theorem wrap32_of_fits (x : Int) (h1 : -2147483648 ≤ x) (h2 : x ≤ 2147483647) :
    wrap32 x = x := by
  unfold wrap32
  omega

theorem wrap32_bounds (x : Int) : -2147483648 ≤ wrap32 x ∧ wrap32 x ≤ 2147483647 := by
  unfold wrap32
  omega

theorem wrap32_add_wrap32 (a b : Int) : wrap32 (wrap32 a + b) = wrap32 (a + b) := by
  unfold wrap32
  omega

theorem wrap32_add_wrap32_right (a b : Int) : wrap32 (a + wrap32 b) = wrap32 (a + b) := by
  unfold wrap32
  omega

theorem wrap32_modEq (x : Int) : wrap32 x ≡ x [ZMOD 4294967296] := by
  unfold wrap32 Int.ModEq
  omega

theorem wrap32_eq_of_modEq (a b : Int) (h : a ≡ b [ZMOD 4294967296]) :
    wrap32 a = wrap32 b := by
  unfold Int.ModEq at h
  unfold wrap32
  omega

theorem wrap32_mul_wrap32 (a b : Int) : wrap32 (wrap32 a * b) = wrap32 (a * b) :=
  wrap32_eq_of_modEq _ _ (Int.ModEq.mul_right b (wrap32_modEq a))

theorem wrap32_mul_wrap32_right (a b : Int) : wrap32 (a * wrap32 b) = wrap32 (a * b) :=
  wrap32_eq_of_modEq _ _ (Int.ModEq.mul_left a (wrap32_modEq b))

namespace Day5

theorem wrap64_fits (x : Int) (h : fits64 x) : wrap64 x = x :=
  wrap64_of_fits x h.1 h.2

theorem fits64_wrap64 (x : Int) : fits64 (wrap64 x) :=
  wrap64_bounds x

theorem firstRule_cons_pos (r : Rule) (rs : List Rule) (x : Int) (h : r.contains x) :
    firstRule (r :: rs) x = some r := by
  unfold Rule.contains at h
  simp only [firstRule, h, and_self, if_true]

theorem firstRule_cons_neg (r : Rule) (rs : List Rule) (x : Int) (h : ¬ r.contains x) :
    firstRule (r :: rs) x = firstRule rs x := by
  unfold Rule.contains at h
  simp only [firstRule, if_neg h]

theorem firstRule_mem (rules : List Rule) (x : Int) (r : Rule) (h : firstRule rules x = some r) :
    r ∈ rules ∧ r.contains x := by
  induction rules with
  | nil => cases h
  | cons q qs ih =>
    by_cases hq : q.contains x
    · rw [firstRule_cons_pos q qs x hq] at h
      cases h
      exact ⟨List.mem_cons_self _ _, hq⟩
    · rw [firstRule_cons_neg q qs x hq] at h
      exact ⟨List.mem_cons_of_mem _ (ih h).1, (ih h).2⟩

theorem shiftFits_of_mem (rules : List Rule) (x : Int)
    (h : ∀ r ∈ rules, r.contains x → fits64 (x + r.delta)) : shiftFits rules x := by
  intro r hr
  exact h r (firstRule_mem rules x r hr).1 (firstRule_mem rules x r hr).2

theorem shiftFits_head (r : Rule) (rs : List Rule) (x : Int) (h : shiftFits (r :: rs) x)
    (hx : r.contains x) : fits64 (x + r.delta) :=
  h r (firstRule_cons_pos r rs x hx)

theorem shiftFits_tail (r : Rule) (rs : List Rule) (x : Int) (h : shiftFits (r :: rs) x)
    (hx : ¬ r.contains x) : shiftFits rs x := by
  intro q hq
  exact h q (by rw [firstRule_cons_neg r rs x hx]; exact hq)

theorem splitPiece_eq (rule : Rule) (st : List Interval × List Interval) (piece : Interval) :
    Almanac.splitPiece rule st piece = (st.1 ++ mappedPart rule piece, st.2 ++ restPart rule piece) := by
  unfold Almanac.splitPiece mappedPart restPart
  by_cases h : max piece.start rule.srcStart ≤ min piece.end_ rule.srcEnd
  · by_cases h1 : piece.start < max piece.start rule.srcStart <;>
      by_cases h2 : min piece.end_ rule.srcEnd < piece.end_ <;> simp [h, h1, h2]
  · simp [h]

theorem foldl_splitPiece (rule : Rule) (ps : List Interval) :
    ∀ st : List Interval × List Interval,
      ps.foldl (Almanac.splitPiece rule) st =
        (st.1 ++ ps.flatMap (mappedPart rule), st.2 ++ ps.flatMap (restPart rule)) := by
  induction ps with
  | nil => intro st; simp
  | cons p ps ih =>
    intro st
    rw [List.foldl_cons, ih, splitPiece_eq]
    simp [List.flatMap_cons, List.append_assoc]

theorem applyRule_eq (st : List Interval × List Interval) (rule : Rule) :
    Almanac.applyRule st rule =
      (st.1 ++ st.2.flatMap (mappedPart rule), st.2.flatMap (restPart rule)) := by
  unfold Almanac.applyRule
  rw [foldl_splitPiece]
  simp

theorem foldl_applyRule (rules : List Rule) :
    ∀ st : List Interval × List Interval,
      (rules.foldl Almanac.applyRule st).1 ++ (rules.foldl Almanac.applyRule st).2 =
        st.1 ++ pieces rules st.2 := by
  induction rules with
  | nil => intro st; simp [pieces]
  | cons r rs ih =>
    intro st
    rw [List.foldl_cons, ih, applyRule_eq]
    simp [pieces, List.append_assoc]

theorem applyMapToInterval_eq (map : RuleMap) (output : List Interval) (interval : Interval) :
    Almanac.applyMapToInterval map output interval = output ++ pieces map.rules [interval] := by
  unfold Almanac.applyMapToInterval
  exact foldl_applyRule map.rules (output, [interval])

theorem foldl_applyMapToInterval (map : RuleMap) (input : List Interval) :
    ∀ output : List Interval,
      input.foldl (Almanac.applyMapToInterval map) output =
        output ++ input.flatMap (fun iv => pieces map.rules [iv]) := by
  induction input with
  | nil => intro output; simp
  | cons iv ivs ih =>
    intro output
    rw [List.foldl_cons, ih, applyMapToInterval_eq]
    simp [List.flatMap_cons, List.append_assoc]

theorem applyMapToIntervals_eq (map : RuleMap) (input : List Interval) :
    Almanac.applyMapToIntervals map input = input.flatMap (fun iv => pieces map.rules [iv]) := by
  unfold Almanac.applyMapToIntervals
  rw [foldl_applyMapToInterval]
  simp

/-! ## Values covered by the pieces -/

theorem covers_nil (x : Int) : ¬ covers [] x := by
  simp [covers]

theorem covers_singleton (iv : Interval) (x : Int) : covers [iv] x ↔ iv.mem x := by
  simp [covers]

theorem covers_append (l₁ l₂ : List Interval) (x : Int) :
    covers (l₁ ++ l₂) x ↔ covers l₁ x ∨ covers l₂ x := by
  simp only [covers, List.mem_append]
  constructor
  · rintro ⟨iv, h | h, hx⟩
    · exact Or.inl ⟨iv, h, hx⟩
    · exact Or.inr ⟨iv, h, hx⟩
  · rintro (⟨iv, h, hx⟩ | ⟨iv, h, hx⟩)
    · exact ⟨iv, Or.inl h, hx⟩
    · exact ⟨iv, Or.inr h, hx⟩

theorem covers_flatMap (l : List Interval) (f : Interval → List Interval) (x : Int) :
    covers (l.flatMap f) x ↔ ∃ p ∈ l, covers (f p) x := by
  simp only [covers, List.mem_flatMap]
  constructor
  · rintro ⟨iv, ⟨p, hp, hiv⟩, hx⟩
    exact ⟨p, hp, iv, hiv, hx⟩
  · rintro ⟨p, hp, iv, hiv, hx⟩
    exact ⟨iv, ⟨p, hp, hiv⟩, hx⟩

theorem mappedPart_exact (rule : Rule) (piece : Interval)
    (hfit : ∀ x, piece.mem x → rule.contains x → fits64 (x + rule.delta)) :
    mappedPart rule piece =
      if max piece.start rule.srcStart ≤ min piece.end_ rule.srcEnd then
        [⟨max piece.start rule.srcStart + rule.delta, min piece.end_ rule.srcEnd + rule.delta⟩]
      else [] := by
  unfold mappedPart
  by_cases h : max piece.start rule.srcStart ≤ min piece.end_ rule.srcEnd
  · rw [if_pos h, if_pos h]
    have h1 := hfit (max piece.start rule.srcStart)
      (by unfold Interval.mem; omega) (by unfold Rule.contains; omega)
    have h2 := hfit (min piece.end_ rule.srcEnd)
      (by unfold Interval.mem; omega) (by unfold Rule.contains; omega)
    rw [wrap64_fits _ h1, wrap64_fits _ h2]
  · rw [if_neg h, if_neg h]

theorem covers_mappedPart (rule : Rule) (piece : Interval) (y : Int)
    (hfit : ∀ x, piece.mem x → rule.contains x → fits64 (x + rule.delta)) :
    covers (mappedPart rule piece) y ↔
      ∃ x, piece.mem x ∧ rule.contains x ∧ wrap64 (x + rule.delta) = y := by
  have key : covers (mappedPart rule piece) y ↔
      ∃ x, piece.mem x ∧ rule.contains x ∧ x + rule.delta = y := by
    rw [mappedPart_exact rule piece hfit]
    by_cases h : max piece.start rule.srcStart ≤ min piece.end_ rule.srcEnd
    · rw [if_pos h, covers_singleton]
      simp only [Interval.mem, Rule.contains]
      constructor
      · intro hy
        refine ⟨y - rule.delta, ?_⟩
        omega
      · rintro ⟨x, hx⟩
        omega
    · rw [if_neg h]
      simp only [Interval.mem, Rule.contains]
      constructor
      · intro hy
        exact absurd hy (covers_nil y)
      · rintro ⟨x, hx⟩
        omega
  rw [key]
  constructor
  · rintro ⟨x, hp, hr, hxy⟩
    exact ⟨x, hp, hr, by rw [wrap64_fits _ (hfit x hp hr)]; exact hxy⟩
  · rintro ⟨x, hp, hr, hxy⟩
    rw [wrap64_fits _ (hfit x hp hr)] at hxy
    exact ⟨x, hp, hr, hxy⟩

theorem covers_restPart (rule : Rule) (piece : Interval) (x : Int) :
    covers (restPart rule piece) x ↔ piece.mem x ∧ ¬ rule.contains x := by
  unfold restPart
  by_cases h : max piece.start rule.srcStart ≤ min piece.end_ rule.srcEnd
  · rw [if_pos h, covers_append]
    by_cases h1 : piece.start < max piece.start rule.srcStart <;>
      by_cases h2 : min piece.end_ rule.srcEnd < piece.end_ <;>
      simp only [h1, h2, if_true, if_false, covers_singleton, Interval.mem, Rule.contains,
        covers_nil, false_or, or_false] <;>
      constructor <;> intro hx <;> first | exact hx.elim | omega
  · rw [if_neg h, covers_singleton]
    simp only [Interval.mem, Rule.contains]
    omega

theorem applyLoop_cons_pos (r : Rule) (rs : List Rule) (x : Int) (h : r.contains x) :
    RuleMap.applyLoop (r :: rs) x = wrap64 (x + r.delta) := by
  have h' : x ≥ r.srcStart ∧ x ≤ r.srcEnd := ⟨h.1, h.2⟩
  simp only [RuleMap.applyLoop, if_pos h']

theorem applyLoop_cons_neg (r : Rule) (rs : List Rule) (x : Int) (h : ¬ r.contains x) :
    RuleMap.applyLoop (r :: rs) x = RuleMap.applyLoop rs x := by
  have h' : ¬ (x ≥ r.srcStart ∧ x ≤ r.srcEnd) := fun hc => h ⟨hc.1, hc.2⟩
  simp only [RuleMap.applyLoop, if_neg h']

theorem restPart_fits (r : Rule) (rs : List Rule) (rem : List Interval)
    (hfit : ∀ x, covers rem x → shiftFits (r :: rs) x) :
    ∀ x, covers (rem.flatMap (restPart r)) x → shiftFits rs x := by
  intro x hx
  obtain ⟨p, hp, hpx⟩ := (covers_flatMap rem (restPart r) x).mp hx
  have hx' := (covers_restPart r p x).mp hpx
  exact shiftFits_tail r rs x (hfit x ⟨p, hp, hx'.1⟩) hx'.2

theorem mappedPart_fits (r : Rule) (rs : List Rule) (rem : List Interval)
    (hfit : ∀ x, covers rem x → shiftFits (r :: rs) x) (p : Interval) (hp : p ∈ rem) :
    ∀ x, p.mem x → r.contains x → fits64 (x + r.delta) :=
  fun x hpx hrx => shiftFits_head r rs x (hfit x ⟨p, hp, hpx⟩) hrx

theorem covers_pieces (rules : List Rule) :
    ∀ (rem : List Interval) (y : Int), (∀ x, covers rem x → shiftFits rules x) →
      (covers (pieces rules rem) y ↔ ∃ x, covers rem x ∧ RuleMap.applyLoop rules x = y) := by
  induction rules with
  | nil =>
    intro rem y _
    simp [pieces, RuleMap.applyLoop]
  | cons r rs ih =>
    intro rem y hfit
    have htail := restPart_fits r rs rem hfit
    simp only [pieces, covers_append, ih _ y htail]
    constructor
    · rintro (hm | ⟨x, hx, hxy⟩)
      · obtain ⟨p, hp, hpy⟩ := (covers_flatMap rem (mappedPart r) y).mp hm
        obtain ⟨x, hpx, hrx, hxy⟩ :=
          (covers_mappedPart r p y (mappedPart_fits r rs rem hfit p hp)).mp hpy
        exact ⟨x, ⟨p, hp, hpx⟩, by rw [applyLoop_cons_pos r rs x hrx]; exact hxy⟩
      · obtain ⟨p, hp, hpx⟩ := (covers_flatMap rem (restPart r) x).mp hx
        have hx' := (covers_restPart r p x).mp hpx
        exact ⟨x, ⟨p, hp, hx'.1⟩, by rw [applyLoop_cons_neg r rs x hx'.2]; exact hxy⟩
    · rintro ⟨x, ⟨p, hp, hpx⟩, hxy⟩
      by_cases hrx : r.contains x
      · rw [applyLoop_cons_pos r rs x hrx] at hxy
        left
        exact (covers_flatMap rem (mappedPart r) y).mpr
          ⟨p, hp, (covers_mappedPart r p y (mappedPart_fits r rs rem hfit p hp)).mpr
            ⟨x, hpx, hrx, hxy⟩⟩
      · rw [applyLoop_cons_neg r rs x hrx] at hxy
        right
        exact ⟨x, (covers_flatMap rem (restPart r) x).mpr
          ⟨p, hp, (covers_restPart r p x).mpr ⟨hpx, hrx⟩⟩, hxy⟩

theorem covers_applyMapToIntervals (map : RuleMap) (input : List Interval) (y : Int)
    (hfit : ∀ x, covers input x → shiftFits map.rules x) :
    covers (Almanac.applyMapToIntervals map input) y ↔
      ∃ x, covers input x ∧ map.apply x = y := by
  rw [applyMapToIntervals_eq, covers_flatMap]
  have hone : ∀ p ∈ input, ∀ x, covers [p] x → shiftFits map.rules x := by
    intro p hp x hx
    exact hfit x ⟨p, hp, (covers_singleton p x).mp hx⟩
  unfold RuleMap.apply
  constructor
  · rintro ⟨p, hp, hpy⟩
    obtain ⟨x, hpx, hxy⟩ := (covers_pieces map.rules [p] y (hone p hp)).mp hpy
    exact ⟨x, ⟨p, hp, (covers_singleton p x).mp hpx⟩, hxy⟩
  · rintro ⟨x, ⟨p, hp, hpx⟩, hxy⟩
    exact ⟨p, hp, (covers_pieces map.rules [p] y (hone p hp)).mpr
      ⟨x, (covers_singleton p x).mpr hpx, hxy⟩⟩

/-! ## Value count, properness and non-emptiness of the pieces -/

theorem valueCount_append (l₁ l₂ : List Interval) :
    valueCount (l₁ ++ l₂) = valueCount l₁ + valueCount l₂ := by
  simp [valueCount]

theorem valueCount_split (rule : Rule) (piece : Interval)
    (hfit : ∀ x, piece.mem x → rule.contains x → fits64 (x + rule.delta)) :
    valueCount (mappedPart rule piece) + valueCount (restPart rule piece) =
      piece.end_ - piece.start + 1 := by
  rw [mappedPart_exact rule piece hfit]
  unfold restPart
  by_cases h : max piece.start rule.srcStart ≤ min piece.end_ rule.srcEnd
  · by_cases h1 : piece.start < max piece.start rule.srcStart <;>
      by_cases h2 : min piece.end_ rule.srcEnd < piece.end_ <;>
      simp only [h, h1, h2, if_true, if_false, valueCount, List.map_cons, List.map_nil,
        List.sum_cons, List.sum_nil, List.nil_append, List.cons_append, List.append_nil] <;>
      omega
  · simp only [h, if_false, valueCount, List.map_cons, List.map_nil, List.sum_cons,
      List.sum_nil]
    omega

theorem valueCount_flatMap_split (rule : Rule) (rem : List Interval)
    (hfit : ∀ p ∈ rem, ∀ x, p.mem x → rule.contains x → fits64 (x + rule.delta)) :
    valueCount (rem.flatMap (mappedPart rule)) + valueCount (rem.flatMap (restPart rule)) =
      valueCount rem := by
  induction rem with
  | nil => simp [valueCount]
  | cons p ps ih =>
    have hp := valueCount_split rule p (hfit p (List.mem_cons_self _ _))
    have hps := ih (fun q hq => hfit q (List.mem_cons_of_mem _ hq))
    have hc : valueCount (p :: ps) = (p.end_ - p.start + 1) + valueCount ps := by
      simp [valueCount]
    rw [List.flatMap_cons, List.flatMap_cons, valueCount_append, valueCount_append, hc]
    omega

theorem valueCount_pieces (rules : List Rule) :
    ∀ rem : List Interval, (∀ x, covers rem x → shiftFits rules x) →
      valueCount (pieces rules rem) = valueCount rem := by
  induction rules with
  | nil => intro rem _; rfl
  | cons r rs ih =>
    intro rem hfit
    have h := valueCount_flatMap_split r rem (mappedPart_fits r rs rem hfit)
    have ht := ih _ (restPart_fits r rs rem hfit)
    simp only [pieces, valueCount_append, ht]
    omega

theorem allProper_append (l₁ l₂ : List Interval) :
    allProper (l₁ ++ l₂) ↔ allProper l₁ ∧ allProper l₂ := by
  simp only [allProper, List.mem_append]
  constructor
  · intro h
    exact ⟨fun iv hiv => h iv (Or.inl hiv), fun iv hiv => h iv (Or.inr hiv)⟩
  · rintro ⟨h1, h2⟩ iv (hiv | hiv)
    · exact h1 iv hiv
    · exact h2 iv hiv

theorem allProper_flatMap (l : List Interval) (f : Interval → List Interval)
    (h : ∀ p ∈ l, allProper (f p)) : allProper (l.flatMap f) := by
  intro iv hiv
  obtain ⟨p, hp, hivp⟩ := List.mem_flatMap.mp hiv
  exact h p hp iv hivp

theorem allProper_mappedPart (rule : Rule) (piece : Interval)
    (hfit : ∀ x, piece.mem x → rule.contains x → fits64 (x + rule.delta)) :
    allProper (mappedPart rule piece) := by
  rw [mappedPart_exact rule piece hfit]
  by_cases h : max piece.start rule.srcStart ≤ min piece.end_ rule.srcEnd
  · rw [if_pos h]
    intro iv hiv
    rw [List.mem_singleton] at hiv
    subst hiv
    show max piece.start rule.srcStart + rule.delta ≤ min piece.end_ rule.srcEnd + rule.delta
    omega
  · rw [if_neg h]
    intro iv hiv
    cases hiv

theorem allProper_restPart (rule : Rule) (piece : Interval) (hp : piece.start ≤ piece.end_) :
    allProper (restPart rule piece) := by
  unfold restPart
  by_cases h : max piece.start rule.srcStart ≤ min piece.end_ rule.srcEnd
  · rw [if_pos h, allProper_append]
    constructor
    · by_cases h1 : piece.start < max piece.start rule.srcStart
      · rw [if_pos h1]
        intro iv hiv
        rw [List.mem_singleton] at hiv
        subst hiv
        show piece.start ≤ max piece.start rule.srcStart - 1
        omega
      · rw [if_neg h1]
        intro iv hiv
        cases hiv
    · by_cases h2 : min piece.end_ rule.srcEnd < piece.end_
      · rw [if_pos h2]
        intro iv hiv
        rw [List.mem_singleton] at hiv
        subst hiv
        show min piece.end_ rule.srcEnd + 1 ≤ piece.end_
        omega
      · rw [if_neg h2]
        intro iv hiv
        cases hiv
  · rw [if_neg h]
    intro iv hiv
    rw [List.mem_singleton] at hiv
    subst hiv
    exact hp

theorem allProper_pieces (rules : List Rule) :
    ∀ rem : List Interval, (∀ x, covers rem x → shiftFits rules x) →
      allProper rem → allProper (pieces rules rem) := by
  induction rules with
  | nil => intro rem _ h; exact h
  | cons r rs ih =>
    intro rem hfit h
    simp only [pieces, allProper_append]
    refine ⟨allProper_flatMap rem _
      (fun p hp => allProper_mappedPart r p (mappedPart_fits r rs rem hfit p hp)),
      ih _ (restPart_fits r rs rem hfit) ?_⟩
    exact allProper_flatMap rem _ (fun p hp => allProper_restPart r p (h p hp))

theorem allProper_applyMapToIntervals (map : RuleMap) (input : List Interval)
    (hfit : ∀ x, covers input x → shiftFits map.rules x)
    (h : allProper input) : allProper (Almanac.applyMapToIntervals map input) := by
  rw [applyMapToIntervals_eq]
  refine allProper_flatMap input _ (fun p hp => allProper_pieces map.rules [p] ?_ ?_)
  · intro x hx
    exact hfit x ⟨p, hp, (covers_singleton p x).mp hx⟩
  · intro iv hiv
    rw [List.mem_singleton] at hiv
    subst hiv
    exact h iv hp

theorem restPart_of_mappedPart_nil (rule : Rule) (piece : Interval)
    (h : mappedPart rule piece = []) : restPart rule piece = [piece] := by
  unfold mappedPart at h
  unfold restPart
  by_cases hc : max piece.start rule.srcStart ≤ min piece.end_ rule.srcEnd
  · rw [if_pos hc] at h
    cases h
  · rw [if_neg hc]

theorem pieces_ne_nil (rules : List Rule) :
    ∀ rem : List Interval, rem ≠ [] → pieces rules rem ≠ [] := by
  induction rules with
  | nil => intro rem h; exact h
  | cons r rs ih =>
    intro rem h
    cases rem with
    | nil => exact absurd rfl h
    | cons p ps =>
      simp only [pieces, List.flatMap_cons]
      by_cases hm : mappedPart r p = []
      · have hrest := restPart_of_mappedPart_nil r p hm
        have hne : restPart r p ++ ps.flatMap (restPart r) ≠ [] := by
          rw [hrest]; simp
        have := ih _ hne
        intro hcontra
        exact this (List.append_eq_nil.mp hcontra).2
      · intro hcontra
        exact hm (List.append_eq_nil.mp (List.append_eq_nil.mp hcontra).1).1

theorem applyMapToIntervals_ne_nil (map : RuleMap) (input : List Interval) (h : input ≠ []) :
    Almanac.applyMapToIntervals map input ≠ [] := by
  rw [applyMapToIntervals_eq]
  cases input with
  | nil => exact absurd rfl h
  | cons p ps =>
    rw [List.flatMap_cons]
    intro hcontra
    exact pieces_ne_nil map.rules [p] (by simp) (List.append_eq_nil.mp hcontra).1

/-! ## The whole pipeline -/

theorem stagesFit_cons (m : RuleMap) (ms : List RuleMap) (x : Int) :
    stagesFit (m :: ms) x ↔ shiftFits m.rules x ∧ stagesFit ms (m.apply x) :=
  Iff.rfl

theorem stagesFit_step (m : RuleMap) (ms : List RuleMap) (ivs : List Interval)
    (hfit : ∀ x, covers ivs x → stagesFit (m :: ms) x) :
    (∀ x, covers ivs x → shiftFits m.rules x) ∧
      ∀ z, covers (Almanac.applyMapToIntervals m ivs) z → stagesFit ms z := by
  have h1 : ∀ x, covers ivs x → shiftFits m.rules x :=
    fun x hx => ((stagesFit_cons m ms x).mp (hfit x hx)).1
  refine ⟨h1, ?_⟩
  intro z hz
  obtain ⟨x, hx, hxz⟩ := (covers_applyMapToIntervals m ivs z h1).mp hz
  rw [← hxz]
  exact ((stagesFit_cons m ms x).mp (hfit x hx)).2

theorem covers_pushThrough (maps : List RuleMap) :
    ∀ (ivs : List Interval) (y : Int), (∀ x, covers ivs x → stagesFit maps x) →
      (covers (pushThrough maps ivs) y ↔
        ∃ x, covers ivs x ∧ maps.foldl (fun value map => map.apply value) x = y) := by
  induction maps with
  | nil => intro ivs y _; simp [pushThrough]
  | cons m ms ih =>
    intro ivs y hfit
    have hstep : pushThrough (m :: ms) ivs = pushThrough ms (Almanac.applyMapToIntervals m ivs) := rfl
    obtain ⟨h1, h2⟩ := stagesFit_step m ms ivs hfit
    rw [hstep, ih _ y h2]
    simp only [List.foldl_cons]
    constructor
    · rintro ⟨z, hz, hzy⟩
      obtain ⟨x, hx, hxz⟩ := (covers_applyMapToIntervals m ivs z h1).mp hz
      exact ⟨x, hx, by rw [hxz]; exact hzy⟩
    · rintro ⟨x, hx, hxy⟩
      exact ⟨m.apply x, (covers_applyMapToIntervals m ivs _ h1).mpr ⟨x, hx, rfl⟩, hxy⟩

theorem allProper_pushThrough (maps : List RuleMap) :
    ∀ ivs : List Interval, (∀ x, covers ivs x → stagesFit maps x) →
      allProper ivs → allProper (pushThrough maps ivs) := by
  induction maps with
  | nil => intro ivs _ h; exact h
  | cons m ms ih =>
    intro ivs hfit h
    obtain ⟨h1, h2⟩ := stagesFit_step m ms ivs hfit
    exact ih _ h2 (allProper_applyMapToIntervals m ivs h1 h)

theorem pushThrough_ne_nil (maps : List RuleMap) :
    ∀ ivs : List Interval, ivs ≠ [] → pushThrough maps ivs ≠ [] := by
  induction maps with
  | nil => intro ivs h; exact h
  | cons m ms ih =>
    intro ivs h
    exact ih _ (applyMapToIntervals_ne_nil m ivs h)

/-! ## The two minimum loops -/

theorem minStart_le_init (ivs : List Interval) :
    ∀ init : Int, ivs.foldl (fun minimum interval => min minimum interval.start) init ≤ init := by
  induction ivs with
  | nil => intro init; exact le_refl _
  | cons iv ivs ih =>
    intro init
    rw [List.foldl_cons]
    exact le_trans (ih _) (min_le_left _ _)

theorem minStart_le_mem (ivs : List Interval) :
    ∀ init : Int, ∀ iv ∈ ivs,
      ivs.foldl (fun minimum interval => min minimum interval.start) init ≤ iv.start := by
  induction ivs with
  | nil => intro init iv hiv; cases hiv
  | cons p ps ih =>
    intro init iv hiv
    rw [List.foldl_cons]
    rcases List.mem_cons.mp hiv with h | h
    · subst h
      exact le_trans (minStart_le_init ps _) (min_le_right _ _)
    · exact ih _ iv h

theorem minStart_eq (ivs : List Interval) :
    ∀ init : Int,
      ivs.foldl (fun minimum interval => min minimum interval.start) init = init ∨
        ∃ iv ∈ ivs, ivs.foldl (fun minimum interval => min minimum interval.start) init = iv.start := by
  induction ivs with
  | nil => intro init; exact Or.inl rfl
  | cons p ps ih =>
    intro init
    rw [List.foldl_cons]
    rcases ih (min init p.start) with h | ⟨iv, hiv, h⟩
    · rw [h]
      rcases le_total init p.start with hle | hle
      · exact Or.inl (min_eq_left hle)
      · exact Or.inr ⟨p, List.mem_cons_self _ _, min_eq_right hle⟩
    · exact Or.inr ⟨iv, List.mem_cons_of_mem _ hiv, h⟩

theorem minStart_attained (ivs : List Interval) (init : Int)
    (h : ∃ iv ∈ ivs, iv.start ≤ init) :
    ∃ iv ∈ ivs, ivs.foldl (fun minimum interval => min minimum interval.start) init = iv.start := by
  rcases minStart_eq ivs init with heq | hex
  · obtain ⟨iv, hiv, hle⟩ := h
    refine ⟨iv, hiv, ?_⟩
    have := minStart_le_mem ivs init iv hiv
    omega
  · exact hex

theorem minLoc_le_init (f : Int → Int) (seeds : List Int) :
    ∀ init : Int,
      seeds.foldl (fun minimumValue s => if f s < minimumValue then f s else minimumValue) init ≤
        init := by
  induction seeds with
  | nil => intro init; exact le_refl _
  | cons s ss ih =>
    intro init
    rw [List.foldl_cons]
    refine le_trans (ih _) ?_
    split <;> omega

theorem minLoc_le_mem (f : Int → Int) (seeds : List Int) :
    ∀ init : Int, ∀ s ∈ seeds,
      seeds.foldl (fun minimumValue s => if f s < minimumValue then f s else minimumValue) init ≤
        f s := by
  induction seeds with
  | nil => intro init s hs; cases hs
  | cons t ts ih =>
    intro init s hs
    rw [List.foldl_cons]
    rcases List.mem_cons.mp hs with h | h
    · subst h
      refine le_trans (minLoc_le_init f ts _) ?_
      split <;> omega
    · exact ih _ s h

theorem minLoc_eq (f : Int → Int) (seeds : List Int) :
    ∀ init : Int,
      seeds.foldl (fun minimumValue s => if f s < minimumValue then f s else minimumValue) init =
          init ∨
        ∃ s ∈ seeds,
          seeds.foldl (fun minimumValue s => if f s < minimumValue then f s else minimumValue)
            init = f s := by
  induction seeds with
  | nil => intro init; exact Or.inl rfl
  | cons t ts ih =>
    intro init
    rw [List.foldl_cons]
    rcases ih (if f t < init then f t else init) with h | ⟨s, hs, h⟩
    · rw [h]
      by_cases hlt : f t < init
      · rw [if_pos hlt]
        exact Or.inr ⟨t, List.mem_cons_self _ _, rfl⟩
      · rw [if_neg hlt]
        exact Or.inl rfl
    · exact Or.inr ⟨s, List.mem_cons_of_mem _ hs, h⟩

/-! ## Seed intervals -/

theorem setSeedIntervalsLoop_even (seeds : List Int) :
    ∀ acc : List Interval, Even seeds.length →
      Almanac.setSeedIntervalsLoop seeds acc =
        some (acc ++ (seedRanges seeds).map rangeInterval) := by
  induction seeds using seedRanges.induct with
  | case1 start length rest ih =>
    intro acc hev
    have hrest : Even rest.length := by
      have h2 : (start :: length :: rest).length = rest.length + 2 := rfl
      rw [h2] at hev
      rcases hev with ⟨k, hk⟩
      exact ⟨k - 1, by omega⟩
    rw [Almanac.setSeedIntervalsLoop, ih _ hrest]
    simp [seedRanges, rangeInterval, List.append_assoc]
  | case2 l hl =>
    intro acc hev
    cases l with
    | nil => simp [Almanac.setSeedIntervalsLoop, seedRanges]
    | cons a t =>
      cases t with
      | nil => simp at hev
      | cons b t => exact absurd rfl (hl a b t)

theorem getSolutionPart2_even (al : Almanac) (hempty : al.seedIntervals = [])
    (hev : Even al.seeds.length) :
    al.getSolutionPart2 =
      some ((pushThrough al.ruleMaps ((seedRanges al.seeds).map rangeInterval)).foldl
              (fun minimum interval => min minimum interval.start) LLONG_MAX,
            { al with seedIntervals :=
                pushThrough al.ruleMaps ((seedRanges al.seeds).map rangeInterval) }) := by
  unfold Almanac.getSolutionPart2 Almanac.setSeedIntervals
  rw [setSeedIntervalsLoop_even al.seeds al.seedIntervals hev, hempty]
  rfl

theorem part2Value_even (al : Almanac) (hempty : al.seedIntervals = [])
    (hev : Even al.seeds.length) :
    al.part2Value =
      some ((pushThrough al.ruleMaps ((seedRanges al.seeds).map rangeInterval)).foldl
              (fun minimum interval => min minimum interval.start) LLONG_MAX) := by
  unfold Almanac.part2Value
  rw [getSolutionPart2_even al hempty hev]
  rfl

theorem rangeInterval_exact (p : Int × Int) (h : fits64 (p.1 + p.2 - 1)) :
    rangeInterval p = ⟨p.1, p.1 + p.2 - 1⟩ := by
  unfold rangeInterval
  rw [wrap64_sub_one, wrap64_fits _ h]

theorem covers_seedIntervals (seeds : List Int) (x : Int)
    (hfit : ∀ p ∈ seedRanges seeds, fits64 (p.1 + p.2 - 1)) :
    covers ((seedRanges seeds).map rangeInterval) x ↔ inSeedRanges seeds x := by
  simp only [covers, inSeedRanges, List.mem_map]
  constructor
  · rintro ⟨iv, ⟨p, hp, rfl⟩, hx⟩
    rw [rangeInterval_exact p (hfit p hp)] at hx
    exact ⟨p, hp, hx⟩
  · rintro ⟨p, hp, hx⟩
    refine ⟨rangeInterval p, ⟨p, hp, rfl⟩, ?_⟩
    rw [rangeInterval_exact p (hfit p hp)]
    exact hx

/-! ## Single points, skipped rules and full containment -/

theorem pieces_nil (rules : List Rule) : pieces rules [] = [] := by
  induction rules with
  | nil => rfl
  | cons r rs ih => simp [pieces, ih]

theorem parts_of_disjoint (rule : Rule) (piece : Interval)
    (h : max piece.start rule.srcStart > min piece.end_ rule.srcEnd) :
    mappedPart rule piece = [] ∧ restPart rule piece = [piece] := by
  have hn : ¬ max piece.start rule.srcStart ≤ min piece.end_ rule.srcEnd := by omega
  unfold mappedPart restPart
  rw [if_neg hn, if_neg hn]
  exact ⟨rfl, rfl⟩

theorem parts_of_contained (rule : Rule) (a b : Int) (hab : a ≤ b)
    (h1 : rule.srcStart ≤ a) (h2 : b ≤ rule.srcEnd) :
    mappedPart rule ⟨a, b⟩ = [⟨wrap64 (a + rule.delta), wrap64 (b + rule.delta)⟩] ∧
      restPart rule ⟨a, b⟩ = [] := by
  have hmax : max a rule.srcStart = a := max_eq_left h1
  have hmin : min b rule.srcEnd = b := min_eq_left h2
  unfold mappedPart restPart
  simp only [hmax, hmin, hab, if_true, lt_irrefl, if_false, List.append_nil, and_self]

theorem pieces_skip (pre rest : List Rule) (piece : Interval)
    (h : ∀ q ∈ pre, max piece.start q.srcStart > min piece.end_ q.srcEnd) :
    pieces (pre ++ rest) [piece] = pieces rest [piece] := by
  induction pre with
  | nil => rfl
  | cons q qs ih =>
    obtain ⟨hm, hr⟩ := parts_of_disjoint q piece (h q (List.mem_cons_self _ _))
    have ih' := ih (fun q' hq' => h q' (List.mem_cons_of_mem _ hq'))
    simp only [List.cons_append, pieces, List.flatMap_cons, List.flatMap_nil, List.append_nil,
      hm, hr, List.nil_append]
    exact ih'

theorem pieces_contained (r : Rule) (post : List Rule) (a b : Int) (hab : a ≤ b)
    (h1 : r.srcStart ≤ a) (h2 : b ≤ r.srcEnd) :
    pieces (r :: post) [⟨a, b⟩] = [⟨wrap64 (a + r.delta), wrap64 (b + r.delta)⟩] := by
  obtain ⟨hm, hr⟩ := parts_of_contained r a b hab h1 h2
  simp only [pieces, List.flatMap_cons, List.flatMap_nil, List.append_nil, hm, hr, pieces_nil]

theorem pieces_point (rules : List Rule) (v : Int) :
    pieces rules [⟨v, v⟩] = [⟨RuleMap.applyLoop rules v, RuleMap.applyLoop rules v⟩] := by
  induction rules with
  | nil => rfl
  | cons r rs ih =>
    by_cases hc : r.contains v
    · rw [pieces_contained r rs v v (le_refl v) hc.1 hc.2, applyLoop_cons_pos r rs v hc]
    · have hd : max v r.srcStart > min v r.srcEnd := by
        unfold Rule.contains at hc
        omega
      have := pieces_skip [r] rs ⟨v, v⟩ (by
        intro q hq
        rw [List.mem_singleton] at hq
        subst hq
        exact hd)
      rw [applyLoop_cons_neg r rs v hc, ← ih]
      exact this

theorem pushThrough_point (maps : List RuleMap) :
    ∀ v : Int,
      pushThrough maps [⟨v, v⟩] =
        [⟨maps.foldl (fun value map => map.apply value) v,
          maps.foldl (fun value map => map.apply value) v⟩] := by
  induction maps with
  | nil => intro v; rfl
  | cons m ms ih =>
    intro v
    have hstep : pushThrough (m :: ms) [⟨v, v⟩] =
        pushThrough ms (Almanac.applyMapToIntervals m [⟨v, v⟩]) := rfl
    rw [hstep, applyMapToIntervals_eq]
    simp only [List.flatMap_cons, List.flatMap_nil, List.append_nil, pieces_point, List.foldl_cons]
    exact ih _

theorem seedRanges_ne_nil (seeds : List Int) (hne : seeds ≠ []) (hev : Even seeds.length) :
    seedRanges seeds ≠ [] := by
  cases seeds with
  | nil => exact absurd rfl hne
  | cons a t =>
    cases t with
    | nil => simp at hev
    | cons b t => simp [seedRanges]

theorem seedIntervals_ne_nil (seeds : List Int) (hne : seeds ≠ []) (hev : Even seeds.length) :
    (seedRanges seeds).map rangeInterval ≠ [] := by
  intro h
  exact seedRanges_ne_nil seeds hne hev (List.map_eq_nil_iff.mp h)

theorem applyLoop_le_max (rules : List Rule) (x : Int) (hx : x ≤ LLONG_MAX) :
    RuleMap.applyLoop rules x ≤ LLONG_MAX := by
  induction rules with
  | nil => exact hx
  | cons r rs ih =>
    by_cases h : r.contains x
    · rw [applyLoop_cons_pos r rs x h]
      exact (fits64_wrap64 _).2
    · rw [applyLoop_cons_neg r rs x h]
      exact ih

theorem foldl_apply_le_max (maps : List RuleMap) :
    ∀ x : Int, x ≤ LLONG_MAX →
      maps.foldl (fun value map => map.apply value) x ≤ LLONG_MAX := by
  induction maps with
  | nil => intro x hx; exact hx
  | cons m ms ih =>
    intro x hx
    rw [List.foldl_cons]
    exact ih _ (applyLoop_le_max m.rules x hx)

/-! ## Properties of the engine -/

/-- C1 fails when a shifted value leaves the `long long` range: the rule
`{0, 10, 9223372036854775802}` sends `[0,10]` to the single piece
`[9223372036854775802, -9223372036854775804]`, whose end has wrapped around and
which covers no integer, while `apply 0 = 9223372036854775802`. -/
theorem value_preservation_counterexample :
    Almanac.applyMapToIntervals overflowMap [⟨0, 10⟩] =
        [⟨9223372036854775802, -9223372036854775804⟩] ∧
      overflowMap.apply 0 = 9223372036854775802 ∧
      {y : Int | ∃ iv ∈ Almanac.applyMapToIntervals overflowMap [⟨0, 10⟩],
          iv.start ≤ y ∧ y ≤ iv.end_} ≠
        {y : Int | ∃ x, 0 ≤ x ∧ x ≤ 10 ∧ overflowMap.apply x = y} := by
  have hval : Almanac.applyMapToIntervals overflowMap [⟨0, 10⟩] =
      [⟨9223372036854775802, -9223372036854775804⟩] := by decide
  have happ : overflowMap.apply 0 = 9223372036854775802 := by decide
  refine ⟨hval, happ, ?_⟩
  intro heq
  have hmem : (9223372036854775802 : Int) ∈
      {y : Int | ∃ x, 0 ≤ x ∧ x ≤ 10 ∧ overflowMap.apply x = y} :=
    ⟨0, le_refl _, by decide, happ⟩
  rw [← heq, hval] at hmem
  obtain ⟨iv, hiv, h1, h2⟩ := hmem
  rw [List.mem_singleton] at hiv
  subst hiv
  revert h2
  decide

/-- C1 (amended): for every rule map `m`, whatever the order or the overlaps of
its rules, and every interval `[a,b]` such that for each `x` of `[a,b]` the sum
`x + delta` of the first rule containing `x` is a `long long` value, the set of
integers covered by the intervals that `applyMapToIntervals m [[a,b]]` returns
is the set of the values `m.apply x` for `a ≤ x ≤ b`. -/
theorem applyMapToIntervals_value_preservation (m : RuleMap) (a b : Int)
    (hfit : ∀ x, a ≤ x → x ≤ b → shiftFits m.rules x) :
    {y : Int | ∃ iv ∈ Almanac.applyMapToIntervals m [⟨a, b⟩], iv.start ≤ y ∧ y ≤ iv.end_} =
      {y : Int | ∃ x, a ≤ x ∧ x ≤ b ∧ m.apply x = y} := by
  ext y
  have h := covers_applyMapToIntervals m [⟨a, b⟩] y (by
    intro x hx
    obtain ⟨hx1, hx2⟩ := (covers_singleton ⟨a, b⟩ x).mp hx
    exact hfit x hx1 hx2)
  simp only [covers, Interval.mem, List.mem_singleton, exists_eq_left] at h
  simp only [Set.mem_setOf_eq]
  rw [h]
  constructor
  · rintro ⟨x, ⟨hx1, hx2⟩, hxy⟩
    exact ⟨x, hx1, hx2, hxy⟩
  · rintro ⟨x, hx1, hx2, hxy⟩
    exact ⟨x, ⟨hx1, hx2⟩, hxy⟩

/-- C1 (amended), on the rule `{98, 99, -48}` and the interval `[95,100]`: the
pieces `[50,51]`, `[95,97]`, `[100,100]` cover the values of `apply` on
`[95,100]`. -/
theorem applyMapToIntervals_value_preservation_witness :
    Almanac.applyMapToIntervals soilMap [⟨95, 100⟩] = [⟨50, 51⟩, ⟨95, 97⟩, ⟨100, 100⟩] ∧
      {y : Int | ∃ iv ∈ Almanac.applyMapToIntervals soilMap [⟨95, 100⟩],
          iv.start ≤ y ∧ y ≤ iv.end_} =
        {y : Int | ∃ x, 95 ≤ x ∧ x ≤ 100 ∧ soilMap.apply x = y} :=
  ⟨by decide,
   applyMapToIntervals_value_preservation soilMap 95 100 (by
    intro x hx1 hx2
    apply shiftFits_of_mem
    intro r hr _
    rw [show soilMap.rules = [⟨98, 99, -48⟩] from rfl, List.mem_singleton] at hr
    subst hr
    show LLONG_MIN ≤ x + -48 ∧ x + -48 ≤ LLONG_MAX
    unfold LLONG_MIN LLONG_MAX
    omega)⟩

/-- C2 fails when a shifted value leaves the `long long` range: with the seed
range `(-10, 11)` and the rule `{-10, 0, -9223372036854775799}`, the seed `-10`
is shifted below the smallest `long long` and wraps to `9223372036854775807`,
the start of the only final interval, which `getSolutionPart2` returns; the seed
`-9` of the range has the location `-9223372036854775808`. -/
theorem lowest_location_counterexample :
    underflowAlmanac.seedIntervals = [] ∧ underflowAlmanac.seeds ≠ [] ∧
      Even underflowAlmanac.seeds.length ∧
      (∀ p ∈ seedRanges underflowAlmanac.seeds, 1 ≤ p.2) ∧
      underflowAlmanac.part2Value = some 9223372036854775807 ∧
      inSeedRanges underflowAlmanac.seeds (-9) ∧
      underflowAlmanac.applySingleSeed (-9) = -9223372036854775808 ∧
      ¬ ∀ x, inSeedRanges underflowAlmanac.seeds x →
        9223372036854775807 ≤ underflowAlmanac.applySingleSeed x := by
  have hin : inSeedRanges underflowAlmanac.seeds (-9) :=
    ⟨(-10, 11), by decide, by decide, by decide⟩
  have hloc : underflowAlmanac.applySingleSeed (-9) = -9223372036854775808 := by decide
  refine ⟨rfl, by decide, ⟨1, rfl⟩, by decide, by decide, hin, hloc, ?_⟩
  intro h
  have := h (-9) hin
  rw [hloc] at this
  revert this
  decide

/-- C2 (amended): when `seedIntervals` is empty, the seed list is non-empty of
even length, every pair `(start, length)` has `length ≥ 1` and an end
`start + length - 1` that is a `long long` value, and no map overflows on the
way of any integer of a seed range, `getSolutionPart2` returns a value `r` that
is the location `applySingleSeed x` of some integer `x` of a seed range and is
at most the location of every integer of every seed range. -/
theorem getSolutionPart2_lowest_location (al : Almanac)
    (hempty : al.seedIntervals = []) (hne : al.seeds ≠ []) (hev : Even al.seeds.length)
    (hlen : ∀ p ∈ seedRanges al.seeds, 1 ≤ p.2)
    (hrange : ∀ p ∈ seedRanges al.seeds, fits64 (p.1 + p.2 - 1))
    (hstages : ∀ x, inSeedRanges al.seeds x → stagesFit al.ruleMaps x) :
    ∃ r, al.part2Value = some r ∧
      (∃ x, inSeedRanges al.seeds x ∧ al.applySingleSeed x = r) ∧
      ∀ x, inSeedRanges al.seeds x → r ≤ al.applySingleSeed x := by
  have hstages' : ∀ x, covers ((seedRanges al.seeds).map rangeInterval) x →
      stagesFit al.ruleMaps x :=
    fun x hx => hstages x ((covers_seedIntervals al.seeds x hrange).mp hx)
  have hcov : ∀ y, covers (pushThrough al.ruleMaps ((seedRanges al.seeds).map rangeInterval)) y ↔
      ∃ x, inSeedRanges al.seeds x ∧ al.applySingleSeed x = y := by
    intro y
    rw [covers_pushThrough al.ruleMaps _ y hstages']
    unfold Almanac.applySingleSeed
    constructor
    · rintro ⟨x, hx, hxy⟩
      exact ⟨x, (covers_seedIntervals al.seeds x hrange).mp hx, hxy⟩
    · rintro ⟨x, hx, hxy⟩
      exact ⟨x, (covers_seedIntervals al.seeds x hrange).mpr hx, hxy⟩
  have hproper : allProper (pushThrough al.ruleMaps ((seedRanges al.seeds).map rangeInterval)) := by
    apply allProper_pushThrough _ _ hstages'
    intro iv hiv
    obtain ⟨p, hp, rfl⟩ := List.mem_map.mp hiv
    have := hlen p hp
    rw [rangeInterval_exact p (hrange p hp)]
    show p.1 ≤ p.1 + p.2 - 1
    omega
  have hfit : ∀ x, inSeedRanges al.seeds x → al.applySingleSeed x ≤ LLONG_MAX := by
    intro x hx
    obtain ⟨p, hp, _, hx2⟩ := hx
    exact foldl_apply_le_max al.ruleMaps x (le_trans hx2 (hrange p hp).2)
  have hnonempty := pushThrough_ne_nil al.ruleMaps _ (seedIntervals_ne_nil al.seeds hne hev)
  obtain ⟨iv0, hiv0⟩ := List.exists_mem_of_ne_nil _ hnonempty
  have hiv0fit : iv0.start ≤ LLONG_MAX := by
    obtain ⟨x, hx, hxy⟩ := (hcov iv0.start).mp ⟨iv0, hiv0, le_refl _, hproper iv0 hiv0⟩
    rw [← hxy]
    exact hfit x hx
  obtain ⟨iv, hiv, hmin⟩ := minStart_attained _ LLONG_MAX ⟨iv0, hiv0, hiv0fit⟩
  refine ⟨_, part2Value_even al hempty hev, ?_, ?_⟩
  · rw [hmin]
    exact (hcov iv.start).mp ⟨iv, hiv, le_refl _, hproper iv hiv⟩
  · intro x hx
    obtain ⟨iv1, hiv1, h1, _⟩ := (hcov (al.applySingleSeed x)).mpr ⟨x, hx, rfl⟩
    exact le_trans (minStart_le_mem _ LLONG_MAX iv1 hiv1) h1

/-- C2 (amended), on the two-stage example: seed range `(10, 11)` through map A
(`[10,20]` by `+100`) and map B (`[110,115]` by `-110`) gives `0`. -/
theorem getSolutionPart2_lowest_location_witness :
    twoStageAlmanac.part2Value = some 0 ∧
      ∃ r, twoStageAlmanac.part2Value = some r ∧
        (∃ x, inSeedRanges twoStageAlmanac.seeds x ∧ twoStageAlmanac.applySingleSeed x = r) ∧
        ∀ x, inSeedRanges twoStageAlmanac.seeds x → r ≤ twoStageAlmanac.applySingleSeed x :=
  ⟨by decide,
   getSolutionPart2_lowest_location twoStageAlmanac rfl (by decide) (by decide)
    (by
      intro p hp
      simp only [twoStageAlmanac, seedRanges, List.mem_singleton] at hp
      subst hp
      decide)
    (by
      intro p hp
      simp only [twoStageAlmanac, seedRanges, List.mem_singleton] at hp
      subst hp
      decide)
    (by
      intro x hx
      obtain ⟨p, hp, hx1, hx2⟩ := hx
      simp only [twoStageAlmanac, seedRanges, List.mem_singleton] at hp
      subst hp
      simp only at hx1 hx2
      have hA : (RuleMap.mk "A" [⟨10, 20, 100⟩]).apply x = x + 100 := by
        have hc : (⟨10, 20, 100⟩ : Rule).contains x := ⟨hx1, by show x ≤ 20; omega⟩
        show RuleMap.applyLoop [⟨10, 20, 100⟩] x = x + 100
        rw [applyLoop_cons_pos _ _ x hc]
        exact wrap64_of_fits _ (by show _ ≤ x + 100; omega) (by show x + 100 ≤ _; omega)
      refine ⟨?_, ?_, trivial⟩
      · apply shiftFits_of_mem
        intro r hr _
        rw [List.mem_singleton] at hr
        subst hr
        show LLONG_MIN ≤ x + 100 ∧ x + 100 ≤ LLONG_MAX
        unfold LLONG_MIN LLONG_MAX
        omega
      · rw [hA]
        apply shiftFits_of_mem
        intro r hr _
        rw [List.mem_singleton] at hr
        subst hr
        show LLONG_MIN ≤ x + 100 + -110 ∧ x + 100 + -110 ≤ LLONG_MAX
        unfold LLONG_MIN LLONG_MAX
        omega)⟩

/-- C4 fails when a shifted value leaves the `long long` range: the rule
`{0, 10, 9223372036854775802}` sends `[0,10]` to the single piece
`[9223372036854775802, -9223372036854775804]`, whose `end - start + 1` is
`-18446744073709551605` and not `11`. -/
theorem value_count_counterexample :
    Almanac.applyMapToIntervals overflowMap [⟨0, 10⟩] =
        [⟨9223372036854775802, -9223372036854775804⟩] ∧
      ((Almanac.applyMapToIntervals overflowMap [⟨0, 10⟩]).map
          (fun iv => iv.end_ - iv.start + 1)).sum = -18446744073709551605 ∧
      ((Almanac.applyMapToIntervals overflowMap [⟨0, 10⟩]).map
          (fun iv => iv.end_ - iv.start + 1)).sum ≠ 10 - 0 + 1 := by
  decide

/-- C4 (amended): for every rule map and every interval `[a,b]` such that for
each `x` of `[a,b]` the sum `x + delta` of the first rule containing `x` is a
`long long` value, the sum of `end - start + 1` over the intervals returned by
`applyMapToIntervals m [[a,b]]` is `b - a + 1`. -/
theorem applyMapToIntervals_value_count (m : RuleMap) (a b : Int)
    (hfit : ∀ x, a ≤ x → x ≤ b → shiftFits m.rules x) :
    ((Almanac.applyMapToIntervals m [⟨a, b⟩]).map (fun iv => iv.end_ - iv.start + 1)).sum =
      b - a + 1 := by
  have h := valueCount_pieces m.rules [⟨a, b⟩] (by
    intro x hx
    obtain ⟨hx1, hx2⟩ := (covers_singleton ⟨a, b⟩ x).mp hx
    exact hfit x hx1 hx2)
  rw [applyMapToIntervals_eq]
  simp only [List.flatMap_cons, List.flatMap_nil, List.append_nil]
  simpa [valueCount] using h

/-- C4 (amended), on the rule `{98, 99, -48}` and the interval `[95,100]`: the
three pieces hold `2 + 3 + 1 = 6` values. -/
theorem applyMapToIntervals_value_count_witness :
    Almanac.applyMapToIntervals soilMap [⟨95, 100⟩] = [⟨50, 51⟩, ⟨95, 97⟩, ⟨100, 100⟩] ∧
      ((Almanac.applyMapToIntervals soilMap [⟨95, 100⟩]).map
          (fun iv => iv.end_ - iv.start + 1)).sum = 100 - 95 + 1 :=
  ⟨by decide,
   applyMapToIntervals_value_count soilMap 95 100 (by
    intro x hx1 hx2
    apply shiftFits_of_mem
    intro r hr _
    rw [show soilMap.rules = [⟨98, 99, -48⟩] from rfl, List.mem_singleton] at hr
    subst hr
    show LLONG_MIN ≤ x + -48 ∧ x + -48 ≤ LLONG_MAX
    unfold LLONG_MIN LLONG_MAX
    omega)⟩

/-- C5 fails when a shifted value leaves the `long long` range: the rule
`{0, 10, 9223372036854775802}` sends the interval `[0,10]`, which has
`start ≤ end`, to the piece `[9223372036854775802, -9223372036854775804]`, whose
end has wrapped below its start. -/
theorem no_degenerate_counterexample :
    (∀ iv ∈ [(⟨0, 10⟩ : Interval)], iv.start ≤ iv.end_) ∧
      Almanac.applyMapToIntervals overflowMap [⟨0, 10⟩] =
        [⟨9223372036854775802, -9223372036854775804⟩] ∧
      ¬ ∀ iv ∈ Almanac.applyMapToIntervals overflowMap [⟨0, 10⟩], iv.start ≤ iv.end_ := by
  decide

/-- C5 (amended): if every interval of the input has `start ≤ end` and, for each
`x` of an input interval, the sum `x + delta` of the first rule containing `x`
is a `long long` value, every interval of the output of `applyMapToIntervals`
has `start ≤ end`. -/
theorem applyMapToIntervals_no_degenerate (m : RuleMap) (input : List Interval)
    (h : ∀ iv ∈ input, iv.start ≤ iv.end_)
    (hfit : ∀ iv ∈ input, ∀ x, iv.start ≤ x → x ≤ iv.end_ → shiftFits m.rules x) :
    ∀ iv ∈ Almanac.applyMapToIntervals m input, iv.start ≤ iv.end_ :=
  allProper_applyMapToIntervals m input
    (fun x hx => by
      obtain ⟨iv, hiv, hx1, hx2⟩ := hx
      exact hfit iv hiv x hx1 hx2) h

/-- C5 (amended), on the interval `[95,100]` through the rule `{98, 99, -48}`. -/
theorem applyMapToIntervals_no_degenerate_witness :
    (∀ iv ∈ [(⟨95, 100⟩ : Interval)], iv.start ≤ iv.end_) ∧
      ∀ iv ∈ Almanac.applyMapToIntervals soilMap [⟨95, 100⟩], iv.start ≤ iv.end_ :=
  ⟨by decide,
   applyMapToIntervals_no_degenerate soilMap [⟨95, 100⟩] (by decide) (by
    intro iv hiv x hx1 hx2
    rw [List.mem_singleton] at hiv
    subst hiv
    apply shiftFits_of_mem
    intro r hr _
    rw [show soilMap.rules = [⟨98, 99, -48⟩] from rfl, List.mem_singleton] at hr
    subst hr
    show LLONG_MIN ≤ x + -48 ∧ x + -48 ≤ LLONG_MAX
    unfold LLONG_MIN LLONG_MAX
    simp only at hx1 hx2
    omega)⟩

/-- C6 (left-to-right fold): with no maps `applySingleSeed` returns the seed, and
with the maps `ms ++ [m]` it returns `m.apply` of the result over `ms`. -/
theorem applySingleSeed_fold (al : Almanac) (seed : Int) :
    ({ al with ruleMaps := [] } : Almanac).applySingleSeed seed = seed ∧
      ∀ (ms : List RuleMap) (m : RuleMap),
        ({ al with ruleMaps := ms ++ [m] } : Almanac).applySingleSeed seed =
          m.apply (({ al with ruleMaps := ms } : Almanac).applySingleSeed seed) := by
  constructor
  · rfl
  · intro ms m
    simp [Almanac.applySingleSeed, List.foldl_append]

/-- C7 (minimum over the seeds): for a non-empty seed list whose locations are
`long long` values (at most `LLONG_MAX`), `getSolutionPart1` is the location
of some seed and is at most the location of every seed. -/
theorem getSolutionPart1_minimum (al : Almanac) (hne : al.seeds ≠ [])
    (hfit : ∀ s ∈ al.seeds, al.applySingleSeed s ≤ LLONG_MAX) :
    (∃ s ∈ al.seeds, al.applySingleSeed s = al.getSolutionPart1) ∧
      ∀ s ∈ al.seeds, al.getSolutionPart1 ≤ al.applySingleSeed s := by
  have hle : ∀ s ∈ al.seeds, al.getSolutionPart1 ≤ al.applySingleSeed s :=
    minLoc_le_mem al.applySingleSeed al.seeds LLONG_MAX
  refine ⟨?_, hle⟩
  rcases minLoc_eq al.applySingleSeed al.seeds LLONG_MAX with heq | ⟨s, hs, h⟩
  · obtain ⟨s, hs⟩ := List.exists_mem_of_ne_nil _ hne
    refine ⟨s, hs, ?_⟩
    have h1 := hle s hs
    have h2 := hfit s hs
    have h3 : al.getSolutionPart1 = LLONG_MAX := heq
    omega
  · exact ⟨s, hs, h.symm⟩

/-- C7, on the two-stage example read as the two seeds `10` and `11`. -/
theorem getSolutionPart1_minimum_witness :
    twoStageAlmanac.seeds ≠ [] ∧
      (∃ s ∈ twoStageAlmanac.seeds,
        twoStageAlmanac.applySingleSeed s = twoStageAlmanac.getSolutionPart1) ∧
      ∀ s ∈ twoStageAlmanac.seeds,
        twoStageAlmanac.getSolutionPart1 ≤ twoStageAlmanac.applySingleSeed s :=
  ⟨by decide, getSolutionPart1_minimum twoStageAlmanac (by decide) (by decide)⟩

/-- C9 (composition consistency): for every list of maps and every seed `s` (a
`long long` value), `getSolutionPart2` on the seed line `[s, 1]` (with
`seedIntervals` empty) returns the value that `getSolutionPart1` returns on the
seed line `[s]`. -/
theorem part1_singleton_eq_part2_unit_range (al : Almanac) (s : Int) (hs : fits64 s) :
    ({ al with seeds := [s, 1], seedIntervals := [] } : Almanac).part2Value =
      some (({ al with seeds := [s] } : Almanac).getSolutionPart1) := by
  rw [part2Value_even ({ al with seeds := [s, 1], seedIntervals := [] } : Almanac) rfl ⟨1, rfl⟩]
  have hiv : (seedRanges [s, 1]).map rangeInterval = [⟨s, s⟩] := by
    have hend : wrap64 (wrap64 (s + 1) - 1) = s := by
      rw [wrap64_sub_one, show s + 1 - 1 = s by omega, wrap64_fits s hs]
    simp [seedRanges, rangeInterval, hend]
  show some ((pushThrough al.ruleMaps ((seedRanges [s, 1]).map rangeInterval)).foldl
      (fun minimum interval => min minimum interval.start) LLONG_MAX) = _
  rw [hiv, pushThrough_point]
  simp only [List.foldl_cons, List.foldl_nil, Almanac.getSolutionPart1, Almanac.applySingleSeed]
  congr 1
  split <;> omega

/-- C9, on the two maps of the two-stage example and the seed `10`: both parts
return the location `0`. -/
theorem part1_singleton_eq_part2_unit_range_witness :
    fits64 10 ∧
      ({ twoStageAlmanac with seeds := [10] } : Almanac).getSolutionPart1 = 0 ∧
      ({ twoStageAlmanac with seeds := [10, 1], seedIntervals := [] } : Almanac).part2Value =
        some (({ twoStageAlmanac with seeds := [10] } : Almanac).getSolutionPart1) :=
  ⟨by decide, by decide, part1_singleton_eq_part2_unit_range twoStageAlmanac 10 (by decide)⟩

/-- C10 fails when an earlier rule overlaps the interval: in `overlappingMap`
the second rule `{0, 10, +100}` contains `[3,8]`, but the first rule takes
`[3,5]`, so the result is `[[13,15],[106,108]]` and not `[[103,108]]`. -/
theorem full_containment_counterexample :
    Almanac.applyMapToIntervals overlappingMap [⟨3, 8⟩] = [⟨13, 15⟩, ⟨106, 108⟩] ∧
      ¬ ∀ r ∈ overlappingMap.rules, r.srcStart ≤ 3 → 8 ≤ r.srcEnd →
        Almanac.applyMapToIntervals overlappingMap [⟨3, 8⟩] = [⟨3 + r.delta, 8 + r.delta⟩] := by
  refine ⟨by decide, ?_⟩
  intro h
  have h2 := h ⟨0, 10, 100⟩ (by decide) (by decide) (by decide)
  revert h2
  decide

/-- C10 (amended): if `a ≤ b`, a rule `r` of `m` has `srcStart ≤ a` and
`b ≤ srcEnd`, and no rule stored before `r` has a source interval intersecting
`[a,b]`, then `applyMapToIntervals m [[a,b]]` is exactly
`[[a + r.delta, b + r.delta]]` (the sums being the `long long` sums of the
code, `wrap64`). -/
theorem full_containment_first_overlap (m : RuleMap) (a b : Int)
    (pre : List Rule) (r : Rule) (post : List Rule)
    (hab : a ≤ b) (hrules : m.rules = pre ++ r :: post)
    (hpre : ∀ q ∈ pre, max a q.srcStart > min b q.srcEnd)
    (h1 : r.srcStart ≤ a) (h2 : b ≤ r.srcEnd) :
    Almanac.applyMapToIntervals m [⟨a, b⟩] = [⟨wrap64 (a + r.delta), wrap64 (b + r.delta)⟩] := by
  rw [applyMapToIntervals_eq]
  simp only [List.flatMap_cons, List.flatMap_nil, List.append_nil]
  rw [hrules, pieces_skip pre (r :: post) ⟨a, b⟩ hpre, pieces_contained r post a b hab h1 h2]

/-- C10 (amended), on the rule `{98, 99, -48}` and the interval `[98,99]`: the
result is `[[50,51]]`. -/
theorem full_containment_first_overlap_witness :
    Almanac.applyMapToIntervals soilMap [⟨98, 99⟩] =
        [⟨wrap64 (98 + (-48)), wrap64 (99 + (-48))⟩] ∧
      Almanac.applyMapToIntervals soilMap [⟨98, 99⟩] = [⟨50, 51⟩] :=
  ⟨full_containment_first_overlap soilMap 98 99 [] ⟨98, 99, -48⟩ [] (by decide) rfl
      (by intro q hq; cases hq) (by decide) (by decide),
   by decide⟩

/-! ## Rules that miss the interval, and a single rule that cuts it on one side -/

theorem pieces_of_all_disjoint (rules : List Rule) (piece : Interval)
    (h : ∀ q ∈ rules, max piece.start q.srcStart > min piece.end_ q.srcEnd) :
    pieces rules [piece] = [piece] := by
  have := pieces_skip rules [] piece h
  rw [List.append_nil] at this
  rw [this]
  rfl

/-- C11 (identity on non-overlapping rules): if no rule of `m` has a source
interval intersecting `[a,b]` (`max a srcStart > min b srcEnd` for every rule),
`applyMapToIntervals m [[a,b]]` returns exactly `[[a,b]]`. -/
theorem identity_on_non_overlapping_rules (m : RuleMap) (a b : Int)
    (h : ∀ q ∈ m.rules, max a q.srcStart > min b q.srcEnd) :
    Almanac.applyMapToIntervals m [⟨a, b⟩] = [⟨a, b⟩] := by
  rw [applyMapToIntervals_eq]
  simp only [List.flatMap_cons, List.flatMap_nil, List.append_nil]
  exact pieces_of_all_disjoint m.rules ⟨a, b⟩ h

/-- C11, on the interval `[10,20]` and the rule `{98, 99, -48}`. -/
theorem identity_on_non_overlapping_rules_witness :
    (∀ q ∈ soilMap.rules, max 10 q.srcStart > min 20 q.srcEnd) ∧
      Almanac.applyMapToIntervals soilMap [⟨10, 20⟩] = [⟨10, 20⟩] :=
  ⟨by decide, identity_on_non_overlapping_rules soilMap 10 20 (by decide)⟩

theorem pushThrough_nil (maps : List RuleMap) : pushThrough maps [] = [] := by
  induction maps with
  | nil => rfl
  | cons m ms ih => exact ih

theorem pushThrough_append (maps : List RuleMap) :
    ∀ xs ys : List Interval,
      pushThrough maps (xs ++ ys) = pushThrough maps xs ++ pushThrough maps ys := by
  induction maps with
  | nil => intro xs ys; rfl
  | cons m ms ih =>
    intro xs ys
    have hstep : ∀ l, pushThrough (m :: ms) l = pushThrough ms (Almanac.applyMapToIntervals m l) :=
      fun _ => rfl
    rw [hstep, hstep, hstep, applyMapToIntervals_eq, applyMapToIntervals_eq,
      applyMapToIntervals_eq, List.flatMap_append, ih]

theorem minStart_min_init (ivs : List Interval) :
    ∀ init v : Int,
      ivs.foldl (fun minimum interval => min minimum interval.start) (min init v) =
        min (ivs.foldl (fun minimum interval => min minimum interval.start) init) v := by
  induction ivs with
  | nil => intro init v; rfl
  | cons p ps ih =>
    intro init v
    rw [List.foldl_cons, List.foldl_cons, min_right_comm, ih]

/-- C14 fails: with an empty seed list `getSolutionPart1` returns the number
`9223372036854775807`, the initial value of its loop, which is also the answer
for the non-empty seed list of `maxSeedAlmanac`; no failure is signalled. -/
theorem getSolutionPart1_empty_counterexample :
    emptyAlmanac.seeds = [] ∧ emptyAlmanac.getSolutionPart1 = 9223372036854775807 ∧
      maxSeedAlmanac.seeds ≠ [] ∧
      maxSeedAlmanac.getSolutionPart1 = emptyAlmanac.getSolutionPart1 := by
  decide

/-- C14 (amended): for every list of maps, when the seed list is empty
`getSolutionPart1` returns the numeric default `LLONG_MAX`. -/
theorem getSolutionPart1_empty_default (al : Almanac) (h : al.seeds = []) :
    al.getSolutionPart1 = LLONG_MAX := by
  unfold Almanac.getSolutionPart1
  rw [h]
  rfl

/-- C14 (amended), on the two maps of the two-stage example without seeds. -/
theorem getSolutionPart1_empty_default_witness :
    ({ twoStageAlmanac with seeds := [] } : Almanac).getSolutionPart1 = LLONG_MAX :=
  getSolutionPart1_empty_default { twoStageAlmanac with seeds := [] } rfl

/-- C15 fails: without seed ranges `getSolutionPart2` returns the ordinary
integer `9223372036854775807`, which is also the answer of `maxLocationAlmanac`,
whose only seed `0` has that location. -/
theorem getSolutionPart2_empty_counterexample :
    emptyAlmanac.seeds = [] ∧ emptyAlmanac.part2Value = some 9223372036854775807 ∧
      maxLocationAlmanac.applySingleSeed 0 = 9223372036854775807 ∧
      maxLocationAlmanac.part2Value = emptyAlmanac.part2Value := by
  decide

/-- C15 (amended): for every list of maps, when there are no seed ranges (and
`seedIntervals` is empty) `getSolutionPart2` returns the integer `LLONG_MAX`. -/
theorem getSolutionPart2_empty_default (al : Almanac) (hseeds : al.seeds = [])
    (hempty : al.seedIntervals = []) :
    al.part2Value = some LLONG_MAX := by
  rw [part2Value_even al hempty (by rw [hseeds]; exact ⟨0, rfl⟩), hseeds]
  show some ((pushThrough al.ruleMaps []).foldl _ LLONG_MAX) = _
  rw [pushThrough_nil]
  rfl

/-- C15 (amended), on the two maps of the two-stage example without seeds. -/
theorem getSolutionPart2_empty_default_witness :
    ({ twoStageAlmanac with seeds := [] } : Almanac).part2Value = some LLONG_MAX :=
  getSolutionPart2_empty_default { twoStageAlmanac with seeds := [] } rfl rfl

/-- C17 on `rerunAlmanac` (seed range `(10, 1)`, one map shifting `[5,10]` by
`-5`): the first call of `getSolutionPart2` returns `5` and leaves `[5,5]` in
`seedIntervals`; the second call, made on the object the first call left,
returns `0`. -/
theorem getSolutionPart2_second_call_differs :
    rerunAlmanac.getSolutionPart2 =
        some (5, { rerunAlmanac with seedIntervals := [⟨5, 5⟩] }) ∧
      ({ rerunAlmanac with seedIntervals := [⟨5, 5⟩] } : Almanac).getSolutionPart2 =
        some (0, { rerunAlmanac with seedIntervals := [⟨0, 0⟩, ⟨5, 5⟩] }) ∧
      rerunAlmanac.applySingleSeed 10 = 5 := by
  decide

/-! ## The state of the splitting loop after some of the rules -/

theorem covers_applyRule_state (pre : List Rule) :
    ∀ st : List Interval × List Interval, (∀ x, covers st.2 x → shiftFits pre x) →
      (∀ x, covers (pre.foldl Almanac.applyRule st).2 x ↔
          (covers st.2 x ∧ ∀ q ∈ pre, ¬ q.contains x)) ∧
        (∀ y, covers (pre.foldl Almanac.applyRule st).1 y ↔
          (covers st.1 y ∨
            ∃ x, covers st.2 x ∧ (∃ q ∈ pre, q.contains x) ∧ RuleMap.applyLoop pre x = y)) := by
  induction pre with
  | nil =>
    intro st _
    constructor
    · intro x
      simp
    · intro y
      simp
  | cons r rs ih =>
    intro st hfit
    have hst : Almanac.applyRule st r =
        (st.1 ++ st.2.flatMap (mappedPart r), st.2.flatMap (restPart r)) := applyRule_eq st r
    have hrem : ∀ x, covers (Almanac.applyRule st r).2 x ↔ (covers st.2 x ∧ ¬ r.contains x) := by
      intro x
      rw [hst]
      show covers (st.2.flatMap (restPart r)) x ↔ _
      rw [covers_flatMap]
      simp only [covers_restPart]
      constructor
      · rintro ⟨p, hp, hpx, hrx⟩
        exact ⟨⟨p, hp, hpx⟩, hrx⟩
      · rintro ⟨⟨p, hp, hpx⟩, hrx⟩
        exact ⟨p, hp, hpx, hrx⟩
    have hfit' : ∀ x, covers (Almanac.applyRule st r).2 x → shiftFits rs x := by
      intro x hx
      obtain ⟨hx1, hx2⟩ := (hrem x).mp hx
      exact shiftFits_tail r rs x (hfit x hx1) hx2
    obtain ⟨ih2, ih1⟩ := ih (Almanac.applyRule st r) hfit'
    rw [List.foldl_cons]
    have hout : ∀ y, covers (Almanac.applyRule st r).1 y ↔
        (covers st.1 y ∨ ∃ x, covers st.2 x ∧ r.contains x ∧ wrap64 (x + r.delta) = y) := by
      intro y
      rw [hst]
      show covers (st.1 ++ st.2.flatMap (mappedPart r)) y ↔ _
      rw [covers_append, covers_flatMap]
      constructor
      · rintro (h | ⟨p, hp, hpy⟩)
        · exact Or.inl h
        · obtain ⟨x, hpx, hrx, hxy⟩ :=
            (covers_mappedPart r p y (mappedPart_fits r rs st.2 hfit p hp)).mp hpy
          exact Or.inr ⟨x, ⟨p, hp, hpx⟩, hrx, hxy⟩
      · rintro (h | ⟨x, ⟨p, hp, hpx⟩, hrx, hxy⟩)
        · exact Or.inl h
        · exact Or.inr ⟨p, hp,
            (covers_mappedPart r p y (mappedPart_fits r rs st.2 hfit p hp)).mpr
              ⟨x, hpx, hrx, hxy⟩⟩
    constructor
    · intro x
      rw [ih2, hrem]
      constructor
      · rintro ⟨⟨hx, hr⟩, hrs⟩
        refine ⟨hx, ?_⟩
        intro q hq
        rcases List.mem_cons.mp hq with h | h
        · subst h; exact hr
        · exact hrs q h
      · rintro ⟨hx, hall⟩
        exact ⟨⟨hx, hall r (List.mem_cons_self _ _)⟩,
          fun q hq => hall q (List.mem_cons_of_mem _ hq)⟩
    · intro y
      rw [ih1, hout]
      constructor
      · rintro ((h | ⟨x, hx, hrx, hxy⟩) | ⟨x, hx, ⟨q, hq, hqx⟩, hxy⟩)
        · exact Or.inl h
        · exact Or.inr ⟨x, hx, ⟨r, List.mem_cons_self _ _, hrx⟩,
            by rw [applyLoop_cons_pos r rs x hrx]; exact hxy⟩
        · have hx2 := (hrem x).mp hx
          exact Or.inr ⟨x, hx2.1, ⟨q, List.mem_cons_of_mem _ hq, hqx⟩,
            by rw [applyLoop_cons_neg r rs x hx2.2]; exact hxy⟩
      · rintro (h | ⟨x, hx, ⟨q, hq, hqx⟩, hxy⟩)
        · exact Or.inl (Or.inl h)
        · by_cases hrx : r.contains x
          · rw [applyLoop_cons_pos r rs x hrx] at hxy
            exact Or.inl (Or.inr ⟨x, hx, hrx, hxy⟩)
          · rw [applyLoop_cons_neg r rs x hrx] at hxy
            have hq2 : q ∈ rs := by
              rcases List.mem_cons.mp hq with h | h
              · subst h; exact absurd hqx hrx
              · exact h
            exact Or.inr ⟨x, (hrem x).mpr ⟨hx, hrx⟩, ⟨q, hq2, hqx⟩, hxy⟩

theorem firstRule_take (rules : List Rule) (x : Int) (r : Rule) :
    ∀ k : Nat, firstRule (rules.take k) x = some r → firstRule rules x = some r := by
  induction rules with
  | nil => intro k h; rw [List.take_nil] at h; cases h
  | cons q qs ih =>
    intro k h
    cases k with
    | zero => rw [List.take_zero] at h; cases h
    | succ k =>
      rw [List.take_succ_cons] at h
      by_cases hq : q.contains x
      · rw [firstRule_cons_pos q _ x hq] at h
        rw [firstRule_cons_pos q _ x hq]
        exact h
      · rw [firstRule_cons_neg q _ x hq] at h
        rw [firstRule_cons_neg q _ x hq]
        exact ih k h

theorem seedRanges_index (seeds : List Int) :
    Even seeds.length →
      2 * (seedRanges seeds).length = seeds.length ∧
        ∀ i, i < (seedRanges seeds).length →
          ∃ s l, seeds[2 * i]? = some s ∧ seeds[2 * i + 1]? = some l ∧
            (seedRanges seeds)[i]? = some (s, l) := by
  induction seeds using seedRanges.induct with
  | case1 start length tail ih =>
    intro hev
    have htail : Even tail.length := by
      have h2 : (start :: length :: tail).length = tail.length + 2 := rfl
      rw [h2] at hev
      rcases hev with ⟨k, hk⟩
      exact ⟨k - 1, by omega⟩
    obtain ⟨hlen, hidx⟩ := ih htail
    constructor
    · simp only [seedRanges, List.length_cons]
      omega
    · intro i hi
      cases i with
      | zero => exact ⟨start, length, by simp, by simp, by simp [seedRanges]⟩
      | succ j =>
        have hj : j < (seedRanges tail).length := by
          simp only [seedRanges, List.length_cons] at hi
          omega
        obtain ⟨s, l, h1, h2, h3⟩ := hidx j hj
        refine ⟨s, l, ?_, ?_, ?_⟩
        · have : 2 * (j + 1) = (2 * j) + 1 + 1 := by omega
          rw [this]
          simpa using h1
        · have : 2 * (j + 1) + 1 = (2 * j + 1) + 1 + 1 := by omega
          rw [this]
          simpa using h2
        · simpa [seedRanges] using h3
  | case2 l hl =>
    intro hev
    cases l with
    | nil => simp [seedRanges]
    | cons a t =>
      cases t with
      | nil => simp at hev
      | cons b t => exact absurd rfl (hl a b t)

/-- C18 fails as stated: after the rule `{98, 99, -48}` has been processed for
`[95,100]`, `output` holds `[50,51]` and `remaining` holds `[95,97]` and
`[100,100]`; together they cover `50`, which is not in `[95,100]` (and they do
not cover `98`). -/
theorem split_invariant_counterexample :
    (soilMap.rules.take 1).foldl Almanac.applyRule ([], [⟨95, 100⟩]) =
        ([⟨50, 51⟩], [⟨95, 97⟩, ⟨100, 100⟩]) ∧
      ¬ ∀ x : Int,
        (covers ((soilMap.rules.take 1).foldl Almanac.applyRule ([], [⟨95, 100⟩])).1 x ∨
          covers ((soilMap.rules.take 1).foldl Almanac.applyRule ([], [⟨95, 100⟩])).2 x) ↔
        (95 ≤ x ∧ x ≤ 100) := by
  have hst : (soilMap.rules.take 1).foldl Almanac.applyRule ([], [⟨95, 100⟩]) =
      ([⟨50, 51⟩], [⟨95, 97⟩, ⟨100, 100⟩]) := by decide
  refine ⟨hst, ?_⟩
  rw [hst]
  intro h
  have h50 := (h 50).mp (Or.inl ⟨⟨50, 51⟩, List.mem_singleton.mpr rfl, by decide, by decide⟩)
  exact absurd h50.1 (by decide)

/-- C18 (amended): for an interval `[a,b]` such that for each `x` of `[a,b]` the
sum `x + delta` of the first rule of `m` containing `x` is a `long long` value,
after the first `k` rules of `m` have been processed (and at the end),
`remaining` covers exactly the integers of `[a,b]` that no processed rule
contains, and the pieces placed in `output` cover exactly the shifted values
`x + delta` (by the first processed rule containing `x`) of the integers `x` of
`[a,b]` that some processed rule contains. -/
theorem split_invariant (m : RuleMap) (a b : Int) (k : Nat)
    (hfit : ∀ x, a ≤ x → x ≤ b → shiftFits m.rules x) :
    (∀ x, covers ((m.rules.take k).foldl Almanac.applyRule ([], [⟨a, b⟩])).2 x ↔
        (a ≤ x ∧ x ≤ b ∧ ∀ q ∈ m.rules.take k, ¬ q.contains x)) ∧
      (∀ y, covers ((m.rules.take k).foldl Almanac.applyRule ([], [⟨a, b⟩])).1 y ↔
        ∃ x, a ≤ x ∧ x ≤ b ∧ (∃ q ∈ m.rules.take k, q.contains x) ∧
          RuleMap.applyLoop (m.rules.take k) x = y) := by
  obtain ⟨h2, h1⟩ := covers_applyRule_state (m.rules.take k) ([], [⟨a, b⟩]) (by
    intro x hx r hr
    obtain ⟨hx1, hx2⟩ := (covers_singleton ⟨a, b⟩ x).mp hx
    exact hfit x hx1 hx2 r (firstRule_take m.rules x r k hr))
  constructor
  · intro x
    rw [h2]
    simp only [covers_singleton, Interval.mem, and_assoc]
  · intro y
    rw [h1]
    simp only [covers_singleton, Interval.mem, and_assoc]
    constructor
    · rintro (h | h)
      · exact absurd h (covers_nil y)
      · exact h
    · intro h
      exact Or.inr h

/-- C18 (amended), on the rule `{98, 99, -48}` and the interval `[95,100]` after
one rule: `remaining` holds `[95,97]` and `[100,100]`, `output` holds
`[50,51]`. -/
theorem split_invariant_witness :
    (soilMap.rules.take 1).foldl Almanac.applyRule ([], [⟨95, 100⟩]) =
        ([⟨50, 51⟩], [⟨95, 97⟩, ⟨100, 100⟩]) ∧
      (∀ x, covers ((soilMap.rules.take 1).foldl Almanac.applyRule ([], [⟨95, 100⟩])).2 x ↔
        (95 ≤ x ∧ x ≤ 100 ∧ ∀ q ∈ soilMap.rules.take 1, ¬ q.contains x)) ∧
      (∀ y, covers ((soilMap.rules.take 1).foldl Almanac.applyRule ([], [⟨95, 100⟩])).1 y ↔
        ∃ x, 95 ≤ x ∧ x ≤ 100 ∧ (∃ q ∈ soilMap.rules.take 1, q.contains x) ∧
          RuleMap.applyLoop (soilMap.rules.take 1) x = y) :=
  ⟨by decide,
   split_invariant soilMap 95 100 1 (by
    intro x hx1 hx2
    apply shiftFits_of_mem
    intro r hr _
    rw [show soilMap.rules = [⟨98, 99, -48⟩] from rfl, List.mem_singleton] at hr
    subst hr
    show LLONG_MIN ≤ x + -48 ∧ x + -48 ≤ LLONG_MAX
    unfold LLONG_MIN LLONG_MAX
    omega)⟩

/-- C19 fails when `start + length - 1` is not a `long long` value: for the seed
line `9223372036854775807 2` the stored interval is
`[9223372036854775807, -9223372036854775808]`; its length `2` is at least `1`,
but its end has wrapped around, is not `start + length - 1` and lies below its
start. -/
theorem seed_interval_counterexample :
    Even ({ emptyAlmanac with seeds := [9223372036854775807, 2] } : Almanac).seeds.length ∧
      ({ emptyAlmanac with seeds := [9223372036854775807, 2] } : Almanac).setSeedIntervals =
        some { emptyAlmanac with seeds := [9223372036854775807, 2],
                                 seedIntervals := [⟨9223372036854775807, -9223372036854775808⟩] } ∧
      (⟨9223372036854775807, -9223372036854775808⟩ : Interval) ≠
        ⟨9223372036854775807, 9223372036854775807 + 2 - 1⟩ ∧
      ¬ (⟨9223372036854775807, -9223372036854775808⟩ : Interval).start ≤
        (⟨9223372036854775807, -9223372036854775808⟩ : Interval).end_ := by
  refine ⟨⟨1, rfl⟩, by decide, by decide, by decide⟩

/-- C19 (amended): for a seed list of even length `2n`, `setSeedIntervals`
appends exactly `n` intervals to `seedIntervals`, the `i`-th starting at
`seeds[2i]` and ending at `seeds[2i] + seeds[2i+1] - 1` computed in `long long`;
when `seeds[2i] + seeds[2i+1] - 1` is a `long long` value the `i`-th interval is
`[seeds[2i], seeds[2i] + seeds[2i+1] - 1]`, and it has `start ≤ end` whenever its
length `seeds[2i+1]` is at least `1`. -/
theorem setSeedIntervals_pairs (al : Almanac) (hev : Even al.seeds.length) :
    ∃ added : List Interval,
      al.setSeedIntervals = some { al with seedIntervals := al.seedIntervals ++ added } ∧
      2 * added.length = al.seeds.length ∧
      ∀ i, i < added.length →
        ∃ s l, al.seeds[2 * i]? = some s ∧ al.seeds[2 * i + 1]? = some l ∧
          added[i]? = some ⟨s, wrap64 (wrap64 (s + l) - 1)⟩ ∧
          (fits64 (s + l - 1) →
            added[i]? = some ⟨s, s + l - 1⟩ ∧
            (1 ≤ l → (⟨s, s + l - 1⟩ : Interval).start ≤ (⟨s, s + l - 1⟩ : Interval).end_)) := by
  obtain ⟨hlen, hidx⟩ := seedRanges_index al.seeds hev
  refine ⟨(seedRanges al.seeds).map rangeInterval, ?_, ?_, ?_⟩
  · unfold Almanac.setSeedIntervals
    rw [setSeedIntervalsLoop_even al.seeds al.seedIntervals hev]
    rfl
  · rw [List.length_map]
    exact hlen
  · intro i hi
    rw [List.length_map] at hi
    obtain ⟨s, l, h1, h2, h3⟩ := hidx i hi
    refine ⟨s, l, h1, h2, ?_, ?_⟩
    · rw [List.getElem?_map, h3]
      rfl
    · intro hfit
      refine ⟨?_, ?_⟩
      · rw [List.getElem?_map, h3]
        show some (rangeInterval (s, l)) = _
        rw [rangeInterval_exact (s, l) hfit]
      · intro hl
        show s ≤ s + l - 1
        omega

/-- C19 (amended), on the seed line `79 14 55 13`: the intervals `[79,92]` and
`[55,67]` are appended. -/
theorem setSeedIntervals_pairs_witness :
    ({ emptyAlmanac with seeds := [79, 14, 55, 13] } : Almanac).setSeedIntervals =
        some { emptyAlmanac with seeds := [79, 14, 55, 13],
                                 seedIntervals := [⟨79, 92⟩, ⟨55, 67⟩] } ∧
      ∃ added : List Interval,
        ({ emptyAlmanac with seeds := [79, 14, 55, 13] } : Almanac).setSeedIntervals =
          some { emptyAlmanac with seeds := [79, 14, 55, 13],
                                   seedIntervals := [] ++ added } ∧
        2 * added.length = 4 ∧
        ∀ i, i < added.length →
          ∃ s l, ([79, 14, 55, 13] : List Int)[2 * i]? = some s ∧
            ([79, 14, 55, 13] : List Int)[2 * i + 1]? = some l ∧
            added[i]? = some ⟨s, wrap64 (wrap64 (s + l) - 1)⟩ ∧
            (fits64 (s + l - 1) →
              added[i]? = some ⟨s, s + l - 1⟩ ∧
              (1 ≤ l → (⟨s, s + l - 1⟩ : Interval).start ≤ (⟨s, s + l - 1⟩ : Interval).end_)) :=
  ⟨by decide,
   setSeedIntervals_pairs { emptyAlmanac with seeds := [79, 14, 55, 13] } (by decide)⟩

/-! ## Formatted extraction on well-formed text -/

theorem space_not_digit (c : Char) (h : isSpaceChar c = true) : isDigitChar c = false := by
  simp only [isSpaceChar, isDigitChar, Bool.or_eq_true, Bool.and_eq_true, beq_iff_eq,
    decide_eq_true_eq] at h
  simp only [isDigitChar, Bool.and_eq_false_iff, decide_eq_false_iff_not]
  omega

theorem digit_not_space (c : Char) (h : isDigitChar c = true) : isSpaceChar c = false := by
  cases hs : isSpaceChar c with
  | false => rfl
  | true => rw [space_not_digit c hs] at h; cases h

theorem digit_not_sign (c : Char) (h : isDigitChar c = true) : ¬ (c = '-' ∨ c = '+') := by
  rintro (hc | hc) <;> subst hc <;> revert h <;> decide

theorem dropWhile_append_stop (p : Char → Bool) (l rest : List Char)
    (hl : ∀ c ∈ l, p c = true) (hrest : ∀ c ∈ rest.head?, p c = false) :
    (l ++ rest).dropWhile p = rest := by
  induction l with
  | nil =>
    cases rest with
    | nil => rfl
    | cons c cs =>
      have hc : p c = false := hrest c rfl
      simp [List.dropWhile, hc]
  | cons a l ih =>
    have ha : p a = true := hl a (List.mem_cons_self _ _)
    have hih := ih (fun c hc => hl c (List.mem_cons_of_mem _ hc))
    rw [List.cons_append, List.dropWhile_cons, ha, if_pos rfl, hih]

theorem takeWhile_append_stop (p : Char → Bool) (l rest : List Char)
    (hl : ∀ c ∈ l, p c = true) (hrest : ∀ c ∈ rest.head?, p c = false) :
    (l ++ rest).takeWhile p = l := by
  induction l with
  | nil =>
    cases rest with
    | nil => rfl
    | cons c cs =>
      have hc : p c = false := hrest c rfl
      simp [List.takeWhile, hc]
  | cons a l ih =>
    have ha : p a = true := hl a (List.mem_cons_self _ _)
    have hih := ih (fun c hc => hl c (List.mem_cons_of_mem _ hc))
    rw [List.cons_append, List.takeWhile_cons, ha, if_pos rfl, hih]

theorem extract_numeral (ws num rest : List Char) (n : Int)
    (hws : ∀ c ∈ ws, isSpaceChar c = true) (hnum : isNumeralOf num n)
    (hrest : ∀ c ∈ rest.head?, isSpaceChar c = true) :
    (StringStream.mk (ws ++ num ++ rest) false).extract = (⟨rest, false⟩, some n) := by
  obtain ⟨digits, hne, hdig, hmin, hmax, hform⟩ := hnum
  have hrestdigit : ∀ c ∈ rest.head?, isDigitChar c = false :=
    fun c hc => space_not_digit c (hrest c hc)
  have htake := takeWhile_append_stop isDigitChar digits rest hdig hrestdigit
  have hdrop := dropWhile_append_stop isDigitChar digits rest hdig hrestdigit
  cases digits with
  | nil => exact absurd rfl hne
  | cons d ds =>
    have hd : isDigitChar d = true := hdig d (List.mem_cons_self _ _)
    have hdsign := digit_not_sign d hd
    have hnotmax : ¬ n > LLONG_MAX := by omega
    have hnotmin : ¬ n < LLONG_MIN := by omega
    rcases hform with ⟨hnum, hn⟩ | ⟨hnum, hn⟩ | ⟨hnum, hn⟩
    · have hskip : (ws ++ num ++ rest).dropWhile isSpaceChar = d :: (ds ++ rest) := by
        rw [hnum, List.append_assoc]
        exact dropWhile_append_stop isSpaceChar ws _ hws
          (fun c hc => by
            have : c = d := by simpa using hc.symm
            rw [this]; exact digit_not_space d hd)
      have hd1 : ¬ d = '-' := fun h => hdsign (Or.inl h)
      have hd2 : ¬ d = '+' := fun h => hdsign (Or.inr h)
      rw [List.cons_append] at htake hdrop
      simp only [StringStream.extract, hskip, hd1, hd2, or_self, if_false, htake, hdrop, ← hn,
        hnotmax, hnotmin, Bool.false_eq_true, reduceCtorEq]
    · have hskip : (ws ++ num ++ rest).dropWhile isSpaceChar = '+' :: (d :: ds ++ rest) := by
        rw [hnum, List.append_assoc]
        exact dropWhile_append_stop isSpaceChar ws _ hws
          (fun c hc => by
            have : c = '+' := by simpa using hc.symm
            rw [this]; decide)
      have hplus : ¬ ('+' = '-') := by decide
      simp only [StringStream.extract, hskip, or_true, if_true, htake, hdrop, hplus, if_false,
        ← hn, hnotmax, hnotmin, Bool.false_eq_true, reduceCtorEq]
    · have hskip : (ws ++ num ++ rest).dropWhile isSpaceChar = '-' :: (d :: ds ++ rest) := by
        rw [hnum, List.append_assoc]
        exact dropWhile_append_stop isSpaceChar ws _ hws
          (fun c hc => by
            have : c = '-' := by simpa using hc.symm
            rw [this]; decide)
      simp only [StringStream.extract, hskip, true_or, if_true, htake, hdrop,
        ← hn, hnotmax, hnotmin, if_false, Bool.false_eq_true, reduceCtorEq]

theorem extract_spaces (ws : List Char) (hws : ∀ c ∈ ws, isSpaceChar c = true) :
    (StringStream.mk ws false).extract = (⟨[], true⟩, none) := by
  have hskip : ws.dropWhile isSpaceChar = [] := by
    have := dropWhile_append_stop isSpaceChar ws [] hws (fun c hc => by cases hc)
    rwa [List.append_nil] at this
  simp only [StringStream.extract, hskip, Bool.false_eq_true, if_false]

theorem numeral_ne_nil (num : List Char) (n : Int) (h : isNumeralOf num n) : num ≠ [] := by
  obtain ⟨digits, hne, _, _, _, hform⟩ := h
  rcases hform with ⟨hnum, _⟩ | ⟨hnum, _⟩ | ⟨hnum, _⟩ <;> rw [hnum]
  · exact hne
  · exact List.cons_ne_nil _ _
  · exact List.cons_ne_nil _ _

theorem readSeedsLoop_integers (text : List Char) (ns : List Int) (h : IntegersOf text ns) :
    ∀ (fuel : Nat) (acc : List Int), text.length + 1 ≤ fuel →
      Almanac.readSeedsLoop fuel ⟨text, false⟩ acc = acc ++ ns := by
  induction h with
  | nil ws hws =>
    intro fuel acc hfuel
    cases fuel with
    | zero => omega
    | succ f =>
      simp only [Almanac.readSeedsLoop, extract_spaces ws hws, List.append_nil]
  | cons ws num rest n ns hws hnum hrest _ ih =>
    intro fuel acc hfuel
    cases fuel with
    | zero => omega
    | succ f =>
      have hlen : 0 < num.length := List.length_pos.mpr (numeral_ne_nil num n hnum)
      have hf : rest.length + 1 ≤ f := by
        simp only [List.length_append] at hfuel
        omega
      simp only [Almanac.readSeedsLoop, extract_numeral ws num rest n hws hnum hrest,
        Bool.false_eq_true, if_false]
      rw [ih f (acc ++ [n]) hf, List.append_assoc]
      rfl

theorem readSeeds_integers (text : List Char) (ns acc : List Int) (h : IntegersOf text ns) :
    Almanac.readSeeds text acc = acc ++ ns :=
  readSeedsLoop_integers text ns h _ acc (le_refl _)

theorem readTriple_integers (init : Int × Int × Int) (line : List Char) (d s l : Int)
    (h : IntegersOf line [d, s, l]) : Almanac.readTriple init line = (d, s, l) := by
  cases h with
  | cons ws1 num1 rest1 _ _ hws1 hnum1 hrest1 h1 =>
    cases h1 with
    | cons ws2 num2 rest2 _ _ hws2 hnum2 hrest2 h2 =>
      cases h2 with
      | cons ws3 num3 rest3 _ _ hws3 hnum3 hrest3 h3 =>
        simp only [Almanac.readTriple, extract_numeral ws1 num1 _ d hws1 hnum1 hrest1,
          extract_numeral ws2 num2 _ s hws2 hnum2 hrest2,
          extract_numeral ws3 num3 _ l hws3 hnum3 hrest3, Option.getD_some]

theorem numeral_chars (num : List Char) (n : Int) (h : isNumeralOf num n) :
    ∀ c ∈ num, isNumericChar c = true := by
  obtain ⟨digits, _, hdig, _, _, hform⟩ := h
  have hd : ∀ c ∈ digits, isNumericChar c = true := by
    intro c hc
    simp [isNumericChar, hdig c hc]
  rcases hform with ⟨hnum, _⟩ | ⟨hnum, _⟩ | ⟨hnum, _⟩ <;> rw [hnum]
  · exact hd
  · intro c hc
    rcases List.mem_cons.mp hc with h | h
    · rw [h]; decide
    · exact hd c h
  · intro c hc
    rcases List.mem_cons.mp hc with h | h
    · rw [h]; decide
    · exact hd c h

theorem integers_chars (text : List Char) (ns : List Int) (h : IntegersOf text ns) :
    ∀ c ∈ text, isNumericChar c = true := by
  induction h with
  | nil ws hws =>
    intro c hc
    simp [isNumericChar, hws c hc]
  | cons ws num rest n ns hws hnum _ _ ih =>
    intro c hc
    rcases List.mem_append.mp hc with h | h
    · rcases List.mem_append.mp h with h | h
      · simp [isNumericChar, hws c h]
      · exact numeral_chars num n hnum c h
    · exact ih c h

theorem integers_ne_nil (text : List Char) (n : Int) (ns : List Int)
    (h : IntegersOf text (n :: ns)) : text ≠ [] := by
  cases h with
  | cons ws num rest _ _ _ hnum _ _ =>
    intro hnil
    have := numeral_ne_nil num n hnum
    simp only [List.append_eq_nil] at hnil
    exact this hnil.1.2

theorem hasSubstring_mem (c : Char) (pat : List Char) :
    ∀ text : List Char, hasSubstring (c :: pat) text = true → c ∈ text := by
  intro text
  induction text with
  | nil => intro h; simp [hasSubstring] at h
  | cons a t ih =>
    intro h
    simp only [hasSubstring, Bool.or_eq_true] at h
    rcases h with h | h
    · simp only [List.isPrefixOf, Bool.and_eq_true, beq_iff_eq] at h
      rw [← h.1]
      exact List.mem_cons_self _ _
    · exact List.mem_cons_of_mem _ (ih h)

theorem isPrefixOf_mem (c : Char) (pat text : List Char)
    (h : (c :: pat).isPrefixOf text = true) : c ∈ text := by
  cases text with
  | nil => simp [List.isPrefixOf] at h
  | cons a t =>
    simp only [List.isPrefixOf, Bool.and_eq_true, beq_iff_eq] at h
    rw [← h.1]
    exact List.mem_cons_self _ _

theorem integers_not_seeds (text : List Char) (ns : List Int) (h : IntegersOf text ns) :
    "seeds:".data.isPrefixOf text = false := by
  cases hp : "seeds:".data.isPrefixOf text with
  | false => rfl
  | true =>
    have hmem := isPrefixOf_mem 's' "eeds:".data text hp
    have := integers_chars text ns h 's' hmem
    revert this
    decide

theorem integers_not_header (text : List Char) (ns : List Int) (h : IntegersOf text ns) :
    hasSubstring "map:".data text = false := by
  cases hp : hasSubstring "map:".data text with
  | false => rfl
  | true =>
    have hmem := hasSubstring_mem 'm' "ap:".data text hp
    have := integers_chars text ns h 'm' hmem
    revert this
    decide

/-! ## The seeds loop never runs out of extractions -/

theorem extract_consumes (ss ss1 : StringStream) (x : Int)
    (h : ss.extract = (ss1, some x)) (hok : ss1.failbit = false) :
    ss1.buf.length < ss.buf.length := by
  unfold StringStream.extract at h
  by_cases hf : ss.failbit = true
  · rw [if_pos hf] at h
    cases h
  · rw [if_neg hf] at h
    have hskip : (ss.buf.dropWhile isSpaceChar).length ≤ ss.buf.length :=
      (List.dropWhile_sublist isSpaceChar).length_le
    cases hd : ss.buf.dropWhile isSpaceChar with
    | nil =>
      rw [hd] at h
      cases h
    | cons c cs =>
      rw [hd] at h hskip
      simp only at h
      have hbody : (if c = '-' ∨ c = '+' then cs else c :: cs).length ≤ (c :: cs).length := by
        split
        · simp
        · exact le_refl _
      generalize (if c = '-' ∨ c = '+' then cs else c :: cs) = body at h hbody
      have hlen := congrArg List.length (List.takeWhile_append_dropWhile isDigitChar body)
      rw [List.length_append] at hlen
      generalize (if c = '-' then -(digitsValue (List.takeWhile isDigitChar body) : Int)
        else (digitsValue (List.takeWhile isDigitChar body) : Int)) = value at h
      by_cases hdigits : List.takeWhile isDigitChar body = []
      · rw [if_pos hdigits] at h
        cases h
        cases hok
      · rw [if_neg hdigits] at h
        have hpos : 0 < (List.takeWhile isDigitChar body).length := List.length_pos.mpr hdigits
        by_cases hmax : value > LLONG_MAX
        · rw [if_pos hmax] at h
          cases h
          cases hok
        · rw [if_neg hmax] at h
          by_cases hmin : value < LLONG_MIN
          · rw [if_pos hmin] at h
            cases h
            cases hok
          · rw [if_neg hmin] at h
            cases h
            show (List.dropWhile isDigitChar body).length < ss.buf.length
            simp only [List.length_cons] at hbody hskip
            omega

theorem readSeedsLoop_fuel (fuel : Nat) :
    ∀ (extra : Nat) (ss : StringStream) (acc : List Int), ss.buf.length + 1 ≤ fuel →
      Almanac.readSeedsLoop (fuel + extra) ss acc = Almanac.readSeedsLoop fuel ss acc := by
  induction fuel with
  | zero => intro extra ss acc h; omega
  | succ f ih =>
    intro extra ss acc h
    have hsucc : f + 1 + extra = (f + extra) + 1 := by omega
    rw [hsucc]
    simp only [Almanac.readSeedsLoop]
    cases hx : ss.extract with
    | mk ss1 v =>
      cases v with
      | none => rfl
      | some x =>
        simp only
        cases hb : ss1.failbit with
        | true => simp
        | false =>
          have hlt := extract_consumes ss ss1 x hx hb
          simp only [Bool.false_eq_true, if_false]
          exact ih extra ss1 (acc ++ [x]) (by omega)

/-! ## The line loop on well-formed input -/

theorem readLine_blank (init : Int × Int × Int) (st : ParseState) (line : String)
    (h : line.data = []) : Almanac.readLine init st line = st := by
  simp only [Almanac.readLine, h, if_true]

theorem readLine_seeds (init : Int × Int × Int) (st : ParseState) (line : String)
    (seeds : List Int) (h : isSeedsLine line seeds) :
    Almanac.readLine init st line = { st with seeds := st.seeds ++ seeds } := by
  obtain ⟨text, hline, hint⟩ := h
  have hne : ¬ line.data = [] := by
    rw [hline]
    exact List.cons_ne_nil _ _
  have hpre : "seeds:".data.isPrefixOf line.data = true := by
    rw [hline]
    simp [List.isPrefixOf]
  have hdrop : line.data.drop 6 = text := by
    rw [hline]
    rfl
  simp only [Almanac.readLine, hne, if_false, hpre, if_true, hdrop,
    readSeeds_integers text seeds st.seeds hint]

theorem readLine_header (init : Int × Int × Int) (st : ParseState) (line : String)
    (h : isHeaderLine line) :
    Almanac.readLine init st line =
      { seeds := st.seeds, ruleMaps := st.sealed,
        current := { name := line, rules := if st.inMap then [] else st.current.rules },
        inMap := true } := by
  obtain ⟨hpre, hsub⟩ := h
  have hne : ¬ line.data = [] := by
    intro hnil
    rw [hnil] at hsub
    revert hsub
    decide
  simp only [Almanac.readLine, hne, if_false, hpre, Bool.false_eq_true, hsub, if_true,
    ParseState.sealed]

theorem readLine_numeric (init : Int × Int × Int) (st : ParseState) (line : String)
    (hin : st.inMap = true) (hne : line.data ≠ [])
    (hseeds : "seeds:".data.isPrefixOf line.data = false)
    (hmap : hasSubstring "map:".data line.data = false) :
    Almanac.readLine init st line =
      { st with current :=
        { st.current with
          rules := st.current.rules ++
            [Almanac.buildRule (Almanac.readTriple init line.data).1
              (Almanac.readTriple init line.data).2.1
              (Almanac.readTriple init line.data).2.2] } } := by
  simp only [Almanac.readLine, hne, if_false, hseeds, hmap, Bool.false_eq_true, hin, if_true]

theorem readLine_triple (init : Int × Int × Int) (st : ParseState) (line : String)
    (t : Int × Int × Int) (hin : st.inMap = true) (h : isTripleLine line t) :
    Almanac.readLine init st line =
      { st with current :=
        { st.current with
          rules := st.current.rules ++ [Almanac.buildRule t.1 t.2.1 t.2.2] } } := by
  rw [readLine_numeric init st line hin (integers_ne_nil line.data _ _ h)
    (integers_not_seeds line.data _ h) (integers_not_header line.data _ h),
    readTriple_integers init line.data t.1 t.2.1 t.2.2 h]

theorem readLines_shift (file : List String) :
    ∀ (init : Nat → Int × Int × Int) (i : Nat) (st : ParseState),
      Almanac.readLines init (i + 1) st file =
        Almanac.readLines (fun j => init (j + 1)) i st file := by
  induction file with
  | nil => intro init i st; rfl
  | cons x xs ih =>
    intro init i st
    simp only [Almanac.readLines]
    exact ih init (i + 1) _

theorem readLines_append (xs : List String) :
    ∀ (init : Nat → Int × Int × Int) (i : Nat) (st : ParseState) (ys : List String),
      Almanac.readLines init i st (xs ++ ys) =
        Almanac.readLines init (i + xs.length) (Almanac.readLines init i st xs) ys := by
  induction xs with
  | nil => intro init i st ys; rfl
  | cons x xs ih =>
    intro init i st ys
    have h := ih init (i + 1) (Almanac.readLine (init i) st x) ys
    have hidx : i + 1 + xs.length = i + (x :: xs).length := by
      rw [List.length_cons]
      omega
    show Almanac.readLines init (i + 1) (Almanac.readLine (init i) st x) (xs ++ ys) = _
    rw [h, hidx]
    rfl

theorem readLines_filter (file : List String) :
    ∀ (init : Nat → Int × Int × Int) (i : Nat) (st : ParseState),
      ∃ init' : Nat → Int × Int × Int,
        Almanac.readLines init i st file =
          Almanac.readLines init' 0 st (file.filter (fun line => !line.data.isEmpty)) := by
  induction file with
  | nil => intro init i st; exact ⟨init, rfl⟩
  | cons x xs ih =>
    intro init i st
    by_cases hx : x.data = []
    · have hf : (!x.data.isEmpty) = false := by simp [hx]
      obtain ⟨init', h⟩ := ih init (i + 1) st
      refine ⟨init', ?_⟩
      rw [List.filter_cons]
      simp only [hf, Bool.false_eq_true, if_false, Almanac.readLines,
        readLine_blank (init i) st x hx]
      exact h
    · have hf : (!x.data.isEmpty) = true := by simp [hx]
      obtain ⟨init', h⟩ := ih init (i + 1) (Almanac.readLine (init i) st x)
      refine ⟨fun j => match j with
        | 0 => init i
        | k + 1 => init' k, ?_⟩
      rw [List.filter_cons]
      simp only [hf, if_true, Almanac.readLines]
      rw [h, readLines_shift]

theorem readLines_triples (ts : List (String × (Int × Int × Int))) :
    ∀ (init : Nat → Int × Int × Int) (i : Nat) (st : ParseState),
      st.inMap = true → (∀ t ∈ ts, isTripleLine t.1 t.2) →
      Almanac.readLines init i st (ts.map Prod.fst) =
        { st with current :=
          { st.current with
            rules := st.current.rules ++
              ts.map (fun t => Almanac.buildRule t.2.1 t.2.2.1 t.2.2.2) } } := by
  induction ts with
  | nil =>
    intro init i st _ _
    simp [Almanac.readLines]
  | cons t ts ih =>
    intro init i st hin hall
    simp only [List.map_cons, Almanac.readLines,
      readLine_triple (init i) st t.1 t.2 hin (hall t (List.mem_cons_self _ _))]
    have hih := ih init (i + 1)
      { st with current :=
        { st.current with
          rules := st.current.rules ++ [Almanac.buildRule t.2.1 t.2.2.1 t.2.2.2] } }
      hin (fun t1 ht1 => hall t1 (List.mem_cons_of_mem _ ht1))
    rw [hih]
    simp [List.append_assoc]

theorem readLines_sections (sections : List (String × List (String × (Int × Int × Int)))) :
    ∀ (init : Nat → Int × Int × Int) (i : Nat) (st : ParseState),
      (st.inMap = false → st.current.rules = []) →
      (∀ sec ∈ sections, isHeaderLine sec.1 ∧ ∀ t ∈ sec.2, isTripleLine t.1 t.2) →
      (Almanac.readLines init i st (sections.flatMap sectionLines)).seeds = st.seeds ∧
        (Almanac.readLines init i st (sections.flatMap sectionLines)).sealed =
          st.sealed ++ sections.map sectionMap := by
  induction sections with
  | nil =>
    intro init i st _ _
    exact ⟨rfl, by simp [Almanac.readLines]⟩
  | cons sec secs ih =>
    intro init i st hinv hall
    obtain ⟨hhead, htriples⟩ := hall sec (List.mem_cons_self _ _)
    have hrules : (if st.inMap then [] else st.current.rules) = ([] : List Rule) := by
      cases hin : st.inMap with
      | true => rfl
      | false => simp [hinv hin]
    have hstep : Almanac.readLines init i st ((sec :: secs).flatMap sectionLines) =
        Almanac.readLines init (i + (sectionLines sec).length)
          { seeds := st.seeds, ruleMaps := st.sealed,
            current := { name := sec.1,
                         rules := [] ++
                           sec.2.map (fun t => Almanac.buildRule t.2.1 t.2.2.1 t.2.2.2) },
            inMap := true }
          (secs.flatMap sectionLines) := by
      rw [List.flatMap_cons, readLines_append]
      congr 1
      simp only [sectionLines, Almanac.readLines, readLine_header (init i) st sec.1 hhead, hrules]
      rw [readLines_triples sec.2 init (i + 1) _ rfl htriples]
    obtain ⟨hseeds1, hsealed1⟩ :=
      ih init (i + (sectionLines sec).length)
        { seeds := st.seeds, ruleMaps := st.sealed,
          current := { name := sec.1,
                       rules := [] ++ sec.2.map (fun t => Almanac.buildRule t.2.1 t.2.2.1 t.2.2.2) },
          inMap := true }
        (fun h => by cases h)
        (fun sec1 hsec1 => hall sec1 (List.mem_cons_of_mem _ hsec1))
    rw [hstep]
    refine ⟨hseeds1, ?_⟩
    rw [hsealed1]
    simp [ParseState.sealed, sectionMap, List.append_assoc]

theorem readPuzzleInput_sections (al : Almanac) (init : Nat → Int × Int × Int)
    (file : List String) (seedsLine : String)
    (seeds : List Int) (sections : List (String × List (String × (Int × Int × Int))))
    (hfile : file.filter (fun line => !line.data.isEmpty) =
      seedsLine :: sections.flatMap sectionLines)
    (hseeds : isSeedsLine seedsLine seeds)
    (hsec : ∀ sec ∈ sections, isHeaderLine sec.1 ∧ ∀ t ∈ sec.2, isTripleLine t.1 t.2) :
    al.readPuzzleInput init file =
      { al with seeds := al.seeds ++ seeds,
                ruleMaps := al.ruleMaps ++ sections.map sectionMap } := by
  obtain ⟨init', hfilter⟩ :=
    readLines_filter file init 0 ⟨al.seeds, al.ruleMaps, ⟨"", []⟩, false⟩
  obtain ⟨hseeds1, hsealed1⟩ :=
    readLines_sections sections init' 1
      { seeds := al.seeds ++ seeds, ruleMaps := al.ruleMaps, current := ⟨"", []⟩, inMap := false }
      (fun _ => rfl) hsec
  unfold Almanac.readPuzzleInput
  rw [hfilter, hfile]
  simp only [Almanac.readLines, readLine_seeds _ _ seedsLine seeds hseeds]
  have hsealed : ∀ st1 : ParseState,
      (if st1.inMap then st1.ruleMaps ++ [st1.current] else st1.ruleMaps) = st1.sealed :=
    fun _ => rfl
  rw [hsealed, hsealed1, hseeds1]
  rfl

theorem integersOf_cons_digits (ws digits rest : List Char) (ns : List Int)
    (hws : ∀ c ∈ ws, isSpaceChar c = true)
    (hdig : digits ≠ [] ∧ (∀ c ∈ digits, isDigitChar c = true) ∧
      (digitsValue digits : Int) ≤ LLONG_MAX)
    (hrest : ∀ c ∈ rest.head?, isSpaceChar c = true) (h : IntegersOf rest ns) :
    IntegersOf (ws ++ digits ++ rest) ((digitsValue digits : Int) :: ns) := by
  refine IntegersOf.cons ws digits rest _ ns hws ?_ hrest h
  refine ⟨digits, hdig.1, hdig.2.1, ?_, hdig.2.2, Or.inl ⟨rfl, rfl⟩⟩
  have h0 : (0 : Int) ≤ (digitsValue digits : Int) := Int.ofNat_nonneg _
  have hmin : LLONG_MIN ≤ 0 := by decide
  exact le_trans hmin h0

/-- C13 fails when `sourceStart + length - 1` is not a `long long` value: for the
triple `(0, 9223372036854775807, 2)` the rule built has
`srcEnd = -9223372036854775808`, and the map holding it sends
`x = 9223372036854775807`, which lies in
`[sourceStart, sourceStart + length - 1]`, to itself and not to
`destStart + (x - sourceStart) = 0`. -/
theorem rule_construction_counterexample :
    Almanac.buildRule 0 9223372036854775807 2 =
        ⟨9223372036854775807, -9223372036854775808, -9223372036854775807⟩ ∧
      Almanac.buildRule 0 9223372036854775807 2 ≠
        ⟨9223372036854775807, 9223372036854775807 + 2 - 1, 0 - 9223372036854775807⟩ ∧
      ((9223372036854775807 : Int) ≤ 9223372036854775807 ∧
        (9223372036854775807 : Int) ≤ 9223372036854775807 + 2 - 1) ∧
      (RuleMap.mk "x map:" [Almanac.buildRule 0 9223372036854775807 2]).apply
          9223372036854775807 = 9223372036854775807 ∧
      (RuleMap.mk "x map:" [Almanac.buildRule 0 9223372036854775807 2]).apply
          9223372036854775807 ≠ 0 + (9223372036854775807 - 9223372036854775807) := by
  decide

/-- C13 (amended): for a triple `(destStart, sourceStart, length)` such that
`sourceStart + length - 1`, `destStart - sourceStart` and the ends `destStart`
and `destStart + length - 1` of the destination range are `long long` values,
the rule built is `{sourceStart, sourceStart + length - 1, destStart -
sourceStart}`; inside a map section a line holding these three integers appends
exactly this rule to the current map; and a map holding only this rule sends
every `x` of `[sourceStart, sourceStart + length - 1]` to
`destStart + (x - sourceStart)` and every other `x` to itself. -/
theorem rule_construction (destStart sourceStart length : Int)
    (hend : fits64 (sourceStart + length - 1)) (hdelta : fits64 (destStart - sourceStart))
    (hdest : LLONG_MIN ≤ destStart ∧ destStart + length - 1 ≤ LLONG_MAX) :
    Almanac.buildRule destStart sourceStart length =
        ⟨sourceStart, sourceStart + length - 1, destStart - sourceStart⟩ ∧
      (∀ (init : Int × Int × Int) (st : ParseState) (line : String), st.inMap = true →
        isTripleLine line (destStart, sourceStart, length) →
        Almanac.readLine init st line =
          { st with current :=
            { st.current with
              rules := st.current.rules ++
                [⟨sourceStart, sourceStart + length - 1, destStart - sourceStart⟩] } }) ∧
      ∀ (name : String) (x : Int),
        ((sourceStart ≤ x ∧ x ≤ sourceStart + length - 1) →
          (RuleMap.mk name [Almanac.buildRule destStart sourceStart length]).apply x =
            destStart + (x - sourceStart)) ∧
        (¬ (sourceStart ≤ x ∧ x ≤ sourceStart + length - 1) →
          (RuleMap.mk name [Almanac.buildRule destStart sourceStart length]).apply x = x) := by
  have hrule : Almanac.buildRule destStart sourceStart length =
      ⟨sourceStart, sourceStart + length - 1, destStart - sourceStart⟩ := by
    unfold Almanac.buildRule
    rw [wrap64_sub_one, wrap64_fits _ hend, wrap64_fits _ hdelta]
  refine ⟨hrule, ?_, ?_⟩
  · intro init st line hin hline
    rw [← hrule]
    exact readLine_triple init st line (destStart, sourceStart, length) hin hline
  · intro name x
    rw [hrule]
    constructor
    · intro hx
      have hc : (⟨sourceStart, sourceStart + length - 1, destStart - sourceStart⟩ :
          Rule).contains x := hx
      show RuleMap.applyLoop [⟨sourceStart, sourceStart + length - 1,
        destStart - sourceStart⟩] x = _
      rw [applyLoop_cons_pos _ _ x hc]
      show wrap64 (x + (destStart - sourceStart)) = _
      rw [wrap64_fits _ (by
        show LLONG_MIN ≤ x + (destStart - sourceStart) ∧
          x + (destStart - sourceStart) ≤ LLONG_MAX
        omega)]
      omega
    · intro hx
      have hc : ¬ (⟨sourceStart, sourceStart + length - 1, destStart - sourceStart⟩ :
          Rule).contains x := hx
      show RuleMap.applyLoop [⟨sourceStart, sourceStart + length - 1,
        destStart - sourceStart⟩] x = _
      rw [applyLoop_cons_neg _ _ x hc]
      rfl

/-- C13 (amended), on the line `50 98 2`: the rule is `{98, 99, -48}`, and the
map holding it sends `98` to `50`, `99` to `51` and `100` to itself. -/
theorem rule_construction_witness :
    Almanac.buildRule 50 98 2 = ⟨98, 99, -48⟩ ∧
      Almanac.readLine someContent ⟨[], [], ⟨"seed-to-soil map:", []⟩, true⟩ "50 98 2" =
        ⟨[], [], ⟨"seed-to-soil map:", [⟨98, 99, -48⟩]⟩, true⟩ ∧
      (RuleMap.mk "seed-to-soil map:" [Almanac.buildRule 50 98 2]).apply 98 = 50 ∧
      (RuleMap.mk "seed-to-soil map:" [Almanac.buildRule 50 98 2]).apply 99 = 51 ∧
      (RuleMap.mk "seed-to-soil map:" [Almanac.buildRule 50 98 2]).apply 100 = 100 :=
  ⟨(rule_construction 50 98 2 (by decide) (by decide) (by decide)).1,
   (rule_construction 50 98 2 (by decide) (by decide) (by decide)).2.1 someContent
     ⟨[], [], ⟨"seed-to-soil map:", []⟩, true⟩ "50 98 2" rfl
     (integersOf_cons_digits [] ['5', '0'] [' ', '9', '8', ' ', '2'] [98, 2]
       (by decide) (by decide) (by decide)
       (integersOf_cons_digits [' '] ['9', '8'] [' ', '2'] [2] (by decide) (by decide) (by decide)
         (integersOf_cons_digits [' '] ['2'] [] [] (by decide) (by decide) (by decide)
           (IntegersOf.nil [] (by decide))))),
   ((rule_construction 50 98 2 (by decide) (by decide) (by decide)).2.2
      "seed-to-soil map:" 98).1 (by decide),
   ((rule_construction 50 98 2 (by decide) (by decide) (by decide)).2.2
      "seed-to-soil map:" 99).1 (by decide),
   ((rule_construction 50 98 2 (by decide) (by decide) (by decide)).2.2
      "seed-to-soil map:" 100).2 (by decide)⟩

/-- C20 (parsing preserves order): on a freshly constructed almanac, for every
file whose non-blank lines are a seeds line (`seeds:` followed by the integers
`seeds`) and then, for each of the `k` sections in order, its header line
(containing `map:`) followed by its triple lines, `readPuzzleInput` returns
(whatever the variables of the numeric branch held before the extractions)
with `seeds` equal to the integers of the seeds line in order and exactly `k`
maps in file order, the `i`-th named by the `i`-th header and holding the
rules that the code builds from the `i`-th section's triple lines, in line
order. -/
theorem readPuzzleInput_preserves_order (input : String) (init : Nat → Int × Int × Int)
    (file : List String) (seedsLine : String) (seeds : List Int)
    (sections : List (String × List (String × (Int × Int × Int))))
    (hfile : file.filter (fun line => !line.data.isEmpty) =
      seedsLine :: sections.flatMap sectionLines)
    (hseeds : isSeedsLine seedsLine seeds)
    (hsec : ∀ sec ∈ sections, isHeaderLine sec.1 ∧ ∀ t ∈ sec.2, isTripleLine t.1 t.2) :
    (Almanac.new input).readPuzzleInput init file =
        { puzzleInput := input, seeds := seeds,
          ruleMaps := sections.map sectionMap, seedIntervals := [] } ∧
      (sections.map sectionMap).length = sections.length := by
  refine ⟨?_, List.length_map _ _⟩
  rw [readPuzzleInput_sections (Almanac.new input) init file seedsLine seeds sections hfile
    hseeds hsec]
  simp [Almanac.new]

/-- C20, on the beginning of the puzzle's example input: two seeds and two maps,
the first with the rules of `50 98 2` and `52 50 48`, the second with the rule
of `0 15 37`. -/
theorem readPuzzleInput_preserves_order_witness :
    (Almanac.new "input.txt").readPuzzleInput (fun _ => someContent) exampleFile =
        { puzzleInput := "input.txt", seeds := [79, 14],
          ruleMaps := [⟨"seed-to-soil map:", [⟨98, 99, -48⟩, ⟨50, 97, 2⟩]⟩,
                       ⟨"soil-to-fertilizer map:", [⟨15, 51, -15⟩]⟩],
          seedIntervals := [] } ∧
      (exampleSections.map sectionMap).length = 2 :=
  readPuzzleInput_preserves_order "input.txt" (fun _ => someContent) exampleFile
    "seeds: 79 14" [79, 14]
    exampleSections (by decide)
    ⟨[' ', '7', '9', ' ', '1', '4'], rfl,
      integersOf_cons_digits [' '] ['7', '9'] [' ', '1', '4'] [14]
        (by decide) (by decide) (by decide)
        (integersOf_cons_digits [' '] ['1', '4'] [] [] (by decide) (by decide) (by decide)
          (IntegersOf.nil [] (by decide)))⟩
    (by
      intro sec hsec
      simp only [exampleSections, List.mem_cons, List.mem_singleton, List.not_mem_nil,
        or_false] at hsec
      rcases hsec with rfl | rfl
      · refine ⟨⟨by decide, by decide⟩, ?_⟩
        intro t ht
        simp only [List.mem_cons, List.mem_singleton, List.not_mem_nil, or_false] at ht
        rcases ht with rfl | rfl
        · exact integersOf_cons_digits [] ['5', '0'] [' ', '9', '8', ' ', '2'] [98, 2]
            (by decide) (by decide) (by decide)
            (integersOf_cons_digits [' '] ['9', '8'] [' ', '2'] [2]
              (by decide) (by decide) (by decide)
              (integersOf_cons_digits [' '] ['2'] [] [] (by decide) (by decide) (by decide)
                (IntegersOf.nil [] (by decide))))
        · exact integersOf_cons_digits [] ['5', '2'] [' ', '5', '0', ' ', '4', '8'] [50, 48]
            (by decide) (by decide) (by decide)
            (integersOf_cons_digits [' '] ['5', '0'] [' ', '4', '8'] [48]
              (by decide) (by decide) (by decide)
              (integersOf_cons_digits [' '] ['4', '8'] [] [] (by decide) (by decide) (by decide)
                (IntegersOf.nil [] (by decide))))
      · refine ⟨⟨by decide, by decide⟩, ?_⟩
        intro t ht
        simp only [List.mem_singleton] at ht
        subst ht
        exact integersOf_cons_digits [] ['0'] [' ', '1', '5', ' ', '3', '7'] [15, 37]
          (by decide) (by decide) (by decide)
          (integersOf_cons_digits [' '] ['1', '5'] [' ', '3', '7'] [37]
            (by decide) (by decide) (by decide)
            (integersOf_cons_digits [' '] ['3', '7'] [] [] (by decide) (by decide) (by decide)
              (IntegersOf.nil [] (by decide)))))

/-! ## Lines that are not three integers, and the three-way split -/

/-- C21 fails: the line `1 2 abc` of a map section is not three integers, yet
`readPuzzleInput` returns normally and the map holds the rule `{2, 1, -1}`
built from the values `1`, `2` and the `0` stored by the failed extraction,
whatever the three variables held before. -/
theorem malformed_line_counterexample :
    (¬ ∃ t, isTripleLine "1 2 abc" t) ∧
      (∀ init, Almanac.readTriple init "1 2 abc".data = (1, 2, 0)) ∧
      (Almanac.new "input.txt").readPuzzleInput (fun _ => someContent) malformedFile =
        { puzzleInput := "input.txt", seeds := [1],
          ruleMaps := [⟨"a-to-b map:", [⟨2, 1, -1⟩]⟩], seedIntervals := [] } := by
  refine ⟨?_, fun init => rfl, by decide⟩
  rintro ⟨t, ht⟩
  have := integers_chars "1 2 abc".data _ ht 'a' (by decide)
  revert this
  decide

/-- C21 (amended): `readPuzzleInput` does not validate the lines of a map
section. Inside a map section, every non-blank line that neither starts with
`seeds:` nor contains `map:` appends exactly one rule to the current map and
changes nothing else, and the loop goes on: the rule is built from the values
that the three variables hold after the three extractions (a field that is not
a number stores `0`; a variable that no extraction wrote keeps the content
`init` it had). -/
theorem malformed_line_adds_rule (init : Int × Int × Int) (st : ParseState) (line : String)
    (hin : st.inMap = true) (hne : line.data ≠ [])
    (hseeds : "seeds:".data.isPrefixOf line.data = false)
    (hmap : hasSubstring "map:".data line.data = false) :
    Almanac.readLine init st line =
        { st with current :=
          { st.current with
            rules := st.current.rules ++
              [Almanac.buildRule (Almanac.readTriple init line.data).1
                (Almanac.readTriple init line.data).2.1
                (Almanac.readTriple init line.data).2.2] } } ∧
      (Almanac.readLine init st line).current.rules.length = st.current.rules.length + 1 := by
  have h := readLine_numeric init st line hin hne hseeds hmap
  refine ⟨h, ?_⟩
  rw [h]
  simp

/-- C21 (amended), in the section `a-to-b map:` with the variables holding
`7`, `8`, `9` before the extractions: the line `1 2 abc` stores `1`, `2`, `0`;
the line `abc` stores `0` and leaves `8`, `9`; the line `1 2` stores `1`, `2` and
leaves `9`; the line `1, 2, 3` stores `1`, `0` and leaves `9`; each of them
appends the rule built from these values. -/
theorem malformed_line_adds_rule_witness :
    Almanac.readTriple someContent "1 2 abc".data = (1, 2, 0) ∧
      Almanac.readTriple someContent "abc".data = (0, 8, 9) ∧
      Almanac.readTriple someContent "1 2".data = (1, 2, 9) ∧
      Almanac.readTriple someContent "1, 2, 3".data = (1, 0, 9) ∧
      Almanac.readLine someContent ⟨[1], [], ⟨"a-to-b map:", []⟩, true⟩ "abc" =
        ⟨[1], [], ⟨"a-to-b map:", [⟨8, 16, -8⟩]⟩, true⟩ ∧
      (Almanac.readLine someContent ⟨[1], [], ⟨"a-to-b map:", []⟩, true⟩ "1 2 abc" =
          { (⟨[1], [], ⟨"a-to-b map:", []⟩, true⟩ : ParseState) with current :=
            { (⟨"a-to-b map:", []⟩ : RuleMap) with
              rules := [] ++
                [Almanac.buildRule (Almanac.readTriple someContent "1 2 abc".data).1
                  (Almanac.readTriple someContent "1 2 abc".data).2.1
                  (Almanac.readTriple someContent "1 2 abc".data).2.2] } } ∧
        (Almanac.readLine someContent ⟨[1], [], ⟨"a-to-b map:", []⟩, true⟩
          "1 2 abc").current.rules.length = 0 + 1) :=
  ⟨by decide, by decide, by decide, by decide, by decide,
   malformed_line_adds_rule someContent ⟨[1], [], ⟨"a-to-b map:", []⟩, true⟩ "1 2 abc" rfl
    (by decide) (by decide) (by decide)⟩

theorem parts_length_ge (r : Rule) (p : Interval) :
    1 ≤ (mappedPart r p).length + (restPart r p).length := by
  unfold mappedPart restPart
  by_cases h : max p.start r.srcStart ≤ min p.end_ r.srcEnd
  · rw [if_pos h, if_pos h]
    simp
  · rw [if_neg h, if_neg h]
    simp

theorem flatMap_parts_length_ge (r : Rule) (rem : List Interval) :
    rem.length ≤ (rem.flatMap (mappedPart r)).length + (rem.flatMap (restPart r)).length := by
  induction rem with
  | nil => simp
  | cons p ps ih =>
    simp only [List.flatMap_cons, List.length_append, List.length_cons]
    have := parts_length_ge r p
    omega

theorem pieces_length_ge (rules : List Rule) :
    ∀ rem : List Interval, rem.length ≤ (pieces rules rem).length := by
  induction rules with
  | nil => intro rem; exact le_refl _
  | cons r rs ih =>
    intro rem
    simp only [pieces, List.length_append]
    have h1 := ih (rem.flatMap (restPart r))
    have h2 := flatMap_parts_length_ge r rem
    omega

theorem flatMap_pieces_length_ge (rules : List Rule) (input : List Interval) :
    input.length ≤ (input.flatMap (fun iv => pieces rules [iv])).length := by
  induction input with
  | nil => simp
  | cons p ps ih =>
    simp only [List.flatMap_cons, List.length_append, List.length_cons]
    have h := pieces_length_ge rules [p]
    simp only [List.length_singleton] at h
    omega

theorem pushThrough_length_ge (maps : List RuleMap) :
    ∀ ivs : List Interval, ivs.length ≤ (pushThrough maps ivs).length := by
  induction maps with
  | nil => intro ivs; exact le_refl _
  | cons m ms ih =>
    intro ivs
    have hstep : pushThrough (m :: ms) ivs = pushThrough ms (Almanac.applyMapToIntervals m ivs) :=
      rfl
    rw [hstep]
    have h1 := ih (Almanac.applyMapToIntervals m ivs)
    have h2 := flatMap_pieces_length_ge m.rules ivs
    rw [← applyMapToIntervals_eq] at h2
    omega

/-- C31 (no interval is lost): for every rule map and every input list,
`applyMapToIntervals` returns at least as many intervals as it was given; the
same holds for the fold of `applyMapToIntervals` over any list of maps, so a
non-empty interval list is non-empty after every stage of the pipeline. -/
theorem applyMapToIntervals_length_ge (m : RuleMap) (maps : List RuleMap)
    (input : List Interval) :
    input.length ≤ (Almanac.applyMapToIntervals m input).length ∧
      input.length ≤ (pushThrough maps input).length ∧
      (input ≠ [] → Almanac.applyMapToIntervals m input ≠ [] ∧ pushThrough maps input ≠ []) := by
  have h1 : input.length ≤ (Almanac.applyMapToIntervals m input).length := by
    rw [applyMapToIntervals_eq]
    exact flatMap_pieces_length_ge m.rules input
  have h2 := pushThrough_length_ge maps input
  refine ⟨h1, h2, fun hne => ?_⟩
  have hpos : 0 < input.length := List.length_pos.mpr hne
  exact ⟨List.length_pos.mp (by omega), List.length_pos.mp (by omega)⟩

/-- C31, on the map `soilMap` and the non-empty list `[[95,100]]`: the stage
returns the three pieces `[50,51]`, `[95,97]`, `[100,100]`, and neither the
stage nor the fold over the two maps of the two-stage example returns fewer
intervals than the one it was given. -/
theorem applyMapToIntervals_length_ge_witness :
    ([⟨95, 100⟩] : List Interval) ≠ [] ∧
      Almanac.applyMapToIntervals soilMap [⟨95, 100⟩] = [⟨50, 51⟩, ⟨95, 97⟩, ⟨100, 100⟩] ∧
      ([⟨95, 100⟩] : List Interval).length ≤
        (Almanac.applyMapToIntervals soilMap [⟨95, 100⟩]).length ∧
      ([⟨95, 100⟩] : List Interval).length ≤
        (pushThrough twoStageAlmanac.ruleMaps [⟨95, 100⟩]).length ∧
      Almanac.applyMapToIntervals soilMap [⟨95, 100⟩] ≠ [] ∧
      pushThrough twoStageAlmanac.ruleMaps [⟨95, 100⟩] ≠ [] := by
  have h := applyMapToIntervals_length_ge soilMap twoStageAlmanac.ruleMaps [⟨95, 100⟩]
  have hne : ([⟨95, 100⟩] : List Interval) ≠ [] := List.cons_ne_nil _ _
  exact ⟨hne, by decide, h.1, h.2.1, (h.2.2 hne).1, (h.2.2 hne).2⟩

/-- C33 (independent processing, in order): for every rule map `m` and interval
lists `xs`, `ys`, `applyMapToIntervals m (xs ++ ys)` is
`applyMapToIntervals m xs` followed by `applyMapToIntervals m ys`, and the
result for the empty list is empty. -/
theorem applyMapToIntervals_append (m : RuleMap) (xs ys : List Interval) :
    Almanac.applyMapToIntervals m (xs ++ ys) =
        Almanac.applyMapToIntervals m xs ++ Almanac.applyMapToIntervals m ys ∧
      Almanac.applyMapToIntervals m [] = [] := by
  refine ⟨?_, rfl⟩
  rw [applyMapToIntervals_eq, applyMapToIntervals_eq, applyMapToIntervals_eq,
    List.flatMap_append]

/-- C33, on the map `soilMap`: the list `[[95,100], [98,98]]` is processed as
`[[95,100]]` followed by `[[98,98]]`. -/
theorem applyMapToIntervals_append_witness :
    Almanac.applyMapToIntervals soilMap ([⟨95, 100⟩] ++ [⟨98, 98⟩]) =
        [⟨50, 51⟩, ⟨95, 97⟩, ⟨100, 100⟩, ⟨50, 50⟩] ∧
      (Almanac.applyMapToIntervals soilMap ([⟨95, 100⟩] ++ [⟨98, 98⟩]) =
          Almanac.applyMapToIntervals soilMap [⟨95, 100⟩] ++
            Almanac.applyMapToIntervals soilMap [⟨98, 98⟩] ∧
        Almanac.applyMapToIntervals soilMap [] = []) :=
  ⟨by decide, applyMapToIntervals_append soilMap [⟨95, 100⟩] [⟨98, 98⟩]⟩

/-! ## An upper bound on the number of pieces -/

theorem hits_le_one (x : Int) (rem : List Interval) (h : rem.Pairwise apart) :
    hits x rem ≤ 1 := by
  induction rem with
  | nil => simp [hits]
  | cons p ps ih =>
    rw [List.pairwise_cons] at h
    obtain ⟨hp, hps⟩ := h
    have hih := ih hps
    unfold hits at hih ⊢
    rw [List.countP_cons]
    by_cases hx : p.start ≤ x ∧ x ≤ p.end_
    · have hzero : ps.countP (fun p => decide (p.start ≤ x ∧ x ≤ p.end_)) = 0 := by
        rw [List.countP_eq_zero]
        intro q hq
        have hpq := hp q hq
        unfold apart at hpq
        simp only [decide_eq_true_eq]
        omega
      rw [hzero]
      simp [hx]
    · simp only [hx, decide_False, Bool.false_eq_true, if_false, add_zero]
      exact hih

theorem hits_singleton (x : Int) (p : Interval) :
    hits x [p] = if p.start ≤ x ∧ x ≤ p.end_ then 1 else 0 := by
  unfold hits
  by_cases h : p.start ≤ x ∧ x ≤ p.end_
  · rw [if_pos h]
    simp [List.countP_cons, h]
  · rw [if_neg h]
    simp [List.countP_cons, h]

theorem parts_length_le (r : Rule) (p : Interval) :
    (mappedPart r p).length + (restPart r p).length ≤
      1 + hits r.srcStart [p] + hits r.srcEnd [p] := by
  rw [hits_singleton, hits_singleton]
  unfold mappedPart restPart
  by_cases h : max p.start r.srcStart ≤ min p.end_ r.srcEnd
  · rw [if_pos h, if_pos h]
    by_cases h1 : p.start < max p.start r.srcStart
    · have e1 : p.start ≤ r.srcStart ∧ r.srcStart ≤ p.end_ := by omega
      rw [if_pos h1, if_pos e1]
      by_cases h2 : min p.end_ r.srcEnd < p.end_
      · have e2 : p.start ≤ r.srcEnd ∧ r.srcEnd ≤ p.end_ := by omega
        rw [if_pos h2, if_pos e2]
        exact le_refl _
      · rw [if_neg h2]
        simp only [List.length_singleton, List.append_nil]
        omega
    · rw [if_neg h1]
      by_cases h2 : min p.end_ r.srcEnd < p.end_
      · have e2 : p.start ≤ r.srcEnd ∧ r.srcEnd ≤ p.end_ := by omega
        rw [if_pos h2, if_pos e2]
        simp only [List.length_singleton, List.nil_append]
        omega
      · rw [if_neg h2]
        simp only [List.length_singleton, List.nil_append, List.length_nil]
        omega
  · rw [if_neg h, if_neg h]
    simp only [List.length_singleton, List.length_nil]
    omega

theorem hits_cons (x : Int) (p : Interval) (ps : List Interval) :
    hits x (p :: ps) = hits x [p] + hits x ps := by
  unfold hits
  simp only [List.countP_cons, List.countP_nil, zero_add]
  omega

theorem flatMap_parts_length_le (r : Rule) (rem : List Interval) :
    (rem.flatMap (mappedPart r)).length + (rem.flatMap (restPart r)).length ≤
      rem.length + hits r.srcStart rem + hits r.srcEnd rem := by
  induction rem with
  | nil => simp [hits]
  | cons p ps ih =>
    simp only [List.flatMap_cons, List.length_append, List.length_cons]
    rw [hits_cons r.srcStart, hits_cons r.srcEnd]
    have := parts_length_le r p
    omega

theorem restPart_inside (r : Rule) (p a : Interval) (ha : a ∈ restPart r p) :
    p.start ≤ a.start ∧ a.end_ ≤ p.end_ := by
  unfold restPart at ha
  by_cases h : max p.start r.srcStart ≤ min p.end_ r.srcEnd
  · rw [if_pos h] at ha
    rcases List.mem_append.mp ha with hl | hr
    · by_cases h1 : p.start < max p.start r.srcStart
      · rw [if_pos h1] at hl
        rw [List.mem_singleton.mp hl]
        show p.start ≤ p.start ∧ max p.start r.srcStart - 1 ≤ p.end_
        omega
      · rw [if_neg h1] at hl
        cases hl
    · by_cases h2 : min p.end_ r.srcEnd < p.end_
      · rw [if_pos h2] at hr
        rw [List.mem_singleton.mp hr]
        show p.start ≤ min p.end_ r.srcEnd + 1 ∧ p.end_ ≤ p.end_
        omega
      · rw [if_neg h2] at hr
        cases hr
  · rw [if_neg h] at ha
    rw [List.mem_singleton.mp ha]
    exact ⟨le_refl _, le_refl _⟩

theorem restPart_pairwise (r : Rule) (p : Interval) : (restPart r p).Pairwise apart := by
  unfold restPart
  by_cases h : max p.start r.srcStart ≤ min p.end_ r.srcEnd
  · rw [if_pos h]
    by_cases h1 : p.start < max p.start r.srcStart <;>
      by_cases h2 : min p.end_ r.srcEnd < p.end_
    · rw [if_pos h1, if_pos h2]
      simp only [List.singleton_append, List.pairwise_cons, List.mem_singleton, forall_eq,
        List.not_mem_nil, false_implies, implies_true, List.Pairwise.nil, and_true]
      left
      show max p.start r.srcStart - 1 < min p.end_ r.srcEnd + 1
      omega
    · rw [if_pos h1, if_neg h2]
      simp
    · rw [if_neg h1, if_pos h2]
      simp
    · rw [if_neg h1, if_neg h2]
      simp
  · rw [if_neg h]
    simp

theorem flatMap_restPart_pairwise (r : Rule) (rem : List Interval) (h : rem.Pairwise apart) :
    (rem.flatMap (restPart r)).Pairwise apart := by
  induction rem with
  | nil => simp
  | cons p ps ih =>
    rw [List.pairwise_cons] at h
    obtain ⟨hp, hps⟩ := h
    rw [List.flatMap_cons, List.pairwise_append]
    refine ⟨restPart_pairwise r p, ih hps, ?_⟩
    intro a ha b hb
    obtain ⟨q, hq, hbq⟩ := List.mem_flatMap.mp hb
    have h1 := restPart_inside r p a ha
    have h2 := restPart_inside r q b hbq
    have h3 := hp q hq
    unfold apart at h3 ⊢
    omega

theorem pieces_length_le (rules : List Rule) :
    ∀ rem : List Interval, rem.Pairwise apart →
      (pieces rules rem).length ≤ rem.length + 2 * rules.length := by
  induction rules with
  | nil => intro rem _; simp [pieces]
  | cons r rs ih =>
    intro rem h
    simp only [pieces, List.length_append, List.length_cons]
    have h1 := ih (rem.flatMap (restPart r)) (flatMap_restPart_pairwise r rem h)
    have h2 := flatMap_parts_length_le r rem
    have h3 := hits_le_one r.srcStart rem h
    have h4 := hits_le_one r.srcEnd rem h
    omega

theorem flatMap_pieces_length_le (rules : List Rule) (input : List Interval) :
    (input.flatMap (fun iv => pieces rules [iv])).length ≤
      input.length * (2 * rules.length + 1) := by
  induction input with
  | nil => simp
  | cons p ps ih =>
    simp only [List.flatMap_cons, List.length_append, List.length_cons]
    have h := pieces_length_le rules [p] (List.pairwise_singleton _ _)
    simp only [List.length_singleton] at h
    rw [Nat.succ_mul]
    omega

/-- C32 (piece-count bound): for every rule map with `n` rules and every input
list of `k` intervals, `applyMapToIntervals` returns at most `k * (2 * n + 1)`
intervals. -/
theorem applyMapToIntervals_length_le (m : RuleMap) (input : List Interval) :
    (Almanac.applyMapToIntervals m input).length ≤ input.length * (2 * m.rules.length + 1) := by
  rw [applyMapToIntervals_eq]
  exact flatMap_pieces_length_le m.rules input

/-! ## A second call of `getSolutionPart2` -/

theorem minStart_append (xs ys : List Interval) (init : Int) :
    (xs ++ ys).foldl (fun minimum interval => min minimum interval.start) init =
      min (ys.foldl (fun minimum interval => min minimum interval.start) init)
        (xs.foldl (fun minimum interval => min minimum interval.start) init) := by
  rw [List.foldl_append, ← minStart_min_init, min_eq_right (minStart_le_init xs init)]

theorem getSolutionPart2_stored (al : Almanac) (hev : Even al.seeds.length) :
    al.getSolutionPart2 =
      some ((pushThrough al.ruleMaps
                (al.seedIntervals ++ (seedRanges al.seeds).map rangeInterval)).foldl
              (fun minimum interval => min minimum interval.start) LLONG_MAX,
            { al with seedIntervals := (pushThrough al.ruleMaps
                (al.seedIntervals ++ (seedRanges al.seeds).map rangeInterval)) }) := by
  unfold Almanac.getSolutionPart2 Almanac.setSeedIntervals
  rw [setSeedIntervalsLoop_even al.seeds al.seedIntervals hev]
  rfl

/-- C34 (second call): for an almanac with empty `seedIntervals` and a seed list
of even length, let `final1` be the seed intervals pushed through all maps.  The
first call of `getSolutionPart2` returns the minimum start `r1` of `final1` and
leaves `final1` in `seedIntervals`.  A second call on that object appends the
seed intervals to `final1`, pushes the whole list through all maps and stores
the result, which is `final1` pushed through all maps once more followed by
`final1`; it returns `min r1 r'`, with `r'` the minimum start of `final1` pushed
through all maps once more, so the second result is at most the first. -/
theorem getSolutionPart2_second_call (al : Almanac) (hempty : al.seedIntervals = [])
    (hev : Even al.seeds.length) :
    ∃ (r1 r2 : Int) (final1 final2 : List Interval),
      final1 = pushThrough al.ruleMaps ((seedRanges al.seeds).map rangeInterval) ∧
      r1 = final1.foldl (fun minimum interval => min minimum interval.start) LLONG_MAX ∧
      al.getSolutionPart2 = some (r1, { al with seedIntervals := final1 }) ∧
      final2 = pushThrough al.ruleMaps (final1 ++ (seedRanges al.seeds).map rangeInterval) ∧
      final2 = pushThrough al.ruleMaps final1 ++ final1 ∧
      ({ al with seedIntervals := final1 } : Almanac).getSolutionPart2 =
        some (r2, { al with seedIntervals := final2 }) ∧
      r2 = min r1 ((pushThrough al.ruleMaps final1).foldl
              (fun minimum interval => min minimum interval.start) LLONG_MAX) ∧
      r2 ≤ r1 := by
  have hfirst := getSolutionPart2_even al hempty hev
  have hsecond := getSolutionPart2_stored
    { al with seedIntervals :=
        pushThrough al.ruleMaps ((seedRanges al.seeds).map rangeInterval) } hev
  refine ⟨_, _, _, _, rfl, rfl, hfirst, rfl, pushThrough_append _ _ _, hsecond, ?_, ?_⟩
  · show List.foldl _ LLONG_MAX (pushThrough al.ruleMaps (_ ++ _)) = _
    rw [pushThrough_append]
    exact minStart_append _ _ _
  · show List.foldl _ LLONG_MAX (pushThrough al.ruleMaps (_ ++ _)) ≤ _
    rw [pushThrough_append, minStart_append]
    exact min_le_left _ _

/-- C34, on the almanac with the seed range `(10, 1)` and the rule `{5, 10, -5}`:
the first call returns 5 and stores `[5,5]`; the second call works on
`[5,5], [10,10]`, stores `[0,0], [5,5]` and returns `min 5 0 = 0`. -/
theorem getSolutionPart2_second_call_witness :
    rerunAlmanac.seedIntervals = [] ∧ Even rerunAlmanac.seeds.length ∧
      rerunAlmanac.getSolutionPart2 =
        some (5, { rerunAlmanac with seedIntervals := [⟨5, 5⟩] }) ∧
      ({ rerunAlmanac with seedIntervals := [⟨5, 5⟩] } : Almanac).getSolutionPart2 =
        some (0, { rerunAlmanac with seedIntervals := [⟨0, 0⟩, ⟨5, 5⟩] }) ∧
      ∃ (r1 r2 : Int) (final1 final2 : List Interval),
        final1 = pushThrough rerunAlmanac.ruleMaps
          ((seedRanges rerunAlmanac.seeds).map rangeInterval) ∧
        r1 = final1.foldl (fun minimum interval => min minimum interval.start) LLONG_MAX ∧
        rerunAlmanac.getSolutionPart2 = some (r1, { rerunAlmanac with seedIntervals := final1 }) ∧
        final2 = pushThrough rerunAlmanac.ruleMaps
          (final1 ++ (seedRanges rerunAlmanac.seeds).map rangeInterval) ∧
        final2 = pushThrough rerunAlmanac.ruleMaps final1 ++ final1 ∧
        ({ rerunAlmanac with seedIntervals := final1 } : Almanac).getSolutionPart2 =
          some (r2, { rerunAlmanac with seedIntervals := final2 }) ∧
        r2 = min r1 ((pushThrough rerunAlmanac.ruleMaps final1).foldl
                (fun minimum interval => min minimum interval.start) LLONG_MAX) ∧
        r2 ≤ r1 :=
  ⟨rfl, ⟨1, rfl⟩, by decide, by decide,
    getSolutionPart2_second_call rerunAlmanac rfl ⟨1, rfl⟩⟩

end Day5

namespace Day2

theorem gameValid_foldl (sets : List CubeSet) :
    ∀ valid : Bool,
      sets.foldl
          (fun valid set => if set.blue > 14 ∨ set.red > 12 ∨ set.green > 13 then false else valid)
          valid = true ↔
        (valid = true ∧ ∀ s ∈ sets, s.red ≤ 12 ∧ s.green ≤ 13 ∧ s.blue ≤ 14) := by
  induction sets with
  | nil => intro valid; simp
  | cons t ts ih =>
    intro valid
    rw [List.foldl_cons, ih]
    by_cases h : t.blue > 14 ∨ t.red > 12 ∨ t.green > 13
    · rw [if_pos h]
      constructor
      · rintro ⟨hf, _⟩
        cases hf
      · rintro ⟨_, hall⟩
        have := hall t (List.mem_cons_self _ _)
        omega
    · rw [if_neg h]
      constructor
      · rintro ⟨hv, hall⟩
        refine ⟨hv, ?_⟩
        intro s hs
        rcases List.mem_cons.mp hs with hst | hst
        · subst hst
          omega
        · exact hall s hst
      · rintro ⟨hv, hall⟩
        exact ⟨hv, fun s hs => hall s (List.mem_cons_of_mem _ hs)⟩

theorem gameValid_iff (g : Game) : CubeConundrum.gameValid g = true ↔ g.possible := by
  unfold CubeConundrum.gameValid Game.possible
  rw [gameValid_foldl]
  simp

theorem sum_valid_foldl (games : List Game) :
    ∀ init : Int,
      games.foldl
          (fun solution1 g =>
            if CubeConundrum.gameValid g then wrap32 (solution1 + g.id) else solution1)
          (wrap32 init) =
        wrap32 (init + ((games.filter (fun g => decide g.possible)).map Game.id).sum) := by
  induction games with
  | nil => intro init; simp
  | cons g gs ih =>
    intro init
    rw [List.foldl_cons]
    by_cases hg : g.possible
    · have hv : CubeConundrum.gameValid g = true := (gameValid_iff g).mpr hg
      rw [if_pos hv, List.filter_cons, wrap32_add_wrap32, ih]
      simp only [hg, decide_True, if_true, List.map_cons, List.sum_cons]
      rw [add_assoc]
    · have hv : ¬ CubeConundrum.gameValid g = true := fun h => hg ((gameValid_iff g).mp h)
      rw [if_neg hv, List.filter_cons, ih]
      simp only [hg, decide_False, Bool.false_eq_true, if_false]

theorem minCubes_foldl_ge (sets : List CubeSet) :
    ∀ init : CubeSet,
      init.fits (sets.foldl
        (fun cs curr =>
          { red := max cs.red curr.red, green := max cs.green curr.green,
            blue := max cs.blue curr.blue }) init) ∧
      ∀ s ∈ sets, s.fits (sets.foldl
        (fun cs curr =>
          { red := max cs.red curr.red, green := max cs.green curr.green,
            blue := max cs.blue curr.blue }) init) := by
  induction sets with
  | nil =>
    intro init
    exact ⟨⟨le_refl _, le_refl _, le_refl _⟩, fun s hs => by cases hs⟩
  | cons t ts ih =>
    intro init
    rw [List.foldl_cons]
    obtain ⟨hinit, hall⟩ := ih
      { red := max init.red t.red, green := max init.green t.green,
        blue := max init.blue t.blue }
    simp only [CubeSet.fits] at hinit hall ⊢
    refine ⟨⟨?_, ?_, ?_⟩, ?_⟩
    · exact le_trans (le_max_left _ _) hinit.1
    · exact le_trans (le_max_left _ _) hinit.2.1
    · exact le_trans (le_max_left _ _) hinit.2.2
    · intro s hs
      rcases List.mem_cons.mp hs with hst | hst
      · subst hst
        exact ⟨le_trans (le_max_right _ _) hinit.1, le_trans (le_max_right _ _) hinit.2.1,
          le_trans (le_max_right _ _) hinit.2.2⟩
      · exact hall s hst

theorem minCubes_foldl_le (sets : List CubeSet) :
    ∀ init bound : CubeSet, init.fits bound → (∀ s ∈ sets, s.fits bound) →
      (sets.foldl
        (fun cs curr =>
          { red := max cs.red curr.red, green := max cs.green curr.green,
            blue := max cs.blue curr.blue }) init).fits bound := by
  induction sets with
  | nil => intro init bound hinit _; exact hinit
  | cons t ts ih =>
    intro init bound hinit hall
    rw [List.foldl_cons]
    have ht := hall t (List.mem_cons_self _ _)
    apply ih _ bound _ (fun s hs => hall s (List.mem_cons_of_mem _ hs))
    simp only [CubeSet.fits] at hinit ht ⊢
    exact ⟨max_le hinit.1 ht.1, max_le hinit.2.1 ht.2.1, max_le hinit.2.2 ht.2.2⟩

theorem minCubes_foldl_attained (sets : List CubeSet) :
    ∀ init : CubeSet,
      ((sets.foldl
        (fun cs curr =>
          { red := max cs.red curr.red, green := max cs.green curr.green,
            blue := max cs.blue curr.blue }) init).red = init.red ∨
        ∃ s ∈ sets, (sets.foldl
          (fun cs curr =>
            { red := max cs.red curr.red, green := max cs.green curr.green,
              blue := max cs.blue curr.blue }) init).red = s.red) ∧
      ((sets.foldl
        (fun cs curr =>
          { red := max cs.red curr.red, green := max cs.green curr.green,
            blue := max cs.blue curr.blue }) init).green = init.green ∨
        ∃ s ∈ sets, (sets.foldl
          (fun cs curr =>
            { red := max cs.red curr.red, green := max cs.green curr.green,
              blue := max cs.blue curr.blue }) init).green = s.green) ∧
      ((sets.foldl
        (fun cs curr =>
          { red := max cs.red curr.red, green := max cs.green curr.green,
            blue := max cs.blue curr.blue }) init).blue = init.blue ∨
        ∃ s ∈ sets, (sets.foldl
          (fun cs curr =>
            { red := max cs.red curr.red, green := max cs.green curr.green,
              blue := max cs.blue curr.blue }) init).blue = s.blue) := by
  induction sets with
  | nil => intro init; exact ⟨Or.inl rfl, Or.inl rfl, Or.inl rfl⟩
  | cons t ts ih =>
    intro init
    rw [List.foldl_cons]
    obtain ⟨hr, hg, hb⟩ := ih
      { red := max init.red t.red, green := max init.green t.green,
        blue := max init.blue t.blue }
    refine ⟨?_, ?_, ?_⟩
    · rcases hr with h | ⟨s, hs, h⟩
      · rw [h]
        rcases le_total init.red t.red with hle | hle
        · exact Or.inr ⟨t, List.mem_cons_self _ _, max_eq_right hle⟩
        · exact Or.inl (max_eq_left hle)
      · exact Or.inr ⟨s, List.mem_cons_of_mem _ hs, h⟩
    · rcases hg with h | ⟨s, hs, h⟩
      · rw [h]
        rcases le_total init.green t.green with hle | hle
        · exact Or.inr ⟨t, List.mem_cons_self _ _, max_eq_right hle⟩
        · exact Or.inl (max_eq_left hle)
      · exact Or.inr ⟨s, List.mem_cons_of_mem _ hs, h⟩
    · rcases hb with h | ⟨s, hs, h⟩
      · rw [h]
        rcases le_total init.blue t.blue with hle | hle
        · exact Or.inr ⟨t, List.mem_cons_self _ _, max_eq_right hle⟩
        · exact Or.inl (max_eq_left hle)
      · exact Or.inr ⟨s, List.mem_cons_of_mem _ hs, h⟩

/-- C24 (minimum cubes): for every game whose counts are non-negative, every set
of the game fits within the result of `minCubesNeeded`; the result is
`⟨0, 0, 0⟩` for a game with no sets and otherwise each of its colours is the
count of some set of the game (so it is the maximum observed, `0` for a colour
never shown); and the result fits within every bound (a set of cube counts,
which are non-negative) within which all of the game's sets fit. -/
theorem minCubesNeeded_is_maximum (g : Game)
    (hnonneg : ∀ s ∈ g.cubeSets, 0 ≤ s.red ∧ 0 ≤ s.green ∧ 0 ≤ s.blue) :
    (∀ s ∈ g.cubeSets, s.fits (CubeConundrum.minCubesNeeded g)) ∧
      (g.cubeSets = [] → CubeConundrum.minCubesNeeded g = ⟨0, 0, 0⟩) ∧
      (g.cubeSets ≠ [] →
        (∃ s ∈ g.cubeSets, (CubeConundrum.minCubesNeeded g).red = s.red) ∧
        (∃ s ∈ g.cubeSets, (CubeConundrum.minCubesNeeded g).green = s.green) ∧
        (∃ s ∈ g.cubeSets, (CubeConundrum.minCubesNeeded g).blue = s.blue)) ∧
      ∀ bound : CubeSet,
        (0 ≤ bound.red ∧ 0 ≤ bound.green ∧ 0 ≤ bound.blue) →
        (∀ s ∈ g.cubeSets, s.fits bound) →
        (CubeConundrum.minCubesNeeded g).fits bound := by
  obtain ⟨hzero, hfits⟩ := minCubes_foldl_ge g.cubeSets ⟨0, 0, 0⟩
  obtain ⟨hr, hg, hb⟩ := minCubes_foldl_attained g.cubeSets ⟨0, 0, 0⟩
  refine ⟨hfits, ?_, ?_, ?_⟩
  · intro hnil
    unfold CubeConundrum.minCubesNeeded
    rw [hnil]
    rfl
  · intro hne
    obtain ⟨t, ht⟩ := List.exists_mem_of_ne_nil _ hne
    have htn := hnonneg t ht
    have htf := hfits t ht
    simp only [CubeSet.fits] at htf
    refine ⟨?_, ?_, ?_⟩
    · rcases hr with h | h
      · refine ⟨t, ht, ?_⟩
        have h0 : (CubeConundrum.minCubesNeeded g).red = 0 := h
        have : t.red ≤ (CubeConundrum.minCubesNeeded g).red := htf.1
        omega
      · exact h
    · rcases hg with h | h
      · refine ⟨t, ht, ?_⟩
        have h0 : (CubeConundrum.minCubesNeeded g).green = 0 := h
        have : t.green ≤ (CubeConundrum.minCubesNeeded g).green := htf.2.1
        omega
      · exact h
    · rcases hb with h | h
      · refine ⟨t, ht, ?_⟩
        have h0 : (CubeConundrum.minCubesNeeded g).blue = 0 := h
        have : t.blue ≤ (CubeConundrum.minCubesNeeded g).blue := htf.2.2
        omega
      · exact h
  · intro bound hbound hall
    exact minCubes_foldl_le g.cubeSets ⟨0, 0, 0⟩ bound hbound hall

/-- C24, on the puzzle's first example game: the minimum set is 4 red, 2 green,
6 blue, every set of the game fits within it, and it fits within the bound
12 red, 13 green, 14 blue, within which the three sets fit. -/
theorem minCubesNeeded_is_maximum_witness :
    (∀ s ∈ exampleGame.cubeSets, 0 ≤ s.red ∧ 0 ≤ s.green ∧ 0 ≤ s.blue) ∧
      CubeConundrum.minCubesNeeded exampleGame = ⟨4, 2, 6⟩ ∧
      (∀ s ∈ exampleGame.cubeSets, s.fits (CubeConundrum.minCubesNeeded exampleGame)) ∧
      (∀ s ∈ exampleGame.cubeSets, s.fits ⟨12, 13, 14⟩) ∧
      (CubeConundrum.minCubesNeeded exampleGame).fits ⟨12, 13, 14⟩ :=
  ⟨by decide, by decide, (minCubesNeeded_is_maximum exampleGame (by decide)).1,
   by unfold CubeSet.fits; decide,
   (minCubesNeeded_is_maximum exampleGame (by decide)).2.2.2 ⟨12, 13, 14⟩ (by decide)
     (by unfold CubeSet.fits; decide)⟩

/-- C25 fails when the sum of the ids is not an `int` value: two possible games
with the id `2000000000` give the result `-294967296` and not `4000000000`. -/
theorem sum_of_possible_counterexample :
    (∀ g ∈ bigIdConundrum.games, g.possible) ∧
      bigIdConundrum.getSolutionPart1 false = -294967296 ∧
      ((bigIdConundrum.games.filter
          (fun g => decide (∀ s ∈ g.cubeSets, s.red ≤ 12 ∧ s.green ≤ 13 ∧ s.blue ≤ 14))).map
          Game.id).sum = 4000000000 ∧
      bigIdConundrum.getSolutionPart1 false ≠
        ((bigIdConundrum.games.filter
          (fun g => decide (∀ s ∈ g.cubeSets, s.red ≤ 12 ∧ s.green ≤ 13 ∧ s.blue ≤ 14))).map
          Game.id).sum := by
  decide

/-- C25 (amended): for every list of games, `getSolutionPart1` returns the sum
of the ids of exactly those games in which every set has `red ≤ 12`,
`green ≤ 13` and `blue ≤ 14` (a game with no sets counts), reduced to an `int`;
it is that sum itself whenever the sum is an `int` value. -/
theorem getSolutionPart1_sum_of_possible (cc : CubeConundrum) (detail : Bool) :
    cc.getSolutionPart1 detail =
        wrap32 ((cc.games.filter
          (fun g => decide (∀ s ∈ g.cubeSets, s.red ≤ 12 ∧ s.green ≤ 13 ∧ s.blue ≤ 14))).map
          Game.id).sum ∧
      (INT_MIN ≤ ((cc.games.filter
          (fun g => decide (∀ s ∈ g.cubeSets, s.red ≤ 12 ∧ s.green ≤ 13 ∧ s.blue ≤ 14))).map
          Game.id).sum →
        ((cc.games.filter
          (fun g => decide (∀ s ∈ g.cubeSets, s.red ≤ 12 ∧ s.green ≤ 13 ∧ s.blue ≤ 14))).map
          Game.id).sum ≤ INT_MAX →
        cc.getSolutionPart1 detail =
          ((cc.games.filter
            (fun g => decide (∀ s ∈ g.cubeSets, s.red ≤ 12 ∧ s.green ≤ 13 ∧ s.blue ≤ 14))).map
            Game.id).sum) ∧
      decide (∀ s ∈ emptyGame.cubeSets, s.red ≤ 12 ∧ s.green ≤ 13 ∧ s.blue ≤ 14) = true := by
  have h : cc.getSolutionPart1 detail =
      wrap32 ((cc.games.filter
        (fun g => decide (∀ s ∈ g.cubeSets, s.red ≤ 12 ∧ s.green ≤ 13 ∧ s.blue ≤ 14))).map
        Game.id).sum := by
    unfold CubeConundrum.getSolutionPart1
    have h0 : (0 : Int) = wrap32 0 := by decide
    rw [h0, sum_valid_foldl, zero_add]
    rfl
  refine ⟨h, ?_, by decide⟩
  intro h1 h2
  rw [h]
  exact wrap32_of_fits _ h1 h2

/-- C25 (amended), on the three example games: the first and the third are
possible, the sum of their ids is `1 + 1 = 2`. -/
theorem getSolutionPart1_sum_of_possible_witness :
    exampleConundrum.getSolutionPart1 false = 2 ∧
      exampleConundrum.getSolutionPart1 false =
        ((exampleConundrum.games.filter
          (fun g => decide (∀ s ∈ g.cubeSets, s.red ≤ 12 ∧ s.green ≤ 13 ∧ s.blue ≤ 14))).map
          Game.id).sum :=
  ⟨by decide,
   (getSolutionPart1_sum_of_possible exampleConundrum false).2.1 (by decide) (by decide)⟩

end Day2

namespace Day4

theorem count_foldl (wins : List Int) (numbers : List Int) :
    ∀ init : Int,
      numbers.foldl (fun m x => if x ∈ wins then m + 1 else m) init =
        init + (numbers.countP (fun x => decide (x ∈ wins)) : Int) := by
  induction numbers with
  | nil => intro init; simp
  | cons x xs ih =>
    intro init
    rw [List.foldl_cons, ih]
    by_cases hx : x ∈ wins
    · rw [if_pos hx, List.countP_cons_of_pos _ _ (by simpa using hx)]
      push_cast
      omega
    · rw [if_neg hx, List.countP_cons_of_neg _ _ (by simpa using hx)]

theorem shiftLeftOne_small (k : Nat) (h1 : 1 ≤ k) (h2 : k ≤ 31) :
    shiftLeftOne ((k : Int) - 1) = some (2 ^ (k - 1)) := by
  have hnn : ¬ ((k : Int) - 1 < 0) := by omega
  have hle : (k : Int) - 1 ≤ 30 := by omega
  have hto : ((k : Int) - 1).toNat = k - 1 := by omega
  simp only [shiftLeftOne, hnn, if_false, hle, if_true, hto]

/-- C28 fails for a card with 32 matches: `getPoints` returns `1 << 31`, which
on a 32-bit `int` is `-2147483648` and not `2^31`. -/
theorem getPoints_overflow_counterexample :
    manyMatchesScratchcard.cards[0]? = some ⟨1, List.replicate 32 7, [7]⟩ ∧
      Card.matchCount ⟨1, List.replicate 32 7, [7]⟩ = 32 ∧
      manyMatchesScratchcard.getPoints 0 = some (-2147483648) ∧
      manyMatchesScratchcard.getPoints 0 ≠ some (2 ^ (32 - 1)) := by
  decide

/-- C28 (amended): for every card, with `k` the number of entries of its
`numbers` that occur in its `winningNumbers`, `getMatches` returns `k`, and
`getPoints` returns `0` when `k = 0` and `2^(k-1)` when `1 ≤ k ≤ 31` (the
values an `int` can hold). -/
theorem getPoints_power_of_two (sc : Scratchcard) (cardPos : Nat) (c : Card)
    (hc : sc.cards[cardPos]? = some c) :
    sc.getMatches cardPos = some (c.matchCount : Int) ∧
      (c.matchCount = 0 → sc.getPoints cardPos = some 0) ∧
      (1 ≤ c.matchCount → c.matchCount ≤ 31 →
        sc.getPoints cardPos = some (2 ^ (c.matchCount - 1))) := by
  have hcount := count_foldl c.winningNumbers c.numbers 0
  rw [zero_add] at hcount
  refine ⟨?_, ?_, ?_⟩
  · simp only [Scratchcard.getMatches, hc, hcount, Card.matchCount]
  · intro hk
    have hk0 : ((c.numbers.countP (fun x => decide (x ∈ c.winningNumbers)) : Nat) : Int) = 0 := by
      have : c.numbers.countP (fun x => decide (x ∈ c.winningNumbers)) = 0 := hk
      rw [this]
      rfl
    simp only [Scratchcard.getPoints, hc, hcount, hk0, if_true]
  · intro h1 h2
    have hne : ¬ ((c.numbers.countP (fun x => decide (x ∈ c.winningNumbers)) : Nat) : Int) = 0 := by
      have : 1 ≤ c.numbers.countP (fun x => decide (x ∈ c.winningNumbers)) := h1
      omega
    simp only [Scratchcard.getPoints, hc, hcount, hne, if_false]
    exact shiftLeftOne_small c.matchCount h1 h2

/-- C28 (amended), on the first card of the puzzle's example: four matches,
eight points. -/
theorem getPoints_power_of_two_witness :
    exampleScratchcard.getMatches 0 = some 4 ∧ exampleScratchcard.getPoints 0 = some (2 ^ (4 - 1)) :=
  ⟨(getPoints_power_of_two exampleScratchcard 0
      ⟨1, [41, 48, 83, 86, 17], [83, 86, 6, 31, 17, 9, 48, 53]⟩ rfl).1,
   (getPoints_power_of_two exampleScratchcard 0
      ⟨1, [41, 48, 83, 86, 17], [83, 86, 6, 31, 17, 9, 48, 53]⟩ rfl).2.2
      (by decide) (by decide)⟩

/-! ### Copy propagation -/

theorem getMatches_of_lt (sc : Scratchcard) (i : Nat) (hi : i < sc.cards.length) :
    sc.getMatches i = some ((sc.cards[i]).matchCount : Int) := by
  have hc : sc.cards[i]? = some sc.cards[i] := List.getElem?_eq_getElem hi
  have hcount := count_foldl (sc.cards[i]).winningNumbers (sc.cards[i]).numbers 0
  rw [zero_add] at hcount
  simp only [Scratchcard.getMatches, hc, hcount, Card.matchCount]

theorem resize_length (v : List Int) (n : Nat) : (resize v n).length = n := by
  simp only [resize, List.length_append, List.length_take, List.length_replicate]
  omega

theorem initialize_fold (sc : Scratchcard) (st0 : Scratchcard) :
    ∀ k : Nat, k ≤ sc.cards.length →
      ((List.range k).foldl
          (fun st i =>
            match sc.getMatches i with
            | some m => { st with matches_ := st.matches_.set i m, copies := st.copies.set i 1 }
            | none => st) st0).cards = st0.cards ∧
      ((List.range k).foldl
          (fun st i =>
            match sc.getMatches i with
            | some m => { st with matches_ := st.matches_.set i m, copies := st.copies.set i 1 }
            | none => st) st0).puzzleInput = st0.puzzleInput ∧
      (∀ t, ((List.range k).foldl
          (fun st i =>
            match sc.getMatches i with
            | some m => { st with matches_ := st.matches_.set i m, copies := st.copies.set i 1 }
            | none => st) st0).matches_[t]? =
        if t < k ∧ t < st0.matches_.length then sc.getMatches t else st0.matches_[t]?) ∧
      (∀ t, ((List.range k).foldl
          (fun st i =>
            match sc.getMatches i with
            | some m => { st with matches_ := st.matches_.set i m, copies := st.copies.set i 1 }
            | none => st) st0).copies[t]? =
        if t < k ∧ t < st0.copies.length then some 1 else st0.copies[t]?) ∧
      ((List.range k).foldl
          (fun st i =>
            match sc.getMatches i with
            | some m => { st with matches_ := st.matches_.set i m, copies := st.copies.set i 1 }
            | none => st) st0).matches_.length = st0.matches_.length ∧
      ((List.range k).foldl
          (fun st i =>
            match sc.getMatches i with
            | some m => { st with matches_ := st.matches_.set i m, copies := st.copies.set i 1 }
            | none => st) st0).copies.length = st0.copies.length := by
  intro k
  induction k with
  | zero =>
    intro _
    simp
  | succ k ih =>
    intro hk
    obtain ⟨h1, h2, h3, h4, h5, h6⟩ := ih (by omega)
    rw [List.range_succ, List.foldl_append, List.foldl_cons, List.foldl_nil]
    rw [getMatches_of_lt sc k (by omega)]
    simp only [List.length_set]
    refine ⟨h1, h2, ?_, ?_, h5, h6⟩
    · intro t
      rw [List.getElem?_set, h3 t, h5]
      by_cases htk : k = t
      · subst htk
        rw [if_pos rfl]
        by_cases hlen : k < st0.matches_.length
        · rw [if_pos hlen, if_pos ⟨by omega, hlen⟩, getMatches_of_lt sc k (by omega)]
        · rw [if_neg hlen, if_neg (fun h => hlen h.2)]
          exact (List.getElem?_eq_none (by omega)).symm
      · rw [if_neg htk]
        by_cases hlt : t < k ∧ t < st0.matches_.length
        · rw [if_pos hlt, if_pos ⟨by omega, hlt.2⟩]
        · rw [if_neg hlt, if_neg (by omega)]
    · intro t
      rw [List.getElem?_set, h4 t, h6]
      by_cases htk : k = t
      · subst htk
        rw [if_pos rfl]
        by_cases hlen : k < st0.copies.length
        · rw [if_pos hlen, if_pos ⟨by omega, hlen⟩]
        · rw [if_neg hlen, if_neg (fun h => hlen h.2)]
          exact (List.getElem?_eq_none (by omega)).symm
      · rw [if_neg htk]
        by_cases hlt : t < k ∧ t < st0.copies.length
        · rw [if_pos hlt, if_pos ⟨by omega, hlt.2⟩]
        · rw [if_neg hlt, if_neg (by omega)]

theorem initialize_eq (sc : Scratchcard) :
    sc.initializeStructuresForPart2 =
      { sc with matches_ := sc.cards.map (fun c => (c.matchCount : Int)),
                copies := List.replicate sc.cards.length 1 } := by
  obtain ⟨h1, h2, h3, h4, _, _⟩ := initialize_fold sc
    { sc with matches_ := resize sc.matches_ sc.cards.length,
              copies := resize sc.copies sc.cards.length } sc.cards.length (le_refl _)
  have hm : sc.initializeStructuresForPart2.matches_ =
      sc.cards.map (fun c => (c.matchCount : Int)) := by
    apply List.ext_getElem?
    intro t
    have := h3 t
    simp only [resize_length] at this
    rw [Scratchcard.initializeStructuresForPart2, this, List.getElem?_map]
    by_cases ht : t < sc.cards.length
    · rw [if_pos ⟨ht, ht⟩, getMatches_of_lt sc t ht, List.getElem?_eq_getElem ht]
      rfl
    · rw [if_neg (fun h => ht h.1), List.getElem?_eq_none (by rw [resize_length]; omega),
        List.getElem?_eq_none (by omega)]
      rfl
  have hc : sc.initializeStructuresForPart2.copies = List.replicate sc.cards.length 1 := by
    apply List.ext_getElem?
    intro t
    have := h4 t
    simp only [resize_length] at this
    rw [Scratchcard.initializeStructuresForPart2, this, List.getElem?_replicate]
    by_cases ht : t < sc.cards.length
    · rw [if_pos ⟨ht, ht⟩, if_pos ht]
    · rw [if_neg (fun h => ht h.1), if_neg ht,
        List.getElem?_eq_none (by rw [resize_length]; omega)]
  have hcards : sc.initializeStructuresForPart2.cards = sc.cards := h1
  have hinput : sc.initializeStructuresForPart2.puzzleInput = sc.puzzleInput := h2
  cases hinit : sc.initializeStructuresForPart2 with
  | mk input cards ms cp =>
    rw [hinit] at hm hc hcards hinput
    simp only at hm hc hcards hinput
    rw [hm, hc, hcards, hinput]

theorem getD_set (cp : List Int) (i t : Nat) (v : Int) (hi : i < cp.length) :
    (cp.set i v).getD t 0 = if t = i then v else cp.getD t 0 := by
  rw [List.getD_eq_getElem?_getD, List.getD_eq_getElem?_getD, List.getElem?_set]
  by_cases h : i = t
  · subst h
    simp [hi]
  · have h2 : ¬ t = i := fun e => h e.symm
    simp [h, h2]

theorem getElem?_eq_getD (cp : List Int) (t : Nat) (ht : t < cp.length) :
    cp[t]? = some (cp.getD t 0) := by
  rw [List.getD_eq_getElem?_getD, List.getElem?_eq_getElem ht]
  rfl

theorem propagate_inner (size i : Nat) (hi : i < size) (cp : List Int)
    (hlen : cp.length = size) :
    ∀ K : Nat, ∃ cp1 : List Int,
      (List.range K).foldl (fun c j0 => propagateStep size i c (j0 + 1)) (some cp) = some cp1 ∧
      cp1.length = size ∧
      ∀ t, cp1.getD t 0 =
        if i < t ∧ t ≤ i + K ∧ t < size then wrap64 (cp.getD t 0 + cp.getD i 0)
        else cp.getD t 0 := by
  intro K
  induction K with
  | zero =>
    refine ⟨cp, rfl, hlen, ?_⟩
    intro t
    have : ¬ (i < t ∧ t ≤ i + 0 ∧ t < size) := by omega
    rw [if_neg this]
  | succ K ih =>
    obtain ⟨cp1, hfold, hlen1, hval⟩ := ih
    rw [List.range_succ, List.foldl_append, hfold, List.foldl_cons, List.foldl_nil]
    have hci : cp1.getD i 0 = cp.getD i 0 := by
      rw [hval i]
      have : ¬ (i < i ∧ i ≤ i + K ∧ i < size) := by omega
      rw [if_neg this]
    by_cases hin : i + (K + 1) < size
    · have h1 : cp1[i]? = some (cp1.getD i 0) := getElem?_eq_getD cp1 i (by omega)
      have h2 : cp1[i + (K + 1)]? = some (cp1.getD (i + (K + 1)) 0) :=
        getElem?_eq_getD cp1 _ (by omega)
      refine ⟨cp1.set (i + (K + 1)) (wrap64 (cp1.getD (i + (K + 1)) 0 + cp1.getD i 0)),
        ?_, ?_, ?_⟩
      · simp only [propagateStep, hin, if_true, h1, addAt, h2]
      · rw [List.length_set, hlen1]
      · intro t
        rw [getD_set cp1 _ t _ (by omega)]
        by_cases ht : t = i + (K + 1)
        · subst ht
          rw [if_pos rfl, hval, hci]
          have hA : ¬ (i < i + (K + 1) ∧ i + (K + 1) ≤ i + K ∧ i + (K + 1) < size) := by omega
          have hB : i < i + (K + 1) ∧ i + (K + 1) ≤ i + (K + 1) ∧ i + (K + 1) < size := by omega
          rw [if_neg hA, if_pos hB]
        · rw [if_neg ht, hval t]
          by_cases hc : i < t ∧ t ≤ i + K ∧ t < size
          · rw [if_pos hc, if_pos (by omega)]
          · rw [if_neg hc, if_neg (by omega)]
    · refine ⟨cp1, ?_, hlen1, ?_⟩
      · simp only [propagateStep, hin, if_false]
      · intro t
        rw [hval t]
        by_cases hc : i < t ∧ t ≤ i + K ∧ t < size
        · rw [if_pos hc, if_pos (by omega)]
        · rw [if_neg hc, if_neg (by omega)]

theorem propagate_outer (size : Nat) (ms : List Int) (hms : ms.length = size) :
    ∀ I : Nat, I ≤ size → ∃ cp : List Int,
      (List.range I).foldl (propagateCard size ms) (some (List.replicate size 1)) = some cp ∧
      cp.length = size ∧
      ∀ t, t < size → cp.getD t 0 =
        wrap64 (1 + ∑ j ∈ Finset.range t,
          (if j < I ∧ (t : Int) - j ≤ ms.getD j 0 then cp.getD j 0 else 0)) := by
  intro I
  induction I with
  | zero =>
    intro _
    refine ⟨List.replicate size 1, rfl, List.length_replicate _ _, ?_⟩
    intro t ht
    have h1 : (List.replicate size (1 : Int)).getD t 0 = 1 := by
      rw [List.getD_eq_getElem?_getD, List.getElem?_replicate, if_pos ht]
      rfl
    rw [h1]
    simp
    decide
  | succ I ih =>
    intro hI
    obtain ⟨cp, hfold, hlen, hval⟩ := ih (by omega)
    have hk : ms[I]? = some (ms.getD I 0) := getElem?_eq_getD ms I (by omega)
    obtain ⟨cp1, hfold1, hlen1, hval1⟩ :=
      propagate_inner size I (by omega) cp hlen (ms.getD I 0).toNat
    refine ⟨cp1, ?_, hlen1, ?_⟩
    · rw [List.range_succ, List.foldl_append, hfold, List.foldl_cons, List.foldl_nil]
      simp only [propagateCard, hk]
      exact hfold1
    · intro t ht
      have hsame : ∀ j, j ≤ I → cp1.getD j 0 = cp.getD j 0 := by
        intro j hj
        rw [hval1 j]
        have : ¬ (I < j ∧ j ≤ I + (ms.getD I 0).toNat ∧ j < size) := by omega
        rw [if_neg this]
      have hsplit : ∀ j ∈ Finset.range t,
          (if j < I + 1 ∧ (t : Int) - j ≤ ms.getD j 0 then cp1.getD j 0 else 0) =
            (if j < I ∧ (t : Int) - j ≤ ms.getD j 0 then cp.getD j 0 else 0) +
            (if j = I then (if (t : Int) - I ≤ ms.getD I 0 then cp.getD I 0 else 0) else 0) := by
        intro j _
        by_cases hjI : j = I
        · subst hjI
          rw [if_pos rfl, hsame j (le_refl _)]
          have hnot : ¬ (j < j ∧ (t : Int) - j ≤ ms.getD j 0) := by omega
          rw [if_neg hnot, zero_add]
          by_cases hc : (t : Int) - j ≤ ms.getD j 0
          · rw [if_pos hc, if_pos ⟨by omega, hc⟩]
          · rw [if_neg hc, if_neg (fun h => hc h.2)]
        · rw [if_neg hjI, add_zero]
          by_cases hc : j < I ∧ (t : Int) - j ≤ ms.getD j 0
          · rw [if_pos hc, if_pos ⟨by omega, hc.2⟩, hsame j (by omega)]
          · rw [if_neg hc, if_neg (by omega)]
      rw [Finset.sum_congr rfl hsplit, Finset.sum_add_distrib, Finset.sum_ite_eq', hval1 t,
        hval t ht]
      by_cases hIt : I < t
      · rw [if_pos (Finset.mem_range.mpr hIt)]
        by_cases hc : (t : Int) - I ≤ ms.getD I 0
        · rw [if_pos hc, if_pos (by omega), wrap64_add_wrap64, add_assoc]
        · rw [if_neg hc, if_neg (by omega), add_zero]
      · rw [if_neg (fun h => hIt (Finset.mem_range.mp h)), if_neg (by omega), add_zero]

theorem total_foldl (copies : List Int) :
    ∀ init : Int,
      copies.foldl (fun total c => wrap64 (total + c)) (wrap64 init) =
        wrap64 (init + copies.sum) := by
  induction copies with
  | nil => intro init; simp
  | cons c cs ih =>
    intro init
    rw [List.foldl_cons, wrap64_add_wrap64, ih, List.sum_cons, add_assoc]

set_option maxRecDepth 100000 in
/-- C29 fails when a count is not a `long long` value.  With 91 cards that each
win a copy of the next two cards, the claimed count of the last card is
`1 + copies[88] + copies[89] = 12200160415121876737`, more than `LLONG_MAX`, and
the code stores `-6246583658587674879`.  With the first 89 of these cards every
count is a `long long` value, their sum is `12200160415121876646`, and
`getSolutionPart2` returns `-6246583658587674970`. -/
theorem copy_overflow_counterexample :
    overflowScratchcard.getSolutionPart2.map (fun r => r.2.copies.getD 90 0) =
        some (-6246583658587674879) ∧
      overflowScratchcard.getSolutionPart2.map
          (fun r => 1 + ∑ j ∈ (Finset.range 90).filter
            (fun (j : Nat) => ((90 : Nat) : Int) - j ≤ r.2.matches_.getD j 0),
            r.2.copies.getD j 0) =
        some 12200160415121876737 ∧
      totalOverflowScratchcard.getSolutionPart2.map (fun r => (r.1, r.2.copies.sum)) =
        some (-6246583658587674970, 12200160415121876646) := by
  decide

/-- C29 (amended): for every list of `n` cards (whatever `matches` and `copies`
held before), `initializeStructuresForPart2` followed by `processMatches`
returns an object with `matches[j]` the number of matches of card `j`, `n`
entries in `copies`, and for every `i < n` `copies[i]` is `1 +` the sum of
`copies[j]` over the `j < i` with `i - j ≤ matches[j]`, reduced to a
`long long`, and is that sum itself when the sum is a `long long` value; and
`getSolutionPart2` returns, together with that object, the sum of all
`copies[i]` reduced to a `long long`, which is the sum itself when the sum is a
`long long` value. -/
theorem copy_propagation (sc : Scratchcard) :
    ∃ sc2 : Scratchcard,
      sc.initializeStructuresForPart2.processMatches = some sc2 ∧
      sc2.cards = sc.cards ∧
      sc2.matches_ = sc.cards.map (fun c => (c.matchCount : Int)) ∧
      sc2.copies.length = sc.cards.length ∧
      (∀ i, i < sc.cards.length →
        sc2.copies.getD i 0 =
          wrap64 (1 + ∑ j ∈ (Finset.range i).filter
            (fun j => (i : Int) - j ≤ sc2.matches_.getD j 0), sc2.copies.getD j 0) ∧
        (Day5.fits64 (1 + ∑ j ∈ (Finset.range i).filter
            (fun j => (i : Int) - j ≤ sc2.matches_.getD j 0), sc2.copies.getD j 0) →
          sc2.copies.getD i 0 =
            1 + ∑ j ∈ (Finset.range i).filter
              (fun j => (i : Int) - j ≤ sc2.matches_.getD j 0), sc2.copies.getD j 0)) ∧
      sc.getSolutionPart2 = some (wrap64 sc2.copies.sum, sc2) ∧
      (Day5.fits64 sc2.copies.sum → sc.getSolutionPart2 = some (sc2.copies.sum, sc2)) := by
  obtain ⟨cp, hfold, hlen, hval⟩ :=
    propagate_outer sc.cards.length (sc.cards.map (fun c => (c.matchCount : Int)))
      (List.length_map _ _) sc.cards.length (le_refl _)
  have hproc : sc.initializeStructuresForPart2.processMatches =
      some { sc with matches_ := sc.cards.map (fun c => (c.matchCount : Int)), copies := cp } := by
    rw [initialize_eq]
    simp only [Scratchcard.processMatches, hfold, Option.map_some']
  have hcopies : ∀ i, i < sc.cards.length →
      cp.getD i 0 =
        wrap64 (1 + ∑ j ∈ (Finset.range i).filter
          (fun j => (i : Int) - j ≤ (sc.cards.map (fun c => (c.matchCount : Int))).getD j 0),
          cp.getD j 0) := by
    intro i hi
    rw [Finset.sum_filter, hval i hi]
    congr 2
    apply Finset.sum_congr rfl
    intro j hj
    have hji : j < i := Finset.mem_range.mp hj
    by_cases hc : (i : Int) - j ≤ (sc.cards.map (fun c => (c.matchCount : Int))).getD j 0
    · rw [if_pos ⟨by omega, hc⟩, if_pos hc]
    · rw [if_neg (fun h => hc h.2), if_neg hc]
  have h0 : (0 : Int) = wrap64 0 := by decide
  have htotal : sc.getSolutionPart2 =
      some (wrap64 cp.sum,
        { sc with matches_ := sc.cards.map (fun c => (c.matchCount : Int)), copies := cp }) := by
    simp only [Scratchcard.getSolutionPart2, hproc]
    rw [h0, total_foldl, zero_add]
  refine ⟨_, hproc, rfl, rfl, hlen, ?_, htotal, ?_⟩
  · intro i hi
    refine ⟨hcopies i hi, fun hfit => ?_⟩
    have h := hcopies i hi
    rw [Day5.wrap64_fits _ hfit] at h
    exact h
  · intro hfit
    rw [htotal, Day5.wrap64_fits _ hfit]

set_option maxRecDepth 100000 in
/-- C29 (amended), on the six cards of the puzzle's example: the match counts are
`4, 2, 2, 1, 0, 0`, the copy counts `1, 2, 4, 8, 14, 1`, and the total is 30. -/
theorem copy_propagation_witness :
    (∃ sc2 : Scratchcard,
      exampleScratchcard.initializeStructuresForPart2.processMatches = some sc2 ∧
      sc2.cards = exampleScratchcard.cards ∧
      sc2.matches_ = exampleScratchcard.cards.map (fun c => (c.matchCount : Int)) ∧
      sc2.copies.length = exampleScratchcard.cards.length ∧
      (∀ i, i < exampleScratchcard.cards.length →
        sc2.copies.getD i 0 =
          wrap64 (1 + ∑ j ∈ (Finset.range i).filter
            (fun j => (i : Int) - j ≤ sc2.matches_.getD j 0), sc2.copies.getD j 0) ∧
        (Day5.fits64 (1 + ∑ j ∈ (Finset.range i).filter
            (fun j => (i : Int) - j ≤ sc2.matches_.getD j 0), sc2.copies.getD j 0) →
          sc2.copies.getD i 0 =
            1 + ∑ j ∈ (Finset.range i).filter
              (fun j => (i : Int) - j ≤ sc2.matches_.getD j 0), sc2.copies.getD j 0)) ∧
      exampleScratchcard.getSolutionPart2 = some (wrap64 sc2.copies.sum, sc2) ∧
      (Day5.fits64 sc2.copies.sum →
        exampleScratchcard.getSolutionPart2 = some (sc2.copies.sum, sc2))) ∧
      exampleScratchcard.getSolutionPart2.map (fun r => (r.1, r.2.matches_, r.2.copies)) =
        some (30, [4, 2, 2, 1, 0, 0], [1, 2, 4, 8, 14, 1]) :=
  ⟨copy_propagation exampleScratchcard, by decide⟩

end Day4

namespace Day1

theorem digitOf_nonneg (c : Char) (h : isdigit c = true) : 0 ≤ digitOf c := by
  simp only [isdigit, Bool.and_eq_true, decide_eq_true_eq] at h
  unfold digitOf
  omega

theorem charAt_of_getElem? (str : List Char) (i : Nat) (c : Char) (h : str[i]? = some c) :
    charAt str i = c := by
  unfold charAt
  rw [List.getD_eq_getElem?_getD, h]
  rfl

theorem getElem?_charAt (str : List Char) (i : Nat) (h : i < str.length) :
    str[i]? = some (charAt str i) := by
  unfold charAt
  rw [List.getD_eq_getElem?_getD, List.getElem?_eq_getElem h]
  rfl

theorem scanStep_first (str : List Char) (st : DigitScan) (i : Nat) :
    ((scanStep str st i).first, (scanStep str st i).values.1, (scanStep str st i).indexes.1) =
      firstStep str (st.first, st.values.1, st.indexes.1) i := by
  unfold scanStep firstStep
  by_cases h1 : st.first < 0 <;> by_cases h2 : isdigit (charAt str i) = true <;>
    by_cases h3 : st.last < 0 <;>
    by_cases h4 : isdigit (charAt str (str.length - 1 - i)) = true <;>
    simp [h1, h2, h3, h4]

theorem scanStep_last (str : List Char) (st : DigitScan) (i : Nat) :
    ((scanStep str st i).last, (scanStep str st i).values.2, (scanStep str st i).indexes.2) =
      lastStep str (st.last, st.values.2, st.indexes.2) i := by
  unfold scanStep lastStep
  by_cases h1 : st.first < 0 <;> by_cases h2 : isdigit (charAt str i) = true <;>
    by_cases h3 : st.last < 0 <;>
    by_cases h4 : isdigit (charAt str (str.length - 1 - i)) = true <;>
    simp [h1, h2, h3, h4]

theorem scan_foldl (str : List Char) (is : List Nat) :
    ∀ st : DigitScan,
      (((is.foldl (scanStep str) st).first, (is.foldl (scanStep str) st).values.1,
          (is.foldl (scanStep str) st).indexes.1) =
        is.foldl (firstStep str) (st.first, st.values.1, st.indexes.1)) ∧
      (((is.foldl (scanStep str) st).last, (is.foldl (scanStep str) st).values.2,
          (is.foldl (scanStep str) st).indexes.2) =
        is.foldl (lastStep str) (st.last, st.values.2, st.indexes.2)) := by
  induction is with
  | nil => intro st; exact ⟨rfl, rfl⟩
  | cons i is ih =>
    intro st
    rw [List.foldl_cons, List.foldl_cons, List.foldl_cons]
    obtain ⟨h1, h2⟩ := ih (scanStep str st i)
    rw [h1, h2, scanStep_first, scanStep_last]
    exact ⟨rfl, rfl⟩

theorem first_invariant (str : List Char) :
    ∀ n : Nat,
      ((List.range n).foldl (firstStep str) (-1, -1, -1) = (-1, -1, -1) ∧
          ∀ k, k < n → isdigit (charAt str k) = false) ∨
        ∃ i, i < n ∧ isdigit (charAt str i) = true ∧
          (∀ k, k < i → isdigit (charAt str k) = false) ∧
          (List.range n).foldl (firstStep str) (-1, -1, -1) =
            (digitOf (charAt str i), digitOf (charAt str i), (i : Int)) := by
  intro n
  induction n with
  | zero =>
    left
    exact ⟨rfl, fun k hk => by omega⟩
  | succ n ih =>
    rw [List.range_succ, List.foldl_append, List.foldl_cons, List.foldl_nil]
    rcases ih with ⟨hval, hnone⟩ | ⟨i, hin, hdi, hbefore, hval⟩
    · rw [hval]
      by_cases hd : isdigit (charAt str n) = true
      · right
        refine ⟨n, by omega, hd, hnone, ?_⟩
        simp [firstStep, hd]
      · left
        have hd0 : isdigit (charAt str n) = false := by simpa using hd
        refine ⟨by simp [firstStep, hd0], ?_⟩
        intro k hk
        by_cases hkn : k = n
        · rw [hkn]; exact hd0
        · exact hnone k (by omega)
    · right
      rw [hval]
      have hnn : ¬ digitOf (charAt str i) < 0 := by
        have := digitOf_nonneg _ hdi
        omega
      exact ⟨i, by omega, hdi, hbefore, by simp [firstStep, hnn]⟩

theorem last_invariant (str : List Char) :
    ∀ n : Nat, n ≤ str.length →
      ((List.range n).foldl (lastStep str) (-1, -1, -1) = (-1, -1, -1) ∧
          ∀ k, str.length - n ≤ k → k < str.length → isdigit (charAt str k) = false) ∨
        ∃ j, j < str.length ∧ str.length - n ≤ j ∧ isdigit (charAt str j) = true ∧
          (∀ k, j < k → k < str.length → isdigit (charAt str k) = false) ∧
          (List.range n).foldl (lastStep str) (-1, -1, -1) =
            (digitOf (charAt str j), digitOf (charAt str j), (j : Int)) := by
  intro n
  induction n with
  | zero =>
    intro _
    left
    exact ⟨rfl, fun k hk1 hk2 => by omega⟩
  | succ n ih =>
    intro hn
    rw [List.range_succ, List.foldl_append, List.foldl_cons, List.foldl_nil]
    rcases ih (by omega) with ⟨hval, hnone⟩ | ⟨j, hjlen, hjn, hdj, hafter, hval⟩
    · rw [hval]
      by_cases hd : isdigit (charAt str (str.length - 1 - n)) = true
      · right
        refine ⟨str.length - 1 - n, by omega, by omega, hd, ?_, ?_⟩
        · intro k hk hklen
          exact hnone k (by omega) hklen
        · simp [lastStep, hd]
      · left
        have hd0 : isdigit (charAt str (str.length - 1 - n)) = false := by simpa using hd
        refine ⟨by simp [lastStep, hd0], ?_⟩
        intro k hk hklen
        by_cases hkn : k = str.length - 1 - n
        · rw [hkn]; exact hd0
        · exact hnone k (by omega) hklen
    · right
      rw [hval]
      have hnn : ¬ digitOf (charAt str j) < 0 := by
        have := digitOf_nonneg _ hdj
        omega
      exact ⟨j, hjlen, by omega, hdj, hafter, by simp [lastStep, hnn]⟩

/-- C23 (first and last numeric digit): for every line containing a character
`'0'`-`'9'`, with `i` the position of its first digit and `j` the position of
its last digit, `computeCalibrationValue1` returns `10 * f + l` for the values
`f` and `l` of these two digits and appends `(f, l)` to `digitValues` and
`(i, j)` to `digitIndexes`. -/
theorem computeCalibrationValue1_first_last (w : WeatherCalibration1) (str : String)
    (detail : Bool) (hdigit : ∃ c ∈ str.data, isdigit c = true) :
    ∃ (i j : Nat) (ci cj : Char),
      str.data[i]? = some ci ∧ isdigit ci = true ∧
      (∀ k c, k < i → str.data[k]? = some c → isdigit c = false) ∧
      str.data[j]? = some cj ∧ isdigit cj = true ∧
      (∀ k c, j < k → str.data[k]? = some c → isdigit c = false) ∧
      w.computeCalibrationValue1 str detail =
        (10 * digitOf ci + digitOf cj,
         { w with digitValues := w.digitValues ++ [(digitOf ci, digitOf cj)],
                  digitIndexes := w.digitIndexes ++ [((i : Int), (j : Int))] }) := by
  obtain ⟨c0, hc0, hd0⟩ := hdigit
  obtain ⟨k0, hk0len, hk0⟩ := List.getElem_of_mem hc0
  have hk0c : charAt str.data k0 = c0 :=
    charAt_of_getElem? str.data k0 c0 (by rw [List.getElem?_eq_getElem hk0len, hk0])
  obtain ⟨hproj1, hproj2⟩ := scan_foldl str.data (List.range str.data.length)
    ⟨-1, -1, (-1, -1), (-1, -1)⟩
  have hfirst := first_invariant str.data str.data.length
  have hlast := last_invariant str.data str.data.length (le_refl _)
  rcases hfirst with ⟨_, hnone⟩ | ⟨i, hilen, hdi, hbefore, hval1⟩
  · have := hnone k0 hk0len
    rw [hk0c, hd0] at this
    cases this
  rcases hlast with ⟨_, hnone⟩ | ⟨j, hjlen, _, hdj, hafter, hval2⟩
  · have := hnone k0 (by omega) hk0len
    rw [hk0c, hd0] at this
    cases this
  refine ⟨i, j, charAt str.data i, charAt str.data j, getElem?_charAt _ i hilen, hdi, ?_,
    getElem?_charAt _ j hjlen, hdj, ?_, ?_⟩
  · intro k c hk hc
    rw [← charAt_of_getElem? str.data k c hc]
    exact hbefore k hk
  · intro k c hk hc
    have hklen : k < str.data.length := by
      by_contra hcon
      rw [List.getElem?_eq_none (by omega)] at hc
      cases hc
    rw [← charAt_of_getElem? str.data k c hc]
    exact hafter k hk hklen
  · rw [hval1] at hproj1
    rw [hval2] at hproj2
    simp only [Prod.mk.injEq] at hproj1 hproj2
    obtain ⟨_, hv1, hi1⟩ := hproj1
    obtain ⟨_, hv2, hi2⟩ := hproj2
    have hvalues : ((List.range str.data.length).foldl (scanStep str.data)
        ⟨-1, -1, (-1, -1), (-1, -1)⟩).values =
        (digitOf (charAt str.data i), digitOf (charAt str.data j)) :=
      Prod.ext hv1 hv2
    have hindexes : ((List.range str.data.length).foldl (scanStep str.data)
        ⟨-1, -1, (-1, -1), (-1, -1)⟩).indexes = ((i : Int), (j : Int)) :=
      Prod.ext hi1 hi2
    simp only [WeatherCalibration1.computeCalibrationValue1, hvalues, hindexes]
    rw [mul_comm]

set_option maxRecDepth 100000 in
/-- C23, on the line `treb7uchet`: the only digit `7` at position 4 is both the
first and the last one, the value is `77`. -/
theorem computeCalibrationValue1_first_last_witness :
    ((WeatherCalibration1.new "input.txt").computeCalibrationValue1 "treb7uchet" false) =
        (77, { puzzleInput := "input.txt", calibrationLines := [],
               digitValues := [(7, 7)], digitIndexes := [(4, 4)] }) ∧
      ∃ (i j : Nat) (ci cj : Char),
        "treb7uchet".data[i]? = some ci ∧ isdigit ci = true ∧
        (∀ k c, k < i → "treb7uchet".data[k]? = some c → isdigit c = false) ∧
        "treb7uchet".data[j]? = some cj ∧ isdigit cj = true ∧
        (∀ k c, j < k → "treb7uchet".data[k]? = some c → isdigit c = false) ∧
        (WeatherCalibration1.new "input.txt").computeCalibrationValue1 "treb7uchet" false =
          (10 * digitOf ci + digitOf cj,
           { WeatherCalibration1.new "input.txt" with
               digitValues := (WeatherCalibration1.new "input.txt").digitValues ++
                 [(digitOf ci, digitOf cj)],
               digitIndexes := (WeatherCalibration1.new "input.txt").digitIndexes ++
                 [((i : Int), (j : Int))] }) :=
  ⟨by decide,
   computeCalibrationValue1_first_last (WeatherCalibration1.new "input.txt") "treb7uchet" false
     ⟨'7', by decide, by decide⟩⟩

set_option maxRecDepth 100000 in
/-- C22 on the stored line `eightwothree`, which has no numeric digit (Part 1
stored `-1` for its values and indexes): `computeCalibrationValue2` returns
`-7`, the first spelled digit `eight` at position 0 never replacing the `-1`,
while the first and last occurrences are `eight` and `three` (value `83`). On
the line `two1nine` it returns `29`. -/
theorem computeCalibrationValue2_spelled_only :
    exampleCalibration.calibrationLines = ["two1nine", "eightwothree"] ∧
      exampleCalibration.digitValues = [(1, 1), (-1, -1)] ∧
      exampleCalibration.digitIndexes = [(3, 3), (-1, -1)] ∧
      exampleCalibration.computeCalibrationValue2 0 false = some 29 ∧
      exampleCalibration.computeCalibrationValue2 1 false = some (-7) := by
  decide

end Day1

namespace Day3

theorem touch_test_iff (s : Symbol) (num : Number) (h : num.colStart ≤ num.colEnd) :
    (num.row ≥ s.row - 1 ∧ num.row ≤ s.row + 1 ∧ num.colEnd ≥ s.col - 1 ∧
        num.colStart ≤ s.col + 1) ↔ touches s num := by
  unfold touches
  constructor
  · rintro ⟨h1, h2, h3, h4⟩
    refine ⟨by omega, h2, ?_⟩
    omega
  · rintro ⟨h1, h2, h3⟩
    refine ⟨by omega, h2, ?_, ?_⟩ <;> omega

theorem ratio_foldl (s : Symbol) (numbers : List Number)
    (hspan : ∀ num ∈ numbers, num.colStart ≤ num.colEnd) :
    ∀ (ratio count : Int),
      numbers.foldl
          (fun (st : Int × Int) num =>
            if num.row ≥ s.row - 1 ∧ num.row ≤ s.row + 1 ∧ num.colEnd ≥ s.col - 1 ∧
                num.colStart ≤ s.col + 1 then
              (wrap32 (st.1 * num.value), st.2 + 1)
            else st)
          (wrap32 ratio, count) =
        (wrap32 (ratio * ((touching numbers s).map Number.value).prod),
          count + ((touching numbers s).length : Int)) := by
  induction numbers with
  | nil => intro ratio count; simp [touching]
  | cons num rest ih =>
    intro ratio count
    have hih := ih (fun n hn => hspan n (List.mem_cons_of_mem _ hn))
    rw [List.foldl_cons]
    have hiff := touch_test_iff s num (hspan num (List.mem_cons_self _ _))
    by_cases ht : touches s num
    · rw [if_pos (hiff.mpr ht)]
      have hf : touching (num :: rest) s = num :: touching rest s := by
        simp [touching, List.filter_cons, ht]
      rw [hf]
      simp only [List.map_cons, List.prod_cons, List.length_cons]
      rw [wrap32_mul_wrap32, hih]
      refine Prod.ext ?_ ?_
      · simp only [mul_assoc]
      · simp only
        push_cast
        omega
    · rw [if_neg (fun h => ht (hiff.mp h))]
      have hf : touching (num :: rest) s = touching rest s := by
        simp [touching, List.filter_cons, ht]
      rw [hf, hih]

theorem isTouchingTwoNumbers_eq (g : GearRatios) (i : Nat) (s : Symbol) (detail : Bool)
    (hs : g.symbols[i]? = some s) (hspan : ∀ num ∈ g.numbers, num.colStart ≤ num.colEnd) :
    g.isTouchingTwoNumbers i detail =
      some (if (touching g.numbers s).length = 2 then
        wrap32 ((touching g.numbers s).map Number.value).prod else -1) := by
  have h1 : (1 : Int) = wrap32 1 := by decide
  have hfold := ratio_foldl s g.numbers hspan 1 0
  rw [← h1] at hfold
  simp only [GearRatios.isTouchingTwoNumbers, hs, hfold, one_mul, zero_add]
  by_cases h2 : (touching g.numbers s).length = 2
  · have h2i : ((touching g.numbers s).length : Int) = 2 := by rw [h2]; rfl
    rw [if_pos h2i, if_pos h2]
  · have h2i : ¬ ((touching g.numbers s).length : Int) = 2 := by omega
    rw [if_neg h2i, if_neg h2]

theorem prod_values_nonneg (numbers : List Number) (h : ∀ num ∈ numbers, 0 ≤ num.value) :
    0 ≤ (numbers.map Number.value).prod := by
  induction numbers with
  | nil => simp
  | cons num rest ih =>
    rw [List.map_cons, List.prod_cons]
    exact mul_nonneg (h num (List.mem_cons_self _ _))
      (ih (fun n hn => h n (List.mem_cons_of_mem _ hn)))

theorem gear_sum_foldl (g : GearRatios)
    (hspan : ∀ num ∈ g.numbers, num.colStart ≤ num.colEnd)
    (hnonneg : ∀ num ∈ g.numbers, 0 ≤ num.value)
    (hprod : ∀ s ∈ g.symbols, s.type = '*' → (touching g.numbers s).length = 2 →
      ((touching g.numbers s).map Number.value).prod ≤ INT_MAX) :
    ∀ k : Nat, k ≤ g.symbols.length →
      (List.range k).foldl
          (fun sum i =>
            match g.symbols[i]? with
            | none => sum
            | some s =>
              if s.type = '*' then
                match g.isTouchingTwoNumbers i false with
                | some ratio => if ratio > 0 then wrap32 (sum + ratio) else sum
                | none => sum
              else sum)
          0 =
        wrap32 (((g.symbols.take k).filter
            (fun s => decide (s.type = '*' ∧ (touching g.numbers s).length = 2))).map
          (fun s => ((touching g.numbers s).map Number.value).prod)).sum := by
  intro k
  induction k with
  | zero => intro _; simp; decide
  | succ k ih =>
    intro hk
    have hlt : k < g.symbols.length := by omega
    have hs : g.symbols[k]? = some g.symbols[k] := List.getElem?_eq_getElem hlt
    rw [List.range_succ, List.foldl_append, ih (by omega), List.foldl_cons, List.foldl_nil]
    rw [List.take_succ, hs]
    simp only [Option.toList_some, List.filter_append, List.map_append, List.sum_append]
    have hnn : 0 ≤ ((touching g.numbers g.symbols[k]).map Number.value).prod := by
      apply prod_values_nonneg
      intro num hnum
      exact hnonneg num (List.mem_of_mem_filter hnum)
    by_cases hstar : (g.symbols[k]).type = '*'
    · rw [if_pos hstar, isTouchingTwoNumbers_eq g k g.symbols[k] false hs hspan]
      by_cases h2 : (touching g.numbers g.symbols[k]).length = 2
      · rw [if_pos h2]
        have hfit := hprod g.symbols[k] (List.getElem_mem hlt) hstar h2
        have hw : wrap32 ((touching g.numbers g.symbols[k]).map Number.value).prod =
            ((touching g.numbers g.symbols[k]).map Number.value).prod :=
          wrap32_of_fits _ (by omega) (by unfold INT_MAX at hfit; exact hfit)
        rw [hw]
        have hf : [g.symbols[k]].filter
            (fun s => decide (s.type = '*' ∧ (touching g.numbers s).length = 2)) =
            [g.symbols[k]] := by
          simp [List.filter_cons, hstar, h2]
        rw [hf]
        simp only [List.map_cons, List.map_nil, List.sum_cons, List.sum_nil, add_zero]
        by_cases hpos : ((touching g.numbers g.symbols[k]).map Number.value).prod > 0
        · rw [if_pos hpos, wrap32_add_wrap32]
        · rw [if_neg hpos]
          have hz : ((touching g.numbers g.symbols[k]).map Number.value).prod = 0 := by omega
          rw [hz, add_zero]
      · rw [if_neg h2]
        have hf : [g.symbols[k]].filter
            (fun s => decide (s.type = '*' ∧ (touching g.numbers s).length = 2)) = [] := by
          simp [List.filter_cons, h2]
        rw [hf]
        have hneg : ¬ ((-1 : Int) > 0) := by decide
        simp only [hneg, if_false, List.map_nil, List.sum_nil, add_zero]
    · rw [if_neg hstar]
      have hf : [g.symbols[k]].filter
          (fun s => decide (s.type = '*' ∧ (touching g.numbers s).length = 2)) = [] := by
        simp [List.filter_cons, hstar]
      rw [hf]
      simp only [List.map_nil, List.sum_nil, add_zero]

/-- C26 fails when a product is not an `int` value: on the row `99999*99999`
the two numbers touch the `*`, their product is `9999800001`, and
`getSolutionPart2` returns `1409865409`; on the row `50000*50000` the product
`2500000000` wraps to a negative `int`, which the test `ratio > 0` drops, and
`getSolutionPart2` returns `0`. -/
theorem gear_ratio_counterexample :
    (bigGearSchematic.parseSchematicLine 0 false).map GearRatios.numbers =
        some [⟨99999, 0, 0, 4⟩, ⟨99999, 0, 6, 10⟩] ∧
      (bigGearSchematic.parseSchematicLine 0 false).map GearRatios.symbols =
        some [⟨'*', 0, 5⟩] ∧
      (bigGearSchematic.parseSchematicLine 0 false).map GearRatios.getSolutionPart2 =
        some 1409865409 ∧
      (bigGearSchematic.parseSchematicLine 0 false).map
          (fun g => ((g.symbols.filter
            (fun s => decide (s.type = '*' ∧ (touching g.numbers s).length = 2))).map
            (fun s => ((touching g.numbers s).map Number.value).prod)).sum) =
        some 9999800001 ∧
      (droppedGearSchematic.parseSchematicLine 0 false).map GearRatios.numbers =
        some [⟨50000, 0, 0, 4⟩, ⟨50000, 0, 6, 10⟩] ∧
      (droppedGearSchematic.parseSchematicLine 0 false).map
          (fun g => g.isTouchingTwoNumbers 0 false) = some (some (-1794967296)) ∧
      (droppedGearSchematic.parseSchematicLine 0 false).map GearRatios.getSolutionPart2 =
        some 0 := by
  decide

/-- C26 (amended): for a parsed schematic (every number has
`colStart ≤ colEnd`) whose number values are non-negative, in which the product
of the two numbers touching a `*` symbol and the sum of these products are
`int` values (at most `INT_MAX`), `getSolutionPart2` is the sum, over the `*`
symbols touched by exactly two numbers, of the product of the values of these
two numbers; other symbols and `*` symbols touched by fewer or more numbers
contribute nothing. -/
theorem getSolutionPart2_sum_of_gear_ratios (g : GearRatios)
    (hspan : ∀ num ∈ g.numbers, num.colStart ≤ num.colEnd)
    (hnonneg : ∀ num ∈ g.numbers, 0 ≤ num.value)
    (hprod : ∀ s ∈ g.symbols, s.type = '*' → (touching g.numbers s).length = 2 →
      ((touching g.numbers s).map Number.value).prod ≤ INT_MAX)
    (hsum : ((g.symbols.filter
          (fun s => decide (s.type = '*' ∧ (touching g.numbers s).length = 2))).map
        (fun s => ((touching g.numbers s).map Number.value).prod)).sum ≤ INT_MAX) :
    g.getSolutionPart2 =
      ((g.symbols.filter
          (fun s => decide (s.type = '*' ∧ (touching g.numbers s).length = 2))).map
        (fun s => ((touching g.numbers s).map Number.value).prod)).sum := by
  have h := gear_sum_foldl g hspan hnonneg hprod g.symbols.length (le_refl _)
  rw [List.take_length] at h
  have hnn : 0 ≤ ((g.symbols.filter
        (fun s => decide (s.type = '*' ∧ (touching g.numbers s).length = 2))).map
      (fun s => ((touching g.numbers s).map Number.value).prod)).sum := by
    apply List.sum_nonneg
    intro x hx
    obtain ⟨s, _, rfl⟩ := List.mem_map.mp hx
    apply prod_values_nonneg
    intro num hnum
    exact hnonneg num (List.mem_of_mem_filter hnum)
  unfold GearRatios.getSolutionPart2
  rw [h]
  exact wrap32_of_fits _ (by omega) (by unfold INT_MAX at hsum; exact hsum)

/-- C26 (amended), on the first rows of the puzzle's example: both `*` touch two
numbers and the sum is `467 * 35 + 617 * 35`. -/
theorem getSolutionPart2_sum_of_gear_ratios_witness :
    exampleParsed.getSolutionPart2 = 467 * 35 + 35 * 617 ∧
      exampleParsed.getSolutionPart2 =
        ((exampleParsed.symbols.filter
            (fun s => decide (s.type = '*' ∧ (touching exampleParsed.numbers s).length = 2))).map
          (fun s => ((touching exampleParsed.numbers s).map Number.value).prod)).sum :=
  ⟨by decide,
   getSolutionPart2_sum_of_gear_ratios exampleParsed (by decide) (by decide) (by decide)
     (by decide)⟩

/-! ### Parsing a schematic row -/

theorem charAt_drop (line : List Char) (k t : Nat) :
    charAt (line.drop k) t = charAt line (k + t) := by
  unfold charAt
  rw [List.getD_eq_getElem?_getD, List.getD_eq_getElem?_getD, List.getElem?_drop]

theorem charAt_cons_zero (c : Char) (cs : List Char) : charAt (c :: cs) 0 = c := rfl

theorem charAt_cons_succ (c : Char) (cs : List Char) (t : Nat) :
    charAt (c :: cs) (t + 1) = charAt cs t := rfl

theorem scanNumber_eq (l : List Char) :
    ∀ (val : Int) (pos : Nat),
      scanNumber l val pos =
        ((l.takeWhile isdigit).foldl
            (fun val c => wrap32 (wrap32 (val * 10) + ((c.toNat : Int) - 48))) val,
          pos + (l.takeWhile isdigit).length, l.drop (l.takeWhile isdigit).length) := by
  induction l with
  | nil => intro val pos; rfl
  | cons c cs ih =>
    intro val pos
    by_cases hc : isdigit c = true
    · simp only [scanNumber, hc, if_true, ih, List.takeWhile_cons, List.foldl_cons,
        List.length_cons, List.drop_succ_cons]
      refine Prod.ext rfl (Prod.ext ?_ rfl)
      simp only
      omega
    · simp only [scanNumber, hc, if_false, List.takeWhile_cons, List.foldl_nil, List.length_nil,
        List.drop_zero, Bool.false_eq_true, add_zero]

theorem scan_foldl_wrap (digits : List Char) :
    ∀ val : Int,
      digits.foldl (fun val c => wrap32 (wrap32 (val * 10) + ((c.toNat : Int) - 48)))
          (wrap32 val) =
        wrap32 (digits.foldl (fun val c => val * 10 + ((c.toNat : Int) - 48)) val) := by
  induction digits with
  | nil => intro val; rfl
  | cons c cs ih =>
    intro val
    rw [List.foldl_cons, List.foldl_cons, wrap32_mul_wrap32, wrap32_add_wrap32, ih]

theorem scan_foldl_nonneg (digits : List Char) (hd : ∀ c ∈ digits, isdigit c = true) :
    ∀ val : Int, 0 ≤ val →
      0 ≤ digits.foldl (fun val c => val * 10 + ((c.toNat : Int) - 48)) val := by
  induction digits with
  | nil => intro val h; exact h
  | cons c cs ih =>
    intro val h
    rw [List.foldl_cons]
    apply ih (fun x hx => hd x (List.mem_cons_of_mem _ hx))
    have hc := hd c (List.mem_cons_self _ _)
    simp only [isdigit, Bool.and_eq_true, decide_eq_true_eq] at hc
    omega

theorem numberAt_value_nonneg (ind : Int) (line : List Char) (i : Nat) :
    0 ≤ (numberAt ind line i).value := by
  unfold numberAt decimalValue
  apply scan_foldl_nonneg _ _ 0 (le_refl _)
  intro c hc
  exact (List.mem_takeWhile_imp hc)

theorem storedNumber_of_fits (n : Number) (h0 : 0 ≤ n.value) (h1 : n.value ≤ INT_MAX) :
    storedNumber n = n := by
  unfold storedNumber
  rw [wrap32_of_fits _ (by omega) (by unfold INT_MAX at h1; exact h1)]

theorem run_facts (l : List Char) :
    (l.takeWhile isdigit).length ≤ l.length ∧
      (∀ t, t < (l.takeWhile isdigit).length → isdigit (charAt l t) = true) ∧
      ((l.takeWhile isdigit).length < l.length →
        isdigit (charAt l (l.takeWhile isdigit).length) = false) := by
  induction l with
  | nil =>
    refine ⟨le_refl _, ?_, ?_⟩
    · intro t ht
      simp at ht
    · intro h
      simp at h
  | cons c cs ih =>
    obtain ⟨h1, h2, h3⟩ := ih
    by_cases hc : isdigit c = true
    · simp only [List.takeWhile_cons, hc, if_true, List.length_cons]
      refine ⟨by omega, ?_, ?_⟩
      · intro t ht
        cases t with
        | zero => exact hc
        | succ t => rw [charAt_cons_succ]; exact h2 t (by omega)
      · intro hlt
        rw [charAt_cons_succ]
        exact h3 (by omega)
    · have hc0 : isdigit c = false := by simpa using hc
      simp only [List.takeWhile_cons, hc, if_false, List.length_nil, List.length_cons,
        Bool.false_eq_true]
      refine ⟨by omega, fun t ht => by omega, fun _ => ?_⟩
      rw [charAt_cons_zero]
      exact hc0

theorem parseLoop_spec (ind : Int) (line : List Char) :
    ∀ (fuel k : Nat) (acc : List Number × List Symbol),
      k ≤ line.length → line.length - k ≤ fuel →
      (isdigit (charAt line k) = true → k < line.length →
        (k = 0 ∨ isdigit (charAt line (k - 1)) = false)) →
      parseLoop ind fuel (line.drop k) k acc =
        (acc.1 ++ ((List.range' k (line.length - k)).filter (startsRun line)).map
            (fun i => storedNumber (numberAt ind line i)),
         acc.2 ++ ((List.range' k (line.length - k)).filter (holdsSymbol line)).map
            (fun i => ⟨charAt line i, ind, (i : Int)⟩)) := by
  intro fuel
  induction fuel with
  | zero =>
    intro k acc hk hfuel _
    have hz : line.length - k = 0 := by omega
    rw [hz]
    simp [parseLoop]
  | succ fuel ih =>
    intro k acc hk hfuel hbound
    by_cases hend : k = line.length
    · have hz : line.length - k = 0 := by omega
      rw [hz, hend, List.drop_length]
      simp [parseLoop]
    · have hlt : k < line.length := by omega
      have hdrop : line.drop k = charAt line k :: line.drop (k + 1) := by
        rw [List.drop_eq_getElem_cons hlt]
        congr 1
        unfold charAt
        rw [List.getD_eq_getElem?_getD, List.getElem?_eq_getElem hlt]
        rfl
      by_cases hd : isdigit (charAt line k) = true
      · obtain ⟨hm1, hm2, hm3⟩ := run_facts (line.drop k)
        have hmpos : 0 < ((line.drop k).takeWhile isdigit).length := by
          rw [hdrop, List.takeWhile_cons, if_pos hd]
          simp
        have hlen : (line.drop k).length = line.length - k := List.length_drop k line
        rw [hlen] at hm1 hm3
        have hstep : parseLoop ind (fuel + 1) (line.drop k) k acc =
            parseLoop ind fuel (line.drop (k + ((line.drop k).takeWhile isdigit).length))
              (k + ((line.drop k).takeWhile isdigit).length)
              (acc.1 ++ [storedNumber (numberAt ind line k)], acc.2) := by
          have hscan := scanNumber_eq (line.drop k) 0 k
          rw [List.drop_drop] at hscan
          conv_lhs => rw [hdrop]
          simp only [parseLoop, hd, if_true]
          have h0 : (0 : Int) = wrap32 0 := by decide
          rw [← hdrop, hscan]
          simp only [numberAt, decimalValue, storedNumber]
          rw [h0, scan_foldl_wrap, ← h0]
          congr 4
        rw [hstep]
        generalize hm : ((line.drop k).takeWhile isdigit).length = m at hm1 hm2 hm3 hmpos
        have hih := ih (k + m) (acc.1 ++ [storedNumber (numberAt ind line k)], acc.2) (by omega) (by omega)
          (by
            intro hdig hklt
            have := hm3 (by omega)
            rw [charAt_drop] at this
            rw [this] at hdig
            cases hdig)
        rw [hih]
        have hsplit : List.range' k (line.length - k) =
            k :: List.range' (k + 1) (m - 1) ++ List.range' (k + m) (line.length - (k + m)) := by
          have h1 : line.length - k = (line.length - (k + m)) + m := by omega
          rw [h1, ← List.range'_append_1]
          have h2 : m = (m - 1) + 1 := by omega
          have h3 : List.range' k m = k :: List.range' (k + 1) (m - 1) := by
            conv_lhs => rw [h2, List.range'_succ]
          rw [h3]
        have hstart : startsRun line k = true := by
          unfold startsRun
          rw [hd]
          rcases hbound hd hlt with h0 | hprev
          · simp [h0]
          · simp [hprev]
        have hinner : ∀ a ∈ List.range' (k + 1) (m - 1),
            startsRun line a = false ∧ holdsSymbol line a = false := by
          intro a ha
          rw [List.mem_range'_1] at ha
          have hda : isdigit (charAt line a) = true := by
            have := hm2 (a - k) (by omega)
            rw [charAt_drop] at this
            have hka : k + (a - k) = a := by omega
            rw [hka] at this
            exact this
          have hdp : isdigit (charAt line (a - 1)) = true := by
            have := hm2 (a - 1 - k) (by omega)
            rw [charAt_drop] at this
            have hka : k + (a - 1 - k) = a - 1 := by omega
            rw [hka] at this
            exact this
          have ha0 : (a == 0) = false := by
            have : a ≠ 0 := by omega
            simpa using this
          constructor
          · simp [startsRun, hda, hdp, ha0]
          · simp [holdsSymbol, hda]
        have hf1 : (List.range' (k + 1) (m - 1)).filter (startsRun line) = [] := by
          rw [List.filter_eq_nil_iff]
          intro a ha
          rw [(hinner a ha).1]
          simp
        have hf2 : (List.range' (k + 1) (m - 1)).filter (holdsSymbol line) = [] := by
          rw [List.filter_eq_nil_iff]
          intro a ha
          rw [(hinner a ha).2]
          simp
        have hsym : holdsSymbol line k = false := by simp [holdsSymbol, hd]
        rw [hsplit]
        simp only [List.cons_append, List.filter_cons, hstart, hsym, if_true, List.filter_append,
          hf1, hf2, List.nil_append, List.map_cons, List.append_assoc, List.singleton_append,
          Bool.false_eq_true, if_false]
      · have hd0 : isdigit (charAt line k) = false := by simpa using hd
        have hstep : parseLoop ind (fuel + 1) (line.drop k) k acc =
            parseLoop ind fuel (line.drop (k + 1)) (k + 1)
              (acc.1, if charAt line k ≠ '.' then
                acc.2 ++ [⟨charAt line k, ind, (k : Int)⟩] else acc.2) := by
          conv_lhs => rw [hdrop]
          simp only [parseLoop, hd0, Bool.false_eq_true, if_false]
        rw [hstep]
        have hih := ih (k + 1) (acc.1, if charAt line k ≠ '.' then
              acc.2 ++ [⟨charAt line k, ind, (k : Int)⟩] else acc.2) (by omega) (by omega)
          (by
            intro _ _
            right
            simpa using hd0)
        rw [hih]
        have hsplit : List.range' k (line.length - k) =
            k :: List.range' (k + 1) (line.length - (k + 1)) := by
          have h1 : line.length - k = (line.length - (k + 1)) + 1 := by omega
          rw [h1, List.range'_succ]
        have hstart : startsRun line k = false := by simp [startsRun, hd0]
        rw [hsplit]
        by_cases hdot : charAt line k = '.'
        · have hsym : holdsSymbol line k = false := by simp [holdsSymbol, hdot]
          simp only [List.filter_cons, hstart, hsym, Bool.false_eq_true, if_false, hdot,
            ne_eq, not_true_eq_false]
        · have hsym : holdsSymbol line k = true := by simp [holdsSymbol, hd0, hdot]
          simp only [List.filter_cons, hstart, hsym, Bool.false_eq_true, if_false, if_true,
            ne_eq, hdot, not_false_eq_true, List.map_cons, List.append_assoc,
            List.singleton_append]

/-- C27 fails when the decimal value of a run is not an `int` value: on the
row `9999999999` the number appended has the value `1410065407`, while the run's
decimal value is `9999999999`. -/
theorem parse_value_counterexample :
    (longRunSchematic.parseSchematicLine 0 false).map GearRatios.numbers =
        some [⟨1410065407, 0, 0, 9⟩] ∧
      numbersOfLine 0 "9999999999".data = [⟨9999999999, 0, 0, 9⟩] ∧
      (longRunSchematic.parseSchematicLine 0 false).map GearRatios.numbers ≠
        some (longRunSchematic.numbers ++ numbersOfLine 0 "9999999999".data) := by
  decide

/-- C27 (amended): for a row `ind` of the schematic, `parseSchematicLine` returns
and appends to `numbers` exactly one `Number` for each column where a maximal run
of digits starts, in increasing column order, whose `colStart` and `colEnd` are
the first and the last column of the run and whose value is the decimal value of
the run reduced to an `int`, and appends to `symbols` exactly one `Symbol` for
each column that holds neither a digit nor a dot, with the character, the row and
the column; nothing else changes.  When the decimal value of every run of the row
is at most `INT_MAX`, the value of each number is the decimal value of its run. -/
theorem parseSchematicLine_runs_and_symbols (g : GearRatios) (ind : Nat) (detail : Bool)
    (line : String) (hrow : g.schematic[ind]? = some line) :
    g.parseSchematicLine ind detail =
        some { g with
          numbers := g.numbers ++ (numbersOfLine (ind : Int) line.data).map storedNumber,
          symbols := g.symbols ++ symbolsOfLine (ind : Int) line.data } ∧
      ((∀ num ∈ numbersOfLine (ind : Int) line.data, num.value ≤ INT_MAX) →
        g.parseSchematicLine ind detail =
          some { g with
            numbers := g.numbers ++ numbersOfLine (ind : Int) line.data,
            symbols := g.symbols ++ symbolsOfLine (ind : Int) line.data }) := by
  have hmain : g.parseSchematicLine ind detail =
      some { g with
        numbers := g.numbers ++ (numbersOfLine (ind : Int) line.data).map storedNumber,
        symbols := g.symbols ++ symbolsOfLine (ind : Int) line.data } := by
    unfold GearRatios.parseSchematicLine
    rw [hrow]
    have h := parseLoop_spec (ind : Int) line.data line.data.length 0 (g.numbers, g.symbols)
      (Nat.zero_le _) (by omega) (fun _ _ => Or.inl rfl)
    rw [List.drop_zero, Nat.sub_zero, ← List.range_eq_range'] at h
    simp only [h, numbersOfLine, symbolsOfLine, List.map_map]
    rfl
  refine ⟨hmain, fun hfit => ?_⟩
  have hid : (numbersOfLine (ind : Int) line.data).map storedNumber =
      numbersOfLine (ind : Int) line.data := by
    have hall : ∀ num ∈ numbersOfLine (ind : Int) line.data, storedNumber num = num := by
      intro num hnum
      apply storedNumber_of_fits num _ (hfit num hnum)
      unfold numbersOfLine at hnum
      obtain ⟨i, _, rfl⟩ := List.mem_map.mp hnum
      exact numberAt_value_nonneg _ _ i
    calc (numbersOfLine (ind : Int) line.data).map storedNumber
        = (numbersOfLine (ind : Int) line.data).map id := List.map_congr_left hall
      _ = numbersOfLine (ind : Int) line.data := List.map_id _
  rw [hmain, hid]

set_option maxRecDepth 100000 in
/-- The row `467..114..` of the example: the numbers 467 in columns 0 to 2 and 114
in columns 5 to 7 are appended, and no symbol. -/
theorem parseSchematicLine_runs_and_symbols_witness :
    exampleSchematic.schematic[0]? = some "467..114.." ∧
      (exampleSchematic.parseSchematicLine 0 false =
          some { exampleSchematic with
            numbers := exampleSchematic.numbers ++
              (numbersOfLine ((0 : Nat) : Int) "467..114..".data).map storedNumber,
            symbols := exampleSchematic.symbols ++
              symbolsOfLine ((0 : Nat) : Int) "467..114..".data } ∧
        ((∀ num ∈ numbersOfLine ((0 : Nat) : Int) "467..114..".data, num.value ≤ INT_MAX) →
          exampleSchematic.parseSchematicLine 0 false =
            some { exampleSchematic with
              numbers := exampleSchematic.numbers ++
                numbersOfLine ((0 : Nat) : Int) "467..114..".data,
              symbols := exampleSchematic.symbols ++
                symbolsOfLine ((0 : Nat) : Int) "467..114..".data })) ∧
      (∀ num ∈ numbersOfLine ((0 : Nat) : Int) "467..114..".data, num.value ≤ INT_MAX) ∧
      numbersOfLine 0 "467..114..".data = [⟨467, 0, 0, 2⟩, ⟨114, 0, 5, 7⟩] ∧
      symbolsOfLine 1 "...*......".data = [⟨'*', 1, 3⟩] :=
  ⟨rfl, parseSchematicLine_runs_and_symbols exampleSchematic 0 false "467..114.." rfl,
    by decide, by decide, by decide⟩

end Day3
